import Mathlib

/-!
# distributed-systems-go-demos: RPC framework and pub/sub broker

A shallow embedding of `internal/rpc` (codec, server, client) and
`internal/broker` of the repository, followed by theorems about them.

Conventions of the embedding.

* The wire is a sequence of Unicode scalar values (`Bytes`): the UTF-8 layer
  under `encoding/json` is the identity on valid UTF-8, and Go strings are
  modelled by `String`, that is by the valid UTF-8 strings.  Byte sequences
  that are not valid UTF-8 are outside the embedding.
* A value of Go type `interface{}` is a `Value`.  A finite `float64` is a
  `Float64`, an exact binary fraction with a sign; NaN and the infinities
  are outside the embedding.
* `json.Unmarshal` is embedded in two steps, as it works: the text is checked
  and read as a JSON value (`Json`, numbers kept as written), then the value
  is stored into the Go value by the type of the target.  The text of the
  error it returns is taken from `encoding/json` as it is (`ErrorText`).
* A Go map is an association list; `map[string]interface{}` values keep their
  entries in ascending key order, the order in which `json.Marshal` emits them.
* A channel is a record in a heap of channels and is named by its index.
* A run-time panic is an explicit outcome (`Result.panic`).
-/

namespace Rpc

/-- The wire: a sequence of characters. -/
abbrev Bytes := List Char

/-! ## The type `float64` -/

/-- A finite `float64`: the number `num / 2 ^ scale`, negated when `neg` is set, so
that zero has a sign. The form is canonical: `scale` is 0 or `num` is odd. -/
structure Float64 where
  neg : Bool
  num : Nat
  scale : Nat
  deriving DecidableEq

instance (n : Nat) : OfNat Float64 n := ⟨⟨false, n, 0⟩⟩

/-- The number of binary digits of `n`, counted in at most `fuel` halvings. -/
def bitLength : Nat → Nat → Nat
  | 0, _ => 0
  | fuel + 1, n => if n = 0 then 0 else bitLength fuel (n / 2) + 1

/-- The fraction `num / 2 ^ scale` in lowest terms. -/
def reduceScale : Nat → Nat → Nat × Nat
  | num, 0 => (num, 0)
  | num, scale + 1 => if num % 2 = 0 then reduceScale (num / 2) scale else (num, scale + 1)

/-- The exponent of the leading binary digit of `n / d`, for positive `n` and `d`. -/
def leadingExp (n d : Nat) : Int :=
  let e0 : Int := (bitLength n n : Int) - (bitLength d d : Int)
  if (if 0 ≤ e0 then d * 2 ^ e0.toNat ≤ n else d ≤ n * 2 ^ (-e0).toNat) then e0 else e0 - 1

/-- The integer nearest to `n / d`, a tie going to the even one. -/
def roundDiv (n d : Nat) : Nat :=
  if d < 2 * (n % d) ∨ (2 * (n % d) = d ∧ (n / d) % 2 = 1) then n / d + 1 else n / d

/-- The multiple of `2 ^ q` nearest to `n / d`, a tie going to the even multiple, as a
`float64`; `none` when it is `2 ^ 1024` or more, given that `n / d` has its leading
binary digit at most 52 places above `q`. -/
def Float64.roundAt (neg : Bool) (n d : Nat) (q : Int) : Option Float64 :=
  if 0 ≤ q then
    if 971 < q ∨ (q = 971 ∧ 2 ^ 53 ≤ roundDiv n (d * 2 ^ q.toNat)) then none
    else some ⟨neg, roundDiv n (d * 2 ^ q.toNat) * 2 ^ q.toNat, 0⟩
  else
    some ⟨neg, (reduceScale (roundDiv (n * 2 ^ (-q).toNat) d) (-q).toNat).1,
      (reduceScale (roundDiv (n * 2 ^ (-q).toNat) d) (-q).toNat).2⟩

/-- The `float64` nearest to `n / d`, a tie going to the even significand (IEEE 754
round to nearest even): 53 binary digits are kept, fewer below `2 ^ -1022`; `none`
when the result is beyond the largest `float64`. A result below half the smallest
subnormal number is zero. -/
def Float64.round (neg : Bool) (n d : Nat) : Option Float64 :=
  if n = 0 ∨ d = 0 then some ⟨neg, 0, 0⟩
  else Float64.roundAt neg n d (max (leadingExp n d - 52) (-1074))

/-- The integer part of a `float64`, rounded toward zero. -/
def Float64.trunc (f : Float64) : Int :=
  if f.neg then -((f.num / 2 ^ f.scale : Nat) : Int) else ((f.num / 2 ^ f.scale : Nat) : Int)

/-- Whether the magnitude of `a` is below the magnitude of `b`. -/
def Float64.absLt (a b : Float64) : Bool :=
  a.num * 2 ^ b.scale < b.num * 2 ^ a.scale

/-- The exponent of the leading decimal digit of `n / d`, for positive `n` and `d`:
the search goes down from `hi`. -/
def leadingExp10 : Nat → Int → Nat → Nat → Int
  | 0, hi, _, _ => hi
  | fuel + 1, hi, n, d =>
    if (if 0 ≤ hi then d * 10 ^ hi.toNat ≤ n else d ≤ n * 10 ^ (-hi).toNat) then hi
    else leadingExp10 fuel (hi - 1) n d

/-- Remove the trailing zeros of a decimal number, adding them to the exponent. -/
def stripZeros : Nat → Nat → Int → Nat × Int
  | 0, digits, e => (digits, e)
  | fuel + 1, digits, e =>
    if digits ≠ 0 ∧ digits % 10 = 0 then stripZeros fuel (digits / 10) (e + 1) else (digits, e)

/-- The `float64` nearest to `digits * 10 ^ e`. -/
def roundDecimal (neg : Bool) (digits : Nat) (e : Int) : Option Float64 :=
  if 0 ≤ e then Float64.round neg (digits * 10 ^ e.toNat) 1
  else Float64.round neg digits (10 ^ (-e).toNat)

/-- The decimal number of `k` digits nearest to the `float64` that is read back as the
same `float64`, if there is one: the digits and the exponent of the last digit. -/
def shortestAt (f : Float64) (p10 : Int) (k : Nat) : Option (Nat × Int) :=
  let e : Int := p10 - ((k : Int) - 1)
  let A := if 0 ≤ e then f.num else f.num * 10 ^ (-e).toNat
  let B := if 0 ≤ e then 2 ^ f.scale * 10 ^ e.toNat else 2 ^ f.scale
  let lo := A / B
  let hi := if A % B = 0 then lo else lo + 1
  let okLo : Bool := decide (roundDecimal f.neg lo e = some f)
  let okHi : Bool := decide (roundDecimal f.neg hi e = some f)
  if okLo && okHi then
    if 2 * (A % B) < B then some (lo, e)
    else if B < 2 * (A % B) then some (hi, e)
    else if lo % 2 = 0 then some (lo, e) else some (hi, e)
  else if okLo then some (lo, e)
  else if okHi then some (hi, e)
  else none

/-- The shortest decimal number that is read back as the `float64`, the nearest to it
among those of that length, found among the numbers of `k` digits and more. -/
def shortestFrom (f : Float64) (p10 : Int) : Nat → Nat → Nat × Int
  | 0, k => (shortestAt f p10 k).getD (0, 0)
  | fuel + 1, k =>
    match shortestAt f p10 k with
    | some r => r
    | none => shortestFrom f p10 fuel (k + 1)

/-- The digits of the shortest decimal number that is read back as the non-zero
`float64`, without trailing zeros, and the exponent of the last digit. -/
def Float64.shortest (f : Float64) : Nat × Int :=
  let p10 := leadingExp10 700 ((Nat.toDigits 10 (f.num / 2 ^ f.scale)).length) f.num (2 ^ f.scale)
  let r := shortestFrom f p10 16 1
  stripZeros 20 r.1 r.2

/-- The format `f` of `strconv`: the digits with the decimal point after `dp` of them. -/
def formatF (digits : List Char) (dp : Int) : Bytes :=
  if dp ≤ 0 then '0' :: '.' :: (List.replicate (-dp).toNat '0' ++ digits)
  else if (digits.length : Int) ≤ dp then digits ++ List.replicate (dp.toNat - digits.length) '0'
  else digits.take dp.toNat ++ '.' :: digits.drop dp.toNat

/-- The format `e` of `strconv` as `encoding/json` writes it: one digit before the
decimal point, and the exponent with its sign and without a leading zero. -/
def formatE (digits : List Char) (dp : Int) : Bytes :=
  match digits with
  | [] => []
  | d :: ds =>
    d :: ((if ds = [] then [] else '.' :: ds) ++
      'e' :: (if dp - 1 < 0 then '-' else '+') :: Nat.toDigits 10 (dp - 1).natAbs)

/-- The number `1e-6` of type `float64`. -/
def float1em6 : Float64 := (Float64.round false 1 (10 ^ 6)).getD 0

/-- The text `encoding/json` writes for a `float64`: an integer below `2 ^ 53` in full
(the exact-integer case of `strconv`; such a number is 0 or lies between 1 and 1e21);
else the shortest decimal number that is read back as the same `float64`, in the format
`e` when the magnitude is below 1e-6 or at least 1e21 and in the format `f` otherwise. -/
def Float64.format (f : Float64) : Bytes :=
  (if f.neg then ['-'] else []) ++
    (if f.scale = 0 ∧ f.num < 2 ^ 53 then Nat.toDigits 10 f.num
     else
       let digits := Nat.toDigits 10 f.shortest.1
       let dp : Int := (digits.length : Int) + f.shortest.2
       if f.absLt float1em6 || !(f.absLt ⟨false, 10 ^ 21, 0⟩) then formatE digits dp
       else formatF digits dp)

/-- The conversion `float64(n)` of an `int`. -/
def Float64.ofInt (n : Int) : Float64 :=
  match Float64.round (decide (n < 0)) n.natAbs 1 with
  | some f => f
  | none => ⟨decide (n < 0), 0, 0⟩

/-- The largest `float64`, with the given sign. -/
def Float64.largest (neg : Bool) : Float64 := ⟨neg, (2 ^ 53 - 1) * 2 ^ 971, 0⟩

/-- Twice a `float64`, and the largest `float64` of its sign when that is beyond the
largest `float64`. -/
def Float64.double (f : Float64) : Float64 :=
  match f.scale with
  | 0 =>
    match Float64.round f.neg (2 * f.num) 1 with
    | some y => y
    | none => Float64.largest f.neg
  | k + 1 => ⟨f.neg, f.num, k⟩

/-! ## Values of type `interface{}` -/

/-- A Go value held in an `interface{}`. -/
inductive Value where
  /-- The nil interface. -/
  | null
  | bool (b : Bool)
  /-- A value of static type `int`. -/
  | int (n : Int)
  | float64 (f : Float64)
  | str (s : String)
  /-- A `[]interface{}`. -/
  | arr (xs : List Value)
  /-- A `map[string]interface{}`, entries in ascending key order. -/
  | obj (kvs : List (String × Value))
  /-- A value of a type `encoding/json` cannot encode (a channel, a function, a complex
  number), with the name of the type as `reflect` prints it. -/
  | unsupported (typeName : String)

/-- Outcome of a Go call that returns `(T, error)` and may panic. -/
inductive Result (α : Type) where
  | ok (v : α)
  /-- A non-nil `error` with its message. -/
  | error (msg : String)
  /-- A run-time panic. -/
  | panic (msg : String)

/-! ## `encoding/json`: encoder -/

/-- Lower-case hexadecimal digit of `d < 16`. -/
def hexDigit (d : Nat) : Char :=
  if d < 10 then Char.ofNat (48 + d) else Char.ofNat (87 + d)

/-- The six characters `\u00XY` for a code point below 256. -/
def escapeU00 (n : Nat) : Bytes :=
  ['\\', 'u', '0', '0', hexDigit (n / 16), hexDigit (n % 16)]

/-- Encoding of one character of a string, with HTML escaping as `json.Marshal` does. -/
def encodeChar (c : Char) : Bytes :=
  if c = '"' then ['\\', '"']
  else if c = '\\' then ['\\', '\\']
  else if c = '\x08' then ['\\', 'b']
  else if c = '\x0c' then ['\\', 'f']
  else if c = '\n' then ['\\', 'n']
  else if c = '\r' then ['\\', 'r']
  else if c = '\t' then ['\\', 't']
  else if c.toNat < 32 then escapeU00 c.toNat
  else if c = '<' ∨ c = '>' ∨ c = '&' then escapeU00 c.toNat
  else if c = Char.ofNat 0x2028 then ['\\', 'u', '2', '0', '2', '8']
  else if c = Char.ofNat 0x2029 then ['\\', 'u', '2', '0', '2', '9']
  else [c]

/-- Characters of a string literal between the quotes. -/
def encodeChars : List Char → Bytes
  | [] => []
  | c :: cs => encodeChar c ++ encodeChars cs

/-- A JSON string literal. -/
def encodeString (s : String) : Bytes :=
  '"' :: (encodeChars s.data ++ ['"'])

/-- Decimal literal of an integer. -/
def encodeInt (n : Int) : Bytes :=
  match n with
  | Int.ofNat m => Nat.toDigits 10 m
  | Int.negSucc m => '-' :: Nat.toDigits 10 (m + 1)

mutual
/-- Whether `json.Marshal` accepts the value. -/
def Value.encodable : Value → Bool
  | .unsupported _ => false
  | .arr xs => encodableList xs
  | .obj kvs => encodableFields kvs
  | _ => true
/-- All elements of a slice are encodable. -/
def encodableList : List Value → Bool
  | [] => true
  | v :: vs => v.encodable && encodableList vs
/-- All values of a map are encodable. -/
def encodableFields : List (String × Value) → Bool
  | [] => true
  | (_, v) :: kvs => v.encodable && encodableFields kvs
end

mutual
/-- The compact JSON text of an encodable value. -/
def Value.encode : Value → Bytes
  | .null => ['n', 'u', 'l', 'l']
  | .bool true => ['t', 'r', 'u', 'e']
  | .bool false => ['f', 'a', 'l', 's', 'e']
  | .int n => encodeInt n
  | .float64 f => f.format
  | .str s => encodeString s
  | .arr [] => ['[', ']']
  | .arr (v :: vs) => '[' :: (v.encode ++ encodeTail vs)
  | .obj [] => ['{', '}']
  | .obj ((k, v) :: kvs) => '{' :: (encodeString k ++ ':' :: (v.encode ++ encodeFieldsTail kvs))
  | .unsupported _ => []
/-- The elements after the first, each preceded by a comma, and the closing bracket. -/
def encodeTail : List Value → Bytes
  | [] => [']']
  | v :: vs => ',' :: (v.encode ++ encodeTail vs)
/-- The members after the first, each preceded by a comma, and the closing brace. -/
def encodeFieldsTail : List (String × Value) → Bytes
  | [] => ['}']
  | (k, v) :: kvs => ',' :: (encodeString k ++ ':' :: (v.encode ++ encodeFieldsTail kvs))
end

mutual
/-- The type of the first part of the value, in the order of encoding, that
`json.Marshal` cannot encode. -/
def Value.unsupportedType : Value → Option String
  | .unsupported typeName => some typeName
  | .arr xs => unsupportedTypeList xs
  | .obj kvs => unsupportedTypeFields kvs
  | _ => none
/-- The first such type among the elements of a slice. -/
def unsupportedTypeList : List Value → Option String
  | [] => none
  | v :: vs =>
    match v.unsupportedType with
    | some t => some t
    | none => unsupportedTypeList vs
/-- The first such type among the values of a map. -/
def unsupportedTypeFields : List (String × Value) → Option String
  | [] => none
  | (_, v) :: kvs =>
    match v.unsupportedType with
    | some t => some t
    | none => unsupportedTypeFields kvs
end

/-! ## `encoding/json`: decoder -/

/-- JSON insignificant whitespace. -/
def isWs (c : Char) : Bool :=
  c = ' ' || c = '\t' || c = '\n' || c = '\r'

/-- Skip leading whitespace. -/
def skipWs : List Char → List Char
  | [] => []
  | c :: cs => if isWs c then skipWs cs else c :: cs

/-- Value of a hexadecimal digit. -/
def hexVal (c : Char) : Option Nat :=
  if '0' ≤ c ∧ c ≤ '9' then some (c.toNat - 48)
  else if 'a' ≤ c ∧ c ≤ 'f' then some (c.toNat - 87)
  else if 'A' ≤ c ∧ c ≤ 'F' then some (c.toNat - 55)
  else none

/-- The function `getu4`: the number written by `\uXXXX` at the head of the input. -/
def getu4 : List Char → Option (Nat × List Char)
  | '\\' :: 'u' :: a :: b :: c :: d :: rest =>
    match hexVal a, hexVal b, hexVal c, hexVal d with
    | some x, some y, some z, some w => some (((x * 16 + y) * 16 + z) * 16 + w, rest)
    | _, _, _, _ => none
  | _ => none

/-- Whether a code unit is a UTF-16 surrogate. -/
def isSurrogate (n : Nat) : Bool := 0xd800 ≤ n && n < 0xe000

/-- The function `utf16.DecodeRune`: the code point of a surrogate pair, if it is one. -/
def decodeSurrogates (hi lo : Nat) : Option Nat :=
  if 0xd800 ≤ hi ∧ hi < 0xdc00 ∧ 0xdc00 ≤ lo ∧ lo < 0xe000 then
    some ((hi - 0xd800) * 1024 + (lo - 0xdc00) + 0x10000)
  else none

/-- The character of a single-letter escape. -/
def simpleEscape (e : Char) : Option Char :=
  if e = '"' then some '"'
  else if e = '\\' then some '\\'
  else if e = '/' then some '/'
  else if e = 'b' then some '\x08'
  else if e = 'f' then some '\x0c'
  else if e = 'n' then some '\n'
  else if e = 'r' then some '\r'
  else if e = 't' then some '\t'
  else none

/-- One character of a string literal, escape sequences decoded: the character and the
rest of the input; `none` on a syntax error or at the closing quote. -/
def decodeChar : List Char → Option (Char × List Char)
  | [] => none
  | c :: cs =>
    if c = '"' then none
    else if c = '\\' then
      match cs with
      | [] => none
      | e :: cs1 =>
        if e = 'u' then
          match getu4 (c :: cs) with
          | none => none
          | some (n, rest) =>
            if isSurrogate n then
              match getu4 rest with
              | none => some (Char.ofNat 0xfffd, rest)
              | some (m, rest1) =>
                match decodeSurrogates n m with
                | some p => some (Char.ofNat p, rest1)
                | none => some (Char.ofNat 0xfffd, rest)
            else some (Char.ofNat n, rest)
        else
          match simpleEscape e with
          | some ch => some (ch, cs1)
          | none => none
    else if c.toNat < 32 then none
    else some (c, cs)

/-- The body of a string literal, after the opening quote, up to and including the
closing quote. -/
def parseStringBody : Nat → List Char → Option (List Char × List Char)
  | 0, _ => none
  | _ + 1, [] => none
  | fuel + 1, c :: cs =>
    if c = '"' then some ([], cs)
    else
      match decodeChar (c :: cs) with
      | none => none
      | some (ch, rest) => (parseStringBody fuel rest).map (fun p => (ch :: p.1, p.2))

/-- Whether a character is a decimal digit. -/
def isDigit (c : Char) : Bool := '0' ≤ c && c ≤ '9'

/-- Read decimal digits into an accumulator. -/
def parseDigits : List Char → Nat → Nat × List Char
  | [], acc => (acc, [])
  | c :: cs, acc => if isDigit c then parseDigits cs (acc * 10 + (c.toNat - 48)) else (acc, c :: cs)

/-- A JSON number as it is written: the sign, the digits of the integer part and of
the fraction read as one number, the power of ten that goes with them (the exponent
less the count of the digits of the fraction), and whether the number is written
without fraction and without exponent. Its value is `digits * 10 ^ exp10`, negated
when `neg` is set. -/
structure NumLit where
  neg : Bool
  digits : Nat
  exp10 : Int
  plain : Bool
  deriving DecidableEq

/-- The integer part of a JSON number: `0`, or a non-zero digit followed by digits. -/
def parseIntPart : List Char → Option (Nat × List Char)
  | [] => none
  | c :: cs =>
    if c = '0' then some (0, cs)
    else if isDigit c then some (parseDigits (c :: cs) 0)
    else none

/-- Read decimal digits into an accumulator and count them. -/
def parseDigitsCount : List Char → Nat → Nat → Nat × Nat × List Char
  | [], acc, k => (acc, k, [])
  | c :: cs, acc, k =>
    if isDigit c then parseDigitsCount cs (acc * 10 + (c.toNat - 48)) (k + 1)
    else (acc, k, c :: cs)

/-- The fraction of a JSON number, if one is written: a point and at least one digit.
The digits are added to `acc` and counted; `none` when no digit follows the point. -/
def parseFraction (acc : Nat) : List Char → Option (Nat × Nat × List Char)
  | [] => some (acc, 0, [])
  | c :: cs =>
    if c = '.' then
      match cs with
      | [] => none
      | d :: _ => if isDigit d then some (parseDigitsCount cs acc 0) else none
    else some (acc, 0, c :: cs)

/-- The digits of an exponent, at least one, with the sign that was read. -/
def parseExpDigits (neg : Bool) : List Char → Option (Int × List Char)
  | [] => none
  | d :: ds =>
    if isDigit d then
      some (if neg then -((parseDigits (d :: ds) 0).1 : Int) else ((parseDigits (d :: ds) 0).1 : Int),
        (parseDigits (d :: ds) 0).2)
    else none

/-- The exponent of a JSON number, if one is written: `e` or `E`, an optional sign and
at least one digit; `none` on a syntax error. -/
def parseExponent : List Char → Option (Option Int × List Char)
  | [] => some (none, [])
  | c :: cs =>
    if c = 'e' ∨ c = 'E' then
      match cs with
      | [] => none
      | d :: ds =>
        if d = '+' then (parseExpDigits false ds).map (fun p => (some p.1, p.2))
        else if d = '-' then (parseExpDigits true ds).map (fun p => (some p.1, p.2))
        else (parseExpDigits false (d :: ds)).map (fun p => (some p.1, p.2))
    else some (none, c :: cs)

/-- The number after its sign. -/
def parseUnsigned (neg : Bool) (s : List Char) : Option (NumLit × List Char) :=
  match parseIntPart s with
  | none => none
  | some (i, r) =>
    match parseFraction i r with
    | none => none
    | some (digits, count, r1) =>
      match parseExponent r1 with
      | none => none
      | some (x, r2) => some (⟨neg, digits, x.getD 0 - count, count = 0 && x.isNone⟩, r2)

/-- A JSON number literal at the head of the input. -/
def parseNumber : List Char → Option (NumLit × List Char)
  | [] => none
  | c :: cs => if c = '-' then parseUnsigned true cs else parseUnsigned false (c :: cs)

/-- The function `strconv.ParseFloat` on a JSON number: the nearest `float64`; `none`
is the range error for a number beyond the largest `float64`. A number of 310 digits
or more before the point is beyond it, and a number below `10 ^ -330` is read as zero. -/
def NumLit.toFloat64 (lit : NumLit) : Option Float64 :=
  if lit.digits = 0 then some ⟨lit.neg, 0, 0⟩
  else if 310 ≤ lit.exp10 then none
  else if lit.exp10 + (Nat.toDigits 10 lit.digits).length < -330 then some ⟨lit.neg, 0, 0⟩
  else roundDecimal lit.neg lit.digits lit.exp10

/-- Range of the Go type `int` (64 bits). -/
def inIntRange (n : Int) : Bool := -(2 ^ 63) ≤ n && n < 2 ^ 63

/-- The function `strconv.ParseInt` on a JSON number, for a field of type `int`: the
number has to be written without fraction and exponent and to lie in the range of
`int`; `none` is the error otherwise. -/
def NumLit.toInt (lit : NumLit) : Option Int :=
  if lit.plain then
    if inIntRange (if lit.neg then -(lit.digits : Int) else (lit.digits : Int)) then
      some (if lit.neg then -(lit.digits : Int) else (lit.digits : Int))
    else none
  else none

/-- Byte-wise order of two strings, the order in which `json.Marshal` sorts map keys
(the order of UTF-8 bytes is the order of code points). -/
def keyLt : List Char → List Char → Bool
  | [], [] => false
  | [], _ :: _ => true
  | _ :: _, [] => false
  | a :: as, b :: bs => if a.toNat < b.toNat then true else if a = b then keyLt as bs else false

/-- Store a key in a `map[string]interface{}` kept in ascending key order: a later
value for the same key replaces the earlier one. -/
def mapInsert (k : String) (v : Value) : List (String × Value) → List (String × Value)
  | [] => [(k, v)]
  | (k1, v1) :: rest =>
    if keyLt k.data k1.data then (k, v) :: (k1, v1) :: rest
    else if k = k1 then (k, v) :: rest
    else (k1, v1) :: mapInsert k v rest

/-- The map built from the members of an object literal, in textual order. -/
def mkMap (members : List (String × Value)) : List (String × Value) :=
  members.foldl (fun m p => mapInsert p.1 p.2 m) []

/-- The rest of the input after a literal, when the input starts with it. -/
def stripLiteral : List Char → List Char → Option (List Char)
  | [], s => some s
  | _ :: _, [] => none
  | l :: ls, c :: cs => if c = l then stripLiteral ls cs else none

/-- A JSON value as it is written: a number is kept as its literal, the members of an
object are kept in the order of the text, duplicates included. -/
inductive Json where
  | null
  | bool (b : Bool)
  | num (lit : NumLit)
  | str (s : String)
  | arr (xs : List Json)
  | obj (members : List (String × Json))

/-- The nesting depth that the scanner of `encoding/json` allows. -/
def maxNestingDepth : Nat := 10000

mutual
/-- Read one JSON value at the head of the input, inside `depth` arrays and objects:
the value and the rest of the input; `none` is a syntax error. -/
def parseJson : Nat → Nat → List Char → Option (Json × List Char)
  | 0, _, _ => none
  | fuel + 1, depth, s =>
    match skipWs s with
    | [] => none
    | c :: r =>
      if c = '"' then (parseStringBody fuel r).map (fun p => (.str (String.mk p.1), p.2))
      else if c = '[' then
        if maxNestingDepth ≤ depth then none
        else
          match skipWs r with
          | [] => none
          | c1 :: r1 =>
            if c1 = ']' then some (.arr [], r1)
            else (parseElems fuel (depth + 1) r).map (fun p => (.arr p.1, p.2))
      else if c = '{' then
        if maxNestingDepth ≤ depth then none
        else
          match skipWs r with
          | [] => none
          | c1 :: r1 =>
            if c1 = '}' then some (.obj [], r1)
            else (parseMembers fuel (depth + 1) r).map (fun p => (.obj p.1, p.2))
      else if c = 'n' then (stripLiteral ['u', 'l', 'l'] r).map (fun r1 => (.null, r1))
      else if c = 't' then (stripLiteral ['r', 'u', 'e'] r).map (fun r1 => (.bool true, r1))
      else if c = 'f' then
        (stripLiteral ['a', 'l', 's', 'e'] r).map (fun r1 => (.bool false, r1))
      else (parseNumber (c :: r)).map (fun p => (.num p.1, p.2))
/-- The elements of a non-empty array, up to and including the closing bracket. -/
def parseElems : Nat → Nat → List Char → Option (List Json × List Char)
  | 0, _, _ => none
  | fuel + 1, depth, s =>
    match parseJson fuel depth s with
    | none => none
    | some (v, r) =>
      match skipWs r with
      | [] => none
      | c :: r1 =>
        if c = ',' then (parseElems fuel depth r1).map (fun p => (v :: p.1, p.2))
        else if c = ']' then some ([v], r1)
        else none
/-- The members of a non-empty object in textual order, up to and including the
closing brace. -/
def parseMembers : Nat → Nat → List Char → Option (List (String × Json) × List Char)
  | 0, _, _ => none
  | fuel + 1, depth, s =>
    match skipWs s with
    | [] => none
    | q :: r =>
      if q = '"' then
        match parseStringBody fuel r with
        | none => none
        | some (k, r1) =>
          match skipWs r1 with
          | [] => none
          | c :: r2 =>
            if c = ':' then
              match parseJson fuel depth r2 with
              | none => none
              | some (v, r3) =>
                match skipWs r3 with
                | [] => none
                | d :: r4 =>
                  if d = ',' then
                    (parseMembers fuel depth r4).map (fun p => ((String.mk k, v) :: p.1, p.2))
                  else if d = '}' then some ([(String.mk k, v)], r4)
                  else none
            else none
      else none
end

/-- The function `checkValid` with the reading of the value: the input is one JSON
value with white space around it; `none` is a syntax error. -/
def parseText (data : Bytes) : Option Json :=
  match parseJson (data.length + 1) 0 data with
  | none => none
  | some (j, rest) => if skipWs rest = [] then some j else none

mutual
/-- Storing a JSON value into an `interface{}`: a number becomes a `float64`, an array
a `[]interface{}`, an object a `map[string]interface{}` in which a later member
replaces an earlier one of the same key; `none` is the error for a number beyond the
range of `float64`. -/
def Json.toValue : Json → Option Value
  | .null => some .null
  | .bool b => some (.bool b)
  | .num lit => lit.toFloat64.map .float64
  | .str s => some (.str s)
  | .arr xs => (toValues xs).map .arr
  | .obj ms => (toFields ms).map (fun fs => .obj (mkMap fs))
/-- Storing the elements of an array. -/
def toValues : List Json → Option (List Value)
  | [] => some []
  | j :: js =>
    match j.toValue, toValues js with
    | some v, some vs => some (v :: vs)
    | _, _ => none
/-- Storing the members of an object, in textual order. -/
def toFields : List (String × Json) → Option (List (String × Value))
  | [] => some []
  | (k, j) :: ms =>
    match j.toValue, toFields ms with
    | some v, some fs => some ((k, v) :: fs)
    | _, _ => none
end

/-! ## `internal/rpc/codec.go` -/

/-- The struct `Request`. `Params` is `none` for the nil slice. -/
structure Request where
  ID : String
  Service : String
  Method : String
  Params : Option (List Value)
  TimeoutMS : Int

/-- The struct `Response`. -/
structure Response where
  ID : String
  Result : Value
  Error : String

/-- The zero `Request`. -/
def Request.zero : Request := ⟨"", "", "", none, 0⟩

/-- The zero `Response`. -/
def Response.zero : Response := ⟨"", .null, ""⟩

/-- Encoding of the `Params` field: `null` for the nil slice, else an array. -/
def encodeParams : Option (List Value) → Bytes
  | none => ['n', 'u', 'l', 'l']
  | some xs => (Value.arr xs).encode

/-- Model of `json.Marshal` on a `Request`: the fields in declaration order under
their tags. The error is an `UnsupportedTypeError`, which names the type of the first
value met that cannot be encoded. -/
def marshalRequest (req : Request) : Except String Bytes :=
  match unsupportedTypeList (req.Params.getD []) with
  | some t => .error ("json: unsupported type: " ++ t)
  | none =>
    .ok ("\x7b\"id\":".data ++ encodeString req.ID
      ++ ",\"service\":".data ++ encodeString req.Service
      ++ ",\"method\":".data ++ encodeString req.Method
      ++ ",\"params\":".data ++ encodeParams req.Params
      ++ ",\"timeout_ms\":".data ++ encodeInt req.TimeoutMS ++ ['}'])

/-- Model of `json.Marshal` on a `Response`. -/
def marshalResponse (resp : Response) : Except String Bytes :=
  match resp.Result.unsupportedType with
  | some t => .error ("json: unsupported type: " ++ t)
  | none =>
    .ok ("\x7b\"id\":".data ++ encodeString resp.ID
      ++ ",\"result\":".data ++ resp.Result.encode
      ++ ",\"error\":".data ++ encodeString resp.Error ++ ['}'])

/-- The function `EncodeRequest`. -/
def EncodeRequest (req : Request) : Result Bytes :=
  match marshalRequest req with
  | .error err => .error ("failed to encode request: " ++ err)
  | .ok data => .ok (data ++ ['\n'])

/-- The function `EncodeResponse`. -/
def EncodeResponse (resp : Response) : Result Bytes :=
  match marshalResponse resp with
  | .error err => .error ("failed to encode response: " ++ err)
  | .ok data => .ok (data ++ ['\n'])

/-- One character for each case-folding set (Unicode simple case folding) that holds
an ASCII letter, its small letter: a capital letter goes to its small letter, the long
s (U+017F) to `s` and the Kelvin sign (U+212A) to `k`. Two keys are equal under case
folding when they are equal after this, as far as one of them is ASCII. -/
def foldChar (c : Char) : Char :=
  if 'A' ≤ c ∧ c ≤ 'Z' then Char.ofNat (c.toNat + 32)
  else if c = Char.ofNat 0x17f then 's'
  else if c = Char.ofNat 0x212a then 'k'
  else c

/-- Whether an object key names the struct field with the given tag: an exact match
or a match under case folding. The tags are ASCII. -/
def keyMatches (key : String) (tag : String) : Bool :=
  key.data.map foldChar = tag.data.map foldChar

/-- Storing a JSON value into a field of type `string`: `null` leaves the field as it
is; `none` is an `UnmarshalTypeError`. -/
def storeString (old : String) : Json → Option String
  | .null => some old
  | .str s => some s
  | _ => none

/-- Storing one object member into a `Request`; `none` is an `UnmarshalTypeError`. The
value of an unknown key is skipped. -/
def Request.setField (req : Request) (key : String) (j : Json) : Option Request :=
  if keyMatches key "id" then
    (storeString req.ID j).map (fun s => { req with ID := s })
  else if keyMatches key "service" then
    (storeString req.Service j).map (fun s => { req with Service := s })
  else if keyMatches key "method" then
    (storeString req.Method j).map (fun s => { req with Method := s })
  else if keyMatches key "params" then
    match j with
    | .null => some { req with Params := none }
    | .arr xs => (toValues xs).map (fun vs => { req with Params := some vs })
    | _ => none
  else if keyMatches key "timeout_ms" then
    match j with
    | .null => some req
    | .num lit => lit.toInt.map (fun n => { req with TimeoutMS := n })
    | _ => none
  else some req

/-- Storing one object member into a `Response`. -/
def Response.setField (resp : Response) (key : String) (j : Json) : Option Response :=
  if keyMatches key "id" then
    (storeString resp.ID j).map (fun s => { resp with ID := s })
  else if keyMatches key "result" then
    j.toValue.map (fun v => { resp with Result := v })
  else if keyMatches key "error" then
    (storeString resp.Error j).map (fun s => { resp with Error := s })
  else some resp

/-- Storing the members of an object, in textual order. -/
def setFields {α : Type} (set : α → String → Json → Option α) :
    α → List (String × Json) → Option α
  | a, [] => some a
  | a, (k, j) :: rest =>
    match set a k j with
    | none => none
    | some a1 => setFields set a1 rest

/-- The text of the error that `json.Unmarshal` returns for an input it refuses, by
the type of the target. The text is made by `encoding/json` (it names the offending
character, or the value, the field and the type that do not fit) and is taken as it
is. -/
structure ErrorText where
  request : Bytes → String
  response : Bytes → String

/-- Model of `json.Unmarshal` into a struct with the given field assignment: `none`
when it returns an error, which is a `SyntaxError` for a text that is not one JSON
value and an `UnmarshalTypeError` for a value that does not fit the struct. The text
`null` stores nothing. -/
def unmarshalStruct {α : Type} (set : α → String → Json → Option α) (zero : α)
    (data : Bytes) : Option α :=
  match parseText data with
  | none => none
  | some .null => some zero
  | some (.obj ms) => setFields set zero ms
  | some _ => none

/-- The function `DecodeRequest`. -/
def DecodeRequest (errText : ErrorText) (data : Bytes) : Result Request :=
  match unmarshalStruct Request.setField Request.zero data with
  | some req => .ok req
  | none => .error ("failed to decode request: " ++ errText.request data)

/-- The function `DecodeResponse`. -/
def DecodeResponse (errText : ErrorText) (data : Bytes) : Result Response :=
  match unmarshalStruct Response.setField Response.zero data with
  | some resp => .ok resp
  | none => .error ("failed to decode response: " ++ errText.response data)

/-! ## The grammar of JSON texts

The grammar of RFC 8259 as relations between a JSON value and the texts that denote
it, written without reference to the parser. -/

/-- A text of white space. -/
def IsWs (w : List Char) : Prop := ∀ c ∈ w, isWs c = true

/-- A non-empty text of decimal digits. -/
def IsDigits (ds : List Char) : Prop := ds ≠ [] ∧ ∀ c ∈ ds, isDigit c = true

/-- The number that decimal digits denote, after the digits that denote `acc`. -/
def digitsFrom (acc : Nat) (ds : List Char) : Nat :=
  ds.foldl (fun a c => a * 10 + (c.toNat - 48)) acc

/-- The number that decimal digits denote. -/
def digitsValue (ds : List Char) : Nat := digitsFrom 0 ds

/-- The fraction of a number: its digits and its text, which is empty or a point
followed by digits. -/
inductive FracText : List Char → List Char → Prop where
  | absent : FracText [] []
  | present (ds : List Char) : IsDigits ds → FracText ds ('.' :: ds)

/-- The exponent of a number: its value, if one is written, and its text, which is
empty or `e` or `E`, an optional sign and digits. -/
inductive ExpText : Option Int → List Char → Prop where
  | absent : ExpText none []
  | plain (m : Char) (ds : List Char) : m = 'e' ∨ m = 'E' → IsDigits ds →
      ExpText (some (digitsValue ds : Int)) (m :: ds)
  | plus (m : Char) (ds : List Char) : m = 'e' ∨ m = 'E' → IsDigits ds →
      ExpText (some (digitsValue ds : Int)) (m :: '+' :: ds)
  | minus (m : Char) (ds : List Char) : m = 'e' ∨ m = 'E' → IsDigits ds →
      ExpText (some (-(digitsValue ds : Int))) (m :: '-' :: ds)

/-- The texts of a number: an optional minus sign, the integer part (`0`, or digits
that do not start with `0`), an optional fraction and an optional exponent. -/
inductive NumText : NumLit → List Char → Prop where
  | intro (neg : Bool) (ip fp ft : List Char) (x : Option Int) (et : List Char) :
      IsDigits ip → (ip = ['0'] ∨ ip.head? ≠ some '0') → FracText fp ft → ExpText x et →
      NumText ⟨neg, digitsValue (ip ++ fp), x.getD 0 - fp.length, fp.isEmpty && x.isNone⟩
        ((if neg then ['-'] else []) ++ (ip ++ (ft ++ et)))

/-- The texts of the characters of a string, between the quotes: a character other
than the quote, the backslash and the control characters stands for itself; the escapes
of one letter; `\uXXXX` for a code unit that is no surrogate; two of them for a pair of
surrogates; and a `\uXXXX` of a surrogate that is not the first of a pair, which is read
as U+FFFD. -/
inductive StrText : List Char → List Char → Prop where
  | nil : StrText [] []
  | raw (c : Char) (cs t : List Char) : c ≠ '"' → c ≠ '\\' → ¬ c.toNat < 32 →
      StrText cs t → StrText (c :: cs) (c :: t)
  | escape (e c : Char) (cs t : List Char) : simpleEscape e = some c →
      StrText cs t → StrText (c :: cs) ('\\' :: e :: t)
  | unicode (a b c d : Char) (n : Nat) (cs t : List Char) :
      getu4 ['\\', 'u', a, b, c, d] = some (n, []) → isSurrogate n = false →
      StrText cs t → StrText (Char.ofNat n :: cs) ('\\' :: 'u' :: a :: b :: c :: d :: t)
  | pair (a b c d a1 b1 c1 d1 : Char) (hi lo p : Nat) (cs t : List Char) :
      getu4 ['\\', 'u', a, b, c, d] = some (hi, []) →
      getu4 ['\\', 'u', a1, b1, c1, d1] = some (lo, []) →
      decodeSurrogates hi lo = some p →
      StrText cs t →
      StrText (Char.ofNat p :: cs)
        ('\\' :: 'u' :: a :: b :: c :: d :: '\\' :: 'u' :: a1 :: b1 :: c1 :: d1 :: t)
  | lone (a b c d : Char) (n : Nat) (cs t : List Char) :
      getu4 ['\\', 'u', a, b, c, d] = some (n, []) → isSurrogate n = true →
      (∀ m r, getu4 t = some (m, r) → decodeSurrogates n m = none) →
      StrText cs t → StrText (Char.ofNat 0xfffd :: cs) ('\\' :: 'u' :: a :: b :: c :: d :: t)

mutual
/-- The texts of a JSON value, without white space around them. -/
inductive JsonText : Json → List Char → Prop where
  | null : JsonText .null ['n', 'u', 'l', 'l']
  | true : JsonText (.bool true) ['t', 'r', 'u', 'e']
  | false : JsonText (.bool false) ['f', 'a', 'l', 's', 'e']
  | num (lit : NumLit) (t : List Char) : NumText lit t → JsonText (.num lit) t
  | str (cs t : List Char) : StrText cs t → JsonText (.str (String.mk cs)) ('"' :: (t ++ ['"']))
  | emptyArr (w : List Char) : IsWs w → JsonText (.arr []) ('[' :: (w ++ [']']))
  | arr (xs : List Json) (t : List Char) : ElemsText xs t → JsonText (.arr xs) ('[' :: t)
  | emptyObj (w : List Char) : IsWs w → JsonText (.obj []) ('{' :: (w ++ ['}']))
  | obj (ms : List (String × Json)) (t : List Char) : MembersText ms t →
      JsonText (.obj ms) ('{' :: t)
/-- The texts of the elements of a non-empty array with the closing bracket: the
elements with white space around them, separated by commas. -/
inductive ElemsText : List Json → List Char → Prop where
  | last (x : Json) (w1 t w2 : List Char) : IsWs w1 → JsonText x t → IsWs w2 →
      ElemsText [x] (w1 ++ (t ++ (w2 ++ [']'])))
  | cons (x : Json) (xs : List Json) (w1 t w2 rest : List Char) : IsWs w1 → JsonText x t →
      IsWs w2 → ElemsText xs rest → ElemsText (x :: xs) (w1 ++ (t ++ (w2 ++ ',' :: rest)))
/-- The texts of the members of a non-empty object with the closing brace: each member
is a string, a colon and a value, with white space around them; the members are
separated by commas. -/
inductive MembersText : List (String × Json) → List Char → Prop where
  | last (k : List Char) (x : Json) (w1 kt w2 w3 t w4 : List Char) : IsWs w1 → StrText k kt →
      IsWs w2 → IsWs w3 → JsonText x t → IsWs w4 →
      MembersText [(String.mk k, x)]
        (w1 ++ '"' :: (kt ++ '"' :: (w2 ++ ':' :: (w3 ++ (t ++ (w4 ++ ['}']))))))
  | cons (k : List Char) (x : Json) (ms : List (String × Json))
      (w1 kt w2 w3 t w4 rest : List Char) : IsWs w1 → StrText k kt →
      IsWs w2 → IsWs w3 → JsonText x t → IsWs w4 → MembersText ms rest →
      MembersText ((String.mk k, x) :: ms)
        (w1 ++ '"' :: (kt ++ '"' :: (w2 ++ ':' :: (w3 ++ (t ++ (w4 ++ ',' :: rest))))))
end

/-- A JSON text: a value with white space around it. -/
def IsJsonText (j : Json) (data : List Char) : Prop :=
  ∃ w1 t w2, data = w1 ++ (t ++ w2) ∧ IsWs w1 ∧ JsonText j t ∧ IsWs w2

mutual
/-- The count of arrays and objects nested in one another in a JSON value. -/
def Json.depth : Json → Nat
  | .arr xs => depthJsons xs + 1
  | .obj ms => depthMembers ms + 1
  | _ => 0
/-- The greatest depth of an element of an array. -/
def depthJsons : List Json → Nat
  | [] => 0
  | x :: xs => max x.depth (depthJsons xs)
/-- The greatest depth of the value of a member of an object. -/
def depthMembers : List (String × Json) → Nat
  | [] => 0
  | (_, x) :: ms => max x.depth (depthMembers ms)
end

/-- The text that follows a number does not go on with it: it is empty or starts with
a character that is no digit, no point and no exponent mark. -/
def Stops (rest : List Char) : Prop :=
  ∀ c r, rest = c :: r → isDigit c = false ∧ c ≠ '.' ∧ c ≠ 'e' ∧ c ≠ 'E'

/-- Whether a member of an object can be stored into the struct `Request`: the value
of `id`, `service` and `method` is a string, that of `params` an array whose numbers
are in the range of `float64`, that of `timeout_ms` an integer in the range of `int`
written without fraction and exponent, or the value is `null`; any other member
fits. -/
def Request.fits (key : String) (j : Json) : Bool :=
  if keyMatches key "id" || keyMatches key "service" || keyMatches key "method" then
    match j with
    | .null => true
    | .str _ => true
    | _ => false
  else if keyMatches key "params" then
    match j with
    | .null => true
    | .arr xs => (toValues xs).isSome
    | _ => false
  else if keyMatches key "timeout_ms" then
    match j with
    | .null => true
    | .num lit => lit.toInt.isSome
    | _ => false
  else true

/-- Whether a member of an object can be stored into the struct `Response`: the value
of `id` and `error` is a string or `null`, and the numbers in the value of `result` are
in the range of `float64`. -/
def Response.fits (key : String) (j : Json) : Bool :=
  if keyMatches key "id" then
    match j with
    | .null => true
    | .str _ => true
    | _ => false
  else if keyMatches key "result" then j.toValue.isSome
  else if keyMatches key "error" then
    match j with
    | .null => true
    | .str _ => true
    | _ => false
  else true

/-! ## Go maps keyed by strings -/

/-- The expression `m[k]` with the comma-ok form. -/
def mapGet? {β : Type} : List (String × β) → String → Option β
  | [], _ => none
  | (k1, v) :: rest, k => if k1 = k then some v else mapGet? rest k

/-- The statement `m[k] = v`. -/
def mapSet {β : Type} : List (String × β) → String → β → List (String × β)
  | [], k, v => [(k, v)]
  | (k1, v1) :: rest, k, v => if k1 = k then (k, v) :: rest else (k1, v1) :: mapSet rest k v

/-- The statement `delete(m, k)`. -/
def mapDelete {β : Type} : List (String × β) → String → List (String × β)
  | [], _ => []
  | (k1, v1) :: rest, k => if k1 = k then rest else (k1, v1) :: mapDelete rest k

/-! ## `internal/rpc/server.go` -/

/-- Declared type of a method parameter. The types with kind `reflect.Int` and
`reflect.String` are `int` and `string`; every other type has another kind. -/
inductive GoType where
  | int
  | string
  | float64
  | bool
  /-- The type `interface{}`. -/
  | iface
  /-- The type `[]interface{}`. -/
  | slice
  /-- The type `map[string]interface{}`. -/
  | map
  /-- Any other type (`int64`, `float32`, a struct, ...). -/
  | other (name : String)
  deriving DecidableEq

/-- Dynamic type of a value; `none` for the nil interface, whose `reflect.Value` is
the zero `Value`. -/
def Value.typeOf : Value → Option GoType
  | .null => none
  | .bool _ => some .bool
  | .int _ => some .int
  | .float64 _ => some .float64
  | .str _ => some .string
  | .arr _ => some .slice
  | .obj _ => some .map
  | .unsupported typeName => some (.other typeName)

/-- The verb `%T`. -/
def Value.typeName : Value → String
  | .null => "<nil>"
  | .bool _ => "bool"
  | .int _ => "int"
  | .float64 _ => "float64"
  | .str _ => "string"
  | .arr _ => "[]interface \x7b\x7d"
  | .obj _ => "map[string]interface \x7b\x7d"
  | .unsupported typeName => typeName

/-- An exported method of a registered service: its name, the declared types of its
parameters and its body, which returns its results or panics (`none`). Methods with a
variadic parameter are outside the embedding. -/
structure Method where
  name : String
  ins : List GoType
  body : List Value → Option (List Value)

/-- A registered service instance, seen through reflection: the nil interface,
whose `reflect.Value` is the zero `Value`, or a value with its method set. -/
inductive Service where
  | nil
  | value (methods : List Method)

/-- The method `reflect.Value.MethodByName`: it panics on the zero `Value`; `none`
is the invalid `Value` it returns when there is no method of that name. -/
def Service.MethodByName : Service → String → Result (Option Method)
  | .nil, _ => .panic "reflect: call of reflect.Value.MethodByName on zero Value"
  | .value methods, name => .ok (methods.find? (fun m => m.name = name))

/-- The struct `Server`. -/
structure Server where
  services : List (String × Service)

/-- The function `NewServer`. -/
def NewServer : Server := ⟨[]⟩

/-- The method `Server.Register`. -/
def Server.Register (s : Server) (name : String) (service : Service) :
    Server × Result Unit :=
  match mapGet? s.services name with
  | some _ => (s, .error ("service " ++ name ++ " already registered"))
  | none => ({ s with services := mapSet s.services name service }, .ok ())

/-- The conversion `int(v)` of a `float64`: the fraction is dropped; out of the range
of `int` the result is the smallest `int`, as on amd64. -/
def float64ToInt (v : Float64) : Int :=
  if inIntRange v.trunc then v.trunc else -(2 ^ 63)

/-- The loop of `invoke` that converts the parameters, from index `i` on. -/
def convertParams : Nat → List Value → List GoType → Result (List Value)
  | _, [], _ => .ok []
  | _, _ :: _, [] => .ok []
  | i, param :: ps, paramType :: ts =>
    match paramType with
    | .int =>
      match param with
      | .float64 v =>
        match convertParams (i + 1) ps ts with
        | .ok args => .ok (.int (float64ToInt v) :: args)
        | .error e => .error e
        | .panic e => .panic e
      | _ => .error ("parameter " ++ toString i ++ ": expected number, got " ++ param.typeName)
    | .string =>
      match param with
      | .str v =>
        match convertParams (i + 1) ps ts with
        | .ok args => .ok (.str v :: args)
        | .error e => .error e
        | .panic e => .panic e
      | _ => .error ("parameter " ++ toString i ++ ": expected string, got " ++ param.typeName)
    | _ =>
      match convertParams (i + 1) ps ts with
      | .ok args => .ok (param :: args)
      | .error e => .error e
      | .panic e => .panic e

/-- The name of a type as `reflect` prints it. -/
def GoType.name : GoType → String
  | .int => "int"
  | .string => "string"
  | .float64 => "float64"
  | .bool => "bool"
  | .iface => "interface \x7b\x7d"
  | .slice => "[]interface \x7b\x7d"
  | .map => "map[string]interface \x7b\x7d"
  | .other name => name

/-- Whether the type of an argument is assignable to a parameter type. -/
def assignable (arg : Value) (t : GoType) : Bool :=
  match arg.typeOf with
  | none => false
  | some vt => decide (t = .iface) || decide (vt = t)

/-- The first argument whose type is not assignable to its parameter type, with that
type. -/
def firstMismatch : List Value → List GoType → Option (Value × GoType)
  | arg :: args, t :: ts => if assignable arg t then firstMismatch args ts else some (arg, t)
  | _, _ => none

/-- The method `reflect.Value.Call`: it panics on a zero `Value` among the arguments,
on an argument whose type is not assignable to the parameter type, and when the method
body panics. -/
def Method.Call (m : Method) (args : List Value) : Result (List Value) :=
  if args.any (fun arg => arg.typeOf.isNone) then
    .panic "reflect: Call using zero Value argument"
  else
    match firstMismatch args m.ins with
    | some (arg, t) => .panic ("reflect: Call using " ++ arg.typeName ++ " as type " ++ t.name)
    | none =>
      match m.body args with
      | some results => .ok results
      | none => .panic "panic in service method"

/-- The method `Server.invoke`. -/
def Server.invoke (s : Server) (serviceName methodName : String) (params : List Value) :
    Result Value :=
  match mapGet? s.services serviceName with
  | none => .error ("service not found: " ++ serviceName)
  | some service =>
    match service.MethodByName methodName with
    | .panic e => .panic e
    | .error e => .error e
    | .ok none => .error ("method not found: " ++ serviceName ++ "." ++ methodName)
    | .ok (some method) =>
      if params.length ≠ method.ins.length then
        .error ("wrong number of parameters: expected " ++ toString method.ins.length
          ++ ", got " ++ toString params.length)
      else
        match convertParams 0 params method.ins with
        | .error e => .error e
        | .panic e => .panic e
        | .ok args =>
          match method.Call args with
          | .error e => .error e
          | .panic e => .panic e
          | .ok [] => .ok .null
          | .ok (r :: _) => .ok r

/-- A connection as its handler sees it: the lines that `reader.ReadBytes` returns
before it fails, and whether the `k`-th call of `conn.Write` succeeds. -/
structure Conn where
  lines : List Bytes
  writeOk : Nat → Bool

/-- How `HandleConnection` ends. -/
inductive Exit where
  /-- The handler returns, after a read or write failure. -/
  | returned
  /-- A panic leaves the handler; nothing recovers it. -/
  | panicked (msg : String)

/-- The response `HandleConnection` builds from what `invoke` returns: `Response{ID:
req.ID}` with `Error` set to the error message, or else `Result` set to the result. -/
def makeResponse (id : String) : Result Value → Response
  | .ok result => ⟨id, result, ""⟩
  | .error e => ⟨id, .null, e⟩
  | .panic _ => ⟨id, .null, ""⟩

/-- The method `Server.sendError`: the count of writes and the frames written after
it; a failure to encode or to write is logged only. -/
def sendError (writeOk : Nat → Bool) (k : Nat) (out : List Bytes) (id errMsg : String) :
    Nat × List Bytes :=
  match EncodeResponse ⟨id, .null, errMsg⟩ with
  | .ok respData => if writeOk k then (k + 1, out ++ [respData]) else (k + 1, out)
  | _ => (k, out)

/-- The loop of `HandleConnection` over the remaining lines; `k` counts the calls of
`conn.Write` so far and `out` holds the frames written so far. -/
def Server.handleLoop (s : Server) (errText : ErrorText) (writeOk : Nat → Bool) :
    List Bytes → Nat → List Bytes → List Bytes × Exit
  | [], _, out => (out, .returned)
  | line :: rest, k, out =>
    match DecodeRequest errText line with
    | .panic e => (out, .panicked e)
    | .error e =>
      let p := sendError writeOk k out "" ("decode error: " ++ e)
      s.handleLoop errText writeOk rest p.1 p.2
    | .ok req =>
      match s.invoke req.Service req.Method (req.Params.getD []) with
      | .panic e => (out, .panicked e)
      | r =>
        match EncodeResponse (makeResponse req.ID r) with
        | .ok respData =>
          if writeOk k then s.handleLoop errText writeOk rest (k + 1) (out ++ [respData])
          else (out, .returned)
        | _ => s.handleLoop errText writeOk rest k out

/-- The method `Server.HandleConnection`: the frames written to the connection, in
order, and how the handler ends. -/
def Server.HandleConnection (s : Server) (errText : ErrorText) (conn : Conn) :
    List Bytes × Exit :=
  s.handleLoop errText conn.writeOk conn.lines 0 []

/-- A sequence of `Register` calls, errors ignored. -/
def Server.registerAll (s : Server) : List (String × Service) → Server
  | [] => s
  | (name, service) :: rest => (s.Register name service).1.registerAll rest

/-- The method with its body replaced by one that panics as soon as it is invoked. -/
def Method.trapped (m : Method) : Method :=
  { m with body := fun _ => none }

/-- The service with every method trapped. -/
def Service.trapped : Service → Service
  | .nil => .nil
  | .value methods => .value (methods.map Method.trapped)

/-- The server with every method of every service trapped: a dispatch that returns
an error on it has invoked no method. -/
def Server.trapped (s : Server) : Server :=
  ⟨s.services.map (fun p => (p.1, p.2.trapped))⟩

/-! ## `cmd/02_simple_rpc/server/main.go` -/

/-- Two's-complement wrap-around of the 64-bit type `int`. -/
def wrapInt (n : Int) : Int :=
  (n + 2 ^ 63) % 2 ^ 64 - 2 ^ 63

/-- A method of two `int` parameters with one `int` result. -/
def intMethod (name : String) (f : Int → Int → Int) : Method :=
  { name := name
    ins := [.int, .int]
    body := fun args =>
      match args with
      | [.int a, .int b] => some [.int (f a b)]
      | _ => none }

/-- The service `CalculatorImpl`. -/
def CalculatorImpl : Service :=
  .value [intMethod "Add" (fun a b => wrapInt (a + b)),
    intMethod "Multiply" (fun a b => wrapInt (a * b)),
    intMethod "Subtract" (fun a b => wrapInt (a - b)),
    intMethod "Divide" (fun a b => if b = 0 then 0 else wrapInt (Int.tdiv a b))]

/-- The server of `main`: `CalculatorImpl` registered as `CalculatorService`. -/
def calculatorServer : Server :=
  (NewServer.Register "CalculatorService" CalculatorImpl).1

/-! ## `internal/rpc/client.go` -/

/-- A channel of type `chan *Response`; the pointers sent on it are never nil. -/
structure RespChan where
  buf : List Response
  cap : Nat
  closed : Bool

/-- The struct `Client` with the channels its `pending` map refers to: `pending` maps
a request id to the index of a channel in `chans`. Of the connection only whether
`conn.Close` has been called is kept (`connClosed`); the address, the reader and the
mutex are left out. -/
structure Client where
  pending : List (String × Nat)
  closed : Bool
  chans : List RespChan
  connClosed : Bool

/-- The client `NewClient` returns once the connection is made: no call is pending. -/
def NewClient : Client := ⟨[], false, [], false⟩

/-- The statement `close(ch)`: `none` is the panic on a closed (or nil) channel. -/
def closeRespChan (chans : List RespChan) (ch : Nat) : Option (List RespChan) :=
  match chans[ch]? with
  | none => none
  | some c => if c.closed then none else some (chans.set ch { c with closed := true })

/-- The loop `for _, ch := range c.pending { close(ch) }`. -/
def closePending : List (String × Nat) → List RespChan → List RespChan × Bool
  | [], chans => (chans, true)
  | (_, ch) :: rest, chans =>
    match closeRespChan chans ch with
    | none => (chans, false)
    | some chans1 => closePending rest chans1

/-- The branch of `handleResponses` taken when `ReadBytes` fails: mark the client
closed, close the channel of every pending call, empty the table, return. -/
def Client.handleReadError (c : Client) : Client × Result Unit :=
  match closePending c.pending c.chans with
  | (chans, false) => ({ c with closed := true, chans := chans }, .panic "close of closed channel")
  | (chans, true) => ({ c with closed := true, pending := [], chans := chans }, .ok ())

/-- The receive `resp := <-respChan`: `none` while it blocks, else the pointer
received, which is nil (`none`) on a closed and drained channel. -/
def recvResp (c : RespChan) : Option (Option Response × RespChan) :=
  match c.buf with
  | r :: rest => some (some r, { c with buf := rest })
  | [] => if c.closed then some (none, c) else none

/-- The first case of the `select` in `Call`, once a pointer has been received:
`resp.Error` is read through the pointer. -/
def Call.onReceive (resp : Option Response) : Result Value :=
  match resp with
  | none => .panic "invalid memory address or nil pointer dereference"
  | some r => if r.Error ≠ "" then .error ("remote error: " ++ r.Error) else .ok r.Result

/-- What a `Call` blocked in its `select` on channel `ch` does next: `none` while the
receive blocks (only the timer case can fire), else the outcome of the receive case. -/
def Client.awaitResponse (c : Client) (ch : Nat) : Option (Result Value) :=
  match c.chans[ch]? with
  | none => none
  | some rc => (recvResp rc).map (fun p => Call.onReceive p.1)

/-- The request id of `Call`: `fmt.Sprintf("%s-%s-%d", service, method,
time.Now().UnixNano())`; `now` is the clock reading. -/
def requestID (service method : String) (now : Nat) : String :=
  service ++ "-" ++ method ++ "-" ++ toString now

/-- The first part of `Call`, under the lock: a closed client refuses the call; else
the id is generated, a channel of capacity 1 is made and stored in `pending` under the
id. Returns the id and the channel. -/
def Client.callRegister (c : Client) (service method : String) (now : Nat) :
    Client × Result (String × Nat) :=
  if c.closed then (c, .error "client is closed")
  else
    let reqID := requestID service method now
    let respChan := c.chans.length
    ({ c with
        chans := c.chans ++ [⟨[], 1, false⟩]
        pending := mapSet c.pending reqID respChan }, .ok (reqID, respChan))

/-- The request `Call` builds. -/
def callRequest (reqID service method : String) (params : Option (List Value)) : Request :=
  ⟨reqID, service, method, params, 5000⟩

/-- What ends the wait of a `Call` after its registration: the write of the request
fails, the receive case of the `select` fires, or the timer case fires. -/
inductive CallEvent where
  | writeError (msg : String)
  | received
  | timeout

/-- The deferred function of `Call`: `delete(c.pending, reqID)` under the lock. -/
def Client.callCleanup (c : Client) (reqID : String) : Client :=
  { c with pending := mapDelete c.pending reqID }

/-- The rest of `Call` after the registration, in the state in which it returns: the
request is encoded and written, the `select` waits, and the deferred function runs
on every path. `none` while the receive case blocks. -/
def Client.callReturn (c : Client) (req : Request) (respChan : Nat) (ev : CallEvent) :
    Option (Client × Result Value) :=
  match EncodeRequest req with
  | .error e => some (c.callCleanup req.ID, .error e)
  | .panic e => some (c.callCleanup req.ID, .panic e)
  | .ok _ =>
    match ev with
    | .writeError e => some (c.callCleanup req.ID, .error ("failed to send request: " ++ e))
    | .timeout => some (c.callCleanup req.ID, .error "request timeout")
    | .received =>
      match c.chans[respChan]? with
      | none => none
      | some rc =>
        match recvResp rc with
        | none => none
        | some (resp, rc1) =>
          some (Client.callCleanup { c with chans := c.chans.set respChan rc1 } req.ID,
            Call.onReceive resp)

/-- What the reader loop does with one decoded response. -/
inductive Routed where
  /-- The response is sent on the channel of the pending call. -/
  | delivered (respChan : Nat)
  /-- No call is registered under the id. -/
  | discarded
  /-- The channel is full: the send waits for the call to take the earlier response. -/
  | blocked (respChan : Nat)
  /-- The send on a closed channel panics. -/
  | panicked

/-- The part of `handleResponses` after a response is decoded: look up the channel
under the response's id and send the response on it. -/
def Client.route (c : Client) (resp : Response) : Client × Routed :=
  match mapGet? c.pending resp.ID with
  | none => (c, .discarded)
  | some respChan =>
    match c.chans[respChan]? with
    | none => (c, .blocked respChan)
    | some rc =>
      if rc.closed then (c, .panicked)
      else if rc.buf.length < rc.cap then
        ({ c with chans := c.chans.set respChan { rc with buf := rc.buf ++ [resp] } },
          .delivered respChan)
      else (c, .blocked respChan)

/-- One turn of the loop of `handleResponses` on a line that was read: a line that
does not decode is skipped. -/
def Client.handleLine (c : Client) (errText : ErrorText) (line : Bytes) :
    Client × Routed :=
  match DecodeResponse errText line with
  | .ok resp => c.route resp
  | _ => (c, .discarded)

/-- The method `Client.Close`; `closeErr` is what `conn.Close()` returns. -/
def Client.Close (c : Client) (closeErr : Option String) : Client × Result Unit :=
  if c.closed then (c, .ok ())
  else
    ({ c with closed := true, connClosed := true },
      match closeErr with
      | none => .ok ()
      | some e => .error e)

/-! ## What a round trip through the codec does to a value -/

mutual
/-- The value `json.Unmarshal` yields for the text of a value: a number of static type
`int` comes back as the `float64` nearest to it. -/
def Value.normalize : Value → Value
  | .int n => .float64 (Float64.ofInt n)
  | .arr xs => .arr (normalizeList xs)
  | .obj kvs => .obj (normalizeFields kvs)
  | v => v
/-- Normalisation of the elements of a slice. -/
def normalizeList : List Value → List Value
  | [] => []
  | v :: vs => v.normalize :: normalizeList vs
/-- Normalisation of the values of a map. -/
def normalizeFields : List (String × Value) → List (String × Value)
  | [] => []
  | (k, v) :: kvs => (k, v.normalize) :: normalizeFields kvs
end

/-- The key is below every key of the entries. -/
def keyBelow (k : String) : List (String × Value) → Bool
  | [] => true
  | (k1, _) :: kvs => keyLt k.data k1.data && keyBelow k kvs

mutual
/-- The maps inside a value keep their entries in strictly ascending key order. -/
def Value.sortedKeys : Value → Bool
  | .arr xs => sortedKeysList xs
  | .obj kvs => sortedKeysFields kvs
  | _ => true
/-- Every element of a slice has sorted maps. -/
def sortedKeysList : List Value → Bool
  | [] => true
  | v :: vs => v.sortedKeys && sortedKeysList vs
/-- The entries are in strictly ascending key order and their values have sorted maps. -/
def sortedKeysFields : List (String × Value) → Bool
  | [] => true
  | (k, v) :: kvs => keyBelow k kvs && v.sortedKeys && sortedKeysFields kvs
end

mutual
/-- No part of the value has the static type `int`: the value is of the kinds the
decoder produces. -/
def Value.generic : Value → Bool
  | .int _ => false
  | .arr xs => genericList xs
  | .obj kvs => genericFields kvs
  | _ => true
/-- Every element of a slice is generic. -/
def genericList : List Value → Bool
  | [] => true
  | v :: vs => v.generic && genericList vs
/-- Every value of a map is generic. -/
def genericFields : List (String × Value) → Bool
  | [] => true
  | (_, v) :: kvs => v.generic && genericFields kvs
end

/-- The values of the members have sorted maps. -/
def fieldsSorted : List (String × Value) → Bool
  | [] => true
  | (_, v) :: kvs => v.sortedKeys && fieldsSorted kvs

/-- The value of the `Params` field: `null` for the nil slice. -/
def paramsValue : Option (List Value) → Value
  | none => .null
  | some xs => .arr xs

/-- The members of the JSON object of a request, in the order of the struct fields. -/
def Request.members (r : Request) : List (String × Value) :=
  [("id", .str r.ID), ("service", .str r.Service), ("method", .str r.Method),
    ("params", paramsValue r.Params), ("timeout_ms", .int r.TimeoutMS)]

/-- An integer of magnitude below `2 ^ 53`, with either sign of zero: such a
`float64` is written with all its digits. -/
def Float64.exactInt (f : Float64) : Bool := f.scale = 0 && f.num < 2 ^ 53

mutual
/-- The numbers in the value are of the kinds covered by the round trip: a value of
type `int` lies in the range of `int`, and a `float64` is an integer of magnitude
below `2 ^ 53`. -/
def Value.exact : Value → Bool
  | .int n => inIntRange n
  | .float64 f => f.exactInt
  | .arr xs => exactList xs
  | .obj kvs => exactFields kvs
  | _ => true
/-- Every element of a slice has exact numbers. -/
def exactList : List Value → Bool
  | [] => true
  | v :: vs => v.exact && exactList vs
/-- Every value of a map has exact numbers. -/
def exactFields : List (String × Value) → Bool
  | [] => true
  | (_, v) :: kvs => v.exact && exactFields kvs
end

mutual
/-- The count of arrays and maps nested in one another in a value. -/
def Value.depth : Value → Nat
  | .arr xs => depthList xs + 1
  | .obj kvs => depthFields kvs + 1
  | _ => 0
/-- The greatest depth of an element of a slice. -/
def depthList : List Value → Nat
  | [] => 0
  | v :: vs => max v.depth (depthList vs)
/-- The greatest depth of a value of a map. -/
def depthFields : List (String × Value) → Nat
  | [] => 0
  | (_, v) :: kvs => max v.depth (depthFields kvs)
end

/-- A valid request: every parameter can be encoded, is a well-formed value (the
entries of a map in key order), has numbers of the kinds covered and is nested less
deep than the scanner allows inside the object and the array of the parameters; and the
timeout is an `int`. -/
def Request.valid (r : Request) : Bool :=
  encodableList (r.Params.getD []) && sortedKeysList (r.Params.getD []) &&
    exactList (r.Params.getD []) && decide (depthList (r.Params.getD []) + 2 ≤ maxNestingDepth) &&
    inIntRange r.TimeoutMS

mutual
/-- The JSON value that the text of a value with exact numbers (`Value.exact`) is read
as: a number is written with the digits of the integer it is. A value that cannot be
encoded has no text; `null` stands in its place. -/
def Value.toJson : Value → Json
  | .null => .null
  | .bool b => .bool b
  | .int n => .num ⟨decide (n < 0), n.natAbs, 0, true⟩
  | .float64 f => .num ⟨f.neg, f.num, 0, true⟩
  | .str s => .str s
  | .arr xs => .arr (toJsonList xs)
  | .obj kvs => .obj (toJsonFields kvs)
  | .unsupported _ => .null
/-- The JSON values of the elements of a slice. -/
def toJsonList : List Value → List Json
  | [] => []
  | v :: vs => v.toJson :: toJsonList vs
/-- The JSON values of the entries of a map. -/
def toJsonFields : List (String × Value) → List (String × Json)
  | [] => []
  | (k, v) :: kvs => (k, v.toJson) :: toJsonFields kvs
end

/-- The request with every parameter normalised. -/
def Request.normalize (r : Request) : Request :=
  { r with Params := r.Params.map normalizeList }

/-- The text after a value ends the value: it is empty or starts with a comma, a
closing bracket or brace, or the newline that ends the frame. -/
def Delimited : List Char → Bool
  | [] => true
  | c :: _ => c = ',' || c = ']' || c = '}' || c = '\n'

/-- A service with a method `Scale(x float64) float64` that doubles its argument, up to
the largest `float64`, and a method `Make() chan int`. -/
def scaleService : Service :=
  .value [{ name := "Scale"
            ins := [.float64]
            body := fun args =>
              match args with
              | [.float64 x] => some [.float64 x.double]
              | _ => none },
    { name := "Make"
      ins := []
      body := fun _ => some [.unsupported "chan int"] }]

/-- A server with `CalculatorImpl` registered as in `main` and `scaleService`
registered as `Geo`. -/
def demoServer : Server :=
  calculatorServer.registerAll [("Geo", scaleService)]

/-- The request of `client.Call("CalculatorService", "Add", 5, 3)` at clock reading 1. -/
def addRequest : Request :=
  ⟨"CalculatorService-Add-1", "CalculatorService", "Add", some [.int 5, .int 3], 5000⟩

/-- A client with one pending call, whose channel is open and empty. -/
def waitingClient : Client :=
  ⟨[("CalculatorService-Add-1", 0)], false, [⟨[], 1, false⟩], false⟩

/-- The frame of a request for `Geo.Scale` with a string parameter. -/
def scaleLine : Bytes :=
  "\x7b\"id\":\"1\",\"service\":\"Geo\",\"method\":\"Scale\",\"params\":[\"abc\"],\"timeout_ms\":5000\x7d\n".data

/-- The frame of a request for `Geo.Make`. -/
def makeLine : Bytes :=
  "\x7b\"id\":\"1\",\"service\":\"Geo\",\"method\":\"Make\",\"params\":[],\"timeout_ms\":5000\x7d\n".data

/-- The frame of a request for `CalculatorService.Add`. -/
def addLine : Bytes :=
  "\x7b\"id\":\"2\",\"service\":\"CalculatorService\",\"method\":\"Add\",\"params\":[5,3],\"timeout_ms\":5000\x7d\n".data

/-- A frame of a request for `CalculatorService.Add` as another client may write it:
white space between the tokens, a key in capitals and one written with the long s, the
numbers with a fraction and an exponent, no timeout. -/
def addLineExp : Bytes :=
  " \x7b \"ID\" : \"3\", \"\u017fervice\":\"CalculatorService\",\"method\":\"Add\",\"params\":[ 5.0 , 0.3e1 ]\x7d\n".data

/-- The response to a request: it carries the request's id and the outcome of the
dispatch. -/
def Server.respond (s : Server) (req : Request) : Response :=
  makeResponse req.ID (s.invoke req.Service req.Method (req.Params.getD []))

/-- The dispatch of a request does not panic and its result can be encoded. -/
def Server.answers (s : Server) (req : Request) : Bool :=
  match s.invoke req.Service req.Method (req.Params.getD []) with
  | .ok v => v.encodable
  | .error _ => true
  | .panic _ => false

end Rpc

/-! ## `internal/broker/broker.go` -/

namespace PubSub

open Rpc (Value Result mapGet? mapSet mapDelete)

/-- The struct `Message`; the time stamp is the reading of `time.Now()`. -/
structure Message where
  Topic : String
  Payload : Value
  Timestamp : Nat

/-- A channel of type `chan Message`. -/
structure Chan where
  buf : List Message
  cap : Nat
  closed : Bool

/-- The struct `Broker` together with the channels made by `Subscribe`: a subscriber
channel is named by its index in `chans`; `closeChan` tells whether the channel
`closeChan` has been closed. -/
structure Broker where
  subscribers : List (String × List Nat)
  subCounter : Int
  closed : Bool
  closeChan : Bool
  chans : List Chan

/-- The function `NewBroker`. -/
def NewBroker : Broker := ⟨[], 0, false, false, []⟩

/-- The expression `b.subscribers[topic]`: the nil slice for a missing topic. -/
def Broker.subs (b : Broker) (topic : String) : List Nat :=
  (mapGet? b.subscribers topic).getD []

/-- The method `Broker.Subscribe`: the new state and the channel returned. -/
def Broker.Subscribe (b : Broker) (topic : String) : Broker × Result Nat :=
  if b.closed then (b, .error "broker is closed")
  else
    let ch := b.chans.length
    ({ b with
        chans := b.chans ++ [⟨[], 100, false⟩]
        subscribers := mapSet b.subscribers topic (b.subs topic ++ [ch])
        subCounter := b.subCounter + 1 }, .ok ch)

/-- The statement `select { case ch <- msg: default: }`: `none` is the panic of a send
on a closed channel; a full channel is left as it is. -/
def trySend (chans : List Chan) (ch : Nat) (msg : Message) : Option (List Chan) :=
  match chans[ch]? with
  | none => some chans
  | some c =>
    if c.closed then none
    else if c.buf.length < c.cap then some (chans.set ch { c with buf := c.buf ++ [msg] })
    else some chans

/-- The loop of `Publish` over the subscribers of the topic; `false` reports a panic. -/
def sendAll (msg : Message) : List Nat → List Chan → List Chan × Bool
  | [], chans => (chans, true)
  | ch :: rest, chans =>
    match trySend chans ch msg with
    | none => (chans, false)
    | some chans1 => sendAll msg rest chans1

/-- The method `Broker.Publish`; `now` is the reading of `time.Now()`. -/
def Broker.Publish (b : Broker) (topic : String) (payload : Value) (now : Nat) :
    Broker × Result Unit :=
  if b.closed then (b, .error "broker is closed")
  else
    let msg : Message := ⟨topic, payload, now⟩
    let subscribers := b.subs topic
    if subscribers.length = 0 then (b, .ok ())
    else
      match sendAll msg subscribers b.chans with
      | (chans, true) => ({ b with chans := chans }, .ok ())
      | (chans, false) => ({ b with chans := chans }, .panic "send on closed channel")

/-- The statement `close(ch)`: `none` is the panic on a closed (or nil) channel. -/
def chanClose (chans : List Chan) (ch : Nat) : Option (List Chan) :=
  match chans[ch]? with
  | none => none
  | some c => if c.closed then none else some (chans.set ch { c with closed := true })

/-- The method `Broker.Unsubscribe`. -/
def Broker.Unsubscribe (b : Broker) (topic : String) (ch : Nat) : Broker × Result Unit :=
  let subscribers := b.subs topic
  if ch ∈ subscribers then
    let i := subscribers.indexOf ch
    let b1 := { b with subscribers := mapSet b.subscribers topic (subscribers.eraseIdx i) }
    match chanClose b1.chans ch with
    | none => (b1, .panic "close of closed channel")
    | some chans => ({ b1 with chans := chans }, .ok ())
  else (b, .ok ())

/-- The method `Broker.GetTopics`, in the order of the association list. -/
def Broker.GetTopics (b : Broker) : List String :=
  b.subscribers.map Prod.fst

/-- The method `Broker.GetSubscriberCount`. -/
def Broker.GetSubscriberCount (b : Broker) (topic : String) : Nat :=
  (b.subs topic).length

/-- The inner loop of `Close` over the channels of one topic; `false` reports a panic. -/
def closeList : List Nat → List Chan → List Chan × Bool
  | [], chans => (chans, true)
  | ch :: rest, chans =>
    match chanClose chans ch with
    | none => (chans, false)
    | some chans1 => closeList rest chans1

/-- The outer loop of `Close`: close the channels of each topic, then delete the
topic. Returns the topics left, the channels and whether no panic occurred. -/
def closeTopics : List (String × List Nat) → List Chan →
    List (String × List Nat) × List Chan × Bool
  | [], chans => ([], chans, true)
  | (topic, subscribers) :: rest, chans =>
    match closeList subscribers chans with
    | (chans1, false) => ((topic, subscribers) :: rest, chans1, false)
    | (chans1, true) => closeTopics rest chans1

/-- The method `Broker.Close`. -/
def Broker.Close (b : Broker) : Broker × Result Unit :=
  if b.closed then (b, .ok ())
  else if b.closeChan then ({ b with closed := true }, .panic "close of closed channel")
  else
    match closeTopics b.subscribers b.chans with
    | (left, chans, true) =>
      ({ b with closed := true, closeChan := true, subscribers := left, chans := chans }, .ok ())
    | (left, chans, false) =>
      ({ b with closed := true, closeChan := true, subscribers := left, chans := chans },
        .panic "close of closed channel")

/-- A receive `<-ch` by the consumer of a subscription: the head of the queue is
taken; nothing happens while the receive blocks or at end-of-stream. -/
def Broker.Receive (b : Broker) (ch : Nat) : Broker × Option Message :=
  match b.chans[ch]? with
  | none => (b, none)
  | some c =>
    match c.buf with
    | [] => (b, none)
    | m :: rest => ({ b with chans := b.chans.set ch { c with buf := rest } }, some m)

/-- The states a broker made by `NewBroker` can be in. -/
inductive Reachable : Broker → Prop where
  | init : Reachable NewBroker
  | subscribe {b : Broker} (topic : String) : Reachable b → Reachable (b.Subscribe topic).1
  | publish {b : Broker} (topic : String) (payload : Value) (now : Nat) :
      Reachable b → Reachable (b.Publish topic payload now).1
  | unsubscribe {b : Broker} (topic : String) (ch : Nat) :
      Reachable b → Reachable (b.Unsubscribe topic ch).1
  | close {b : Broker} : Reachable b → Reachable b.Close.1
  | receive {b : Broker} (ch : Nat) : Reachable b → Reachable (b.Receive ch).1

/-- `Publish` for each payload of a list in turn, each with its clock reading: the
final state and whether every call returned nil. -/
def publishAll (topic : String) : Broker → List (Value × Nat) → Broker × Bool
  | b, [] => (b, true)
  | b, (payload, now) :: rest =>
    match b.Publish topic payload now with
    | (b1, .ok _) => publishAll topic b1 rest
    | (b1, _) => (b1, false)

/-- The queue of a channel. -/
def Broker.queue (b : Broker) (ch : Nat) : List Message :=
  match b.chans[ch]? with
  | none => []
  | some c => c.buf

/-! ### The invariant of the broker -/

/-- Every channel listed in the topic map. -/
def allSubs : List (String × List Nat) → List Nat
  | [] => []
  | (_, subs) :: rest => subs ++ allSubs rest

/-- The invariant of the broker states. -/
structure Inv (b : Broker) : Prop where
  nodup : (allSubs b.subscribers).Nodup
  listedOpen : ∀ ch ∈ allSubs b.subscribers, ∃ c : Chan, b.chans[ch]? = some c ∧ c.closed = false
  bounded : ∀ (ch : Nat) (c : Chan), b.chans[ch]? = some c → c.cap = 100 ∧ c.buf.length ≤ 100
  openListed : ∀ (ch : Nat) (c : Chan), b.chans[ch]? = some c → c.closed = false → ch ∈ allSubs b.subscribers
  closedEmpty : b.closed = true → b.subscribers = []
  closeChanEq : b.closeChan = b.closed

/-- What a non-blocking send does to one open channel. -/
def deliver (msg : Message) (c : Chan) : Chan :=
  if c.buf.length < c.cap then { c with buf := c.buf ++ [msg] } else c

/-- What `close` does to one open channel. -/
def shut (c : Chan) : Chan := { c with closed := true }

/-- An operation on a broker: a call of one of its methods, or a receive by a consumer. -/
inductive Op where
  | subscribe (topic : String)
  | publish (topic : String) (payload : Value) (now : Nat)
  | unsubscribe (topic : String) (ch : Nat)
  | close
  | receive (ch : Nat)

/-- The state after one operation. -/
def Broker.step (b : Broker) : Op → Broker
  | .subscribe topic => (b.Subscribe topic).1
  | .publish topic payload now => (b.Publish topic payload now).1
  | .unsubscribe topic ch => (b.Unsubscribe topic ch).1
  | .close => b.Close.1
  | .receive ch => (b.Receive ch).1

/-- The state after a sequence of operations. -/
def Broker.run (b : Broker) : List Op → Broker
  | [] => b
  | op :: rest => (b.step op).run rest

end PubSub

/-! # Theorems -/

namespace Rpc

/-! ### Go maps -/

theorem mapSet_absent {β : Type} (m : List (String × β)) (k : String)
    (h : mapGet? m k = none) (v : β) : mapSet m k v = m ++ [(k, v)] := by
  induction m with
  | nil => rfl
  | cons p rest ih =>
    obtain ⟨k1, v1⟩ := p
    by_cases hk : k1 = k
    · simp [mapGet?, hk] at h
    · simp [mapGet?, hk] at h
      simp [mapSet, hk, ih h]

theorem mapGet?_append {β : Type} (m1 m2 : List (String × β)) (k : String) :
    mapGet? (m1 ++ m2) k = (mapGet? m1 k).orElse (fun _ => mapGet? m2 k) := by
  induction m1 with
  | nil => simp [mapGet?]
  | cons p rest ih =>
    obtain ⟨k1, v1⟩ := p
    by_cases hk : k1 = k
    · simp [mapGet?, hk]
    · simp [mapGet?, hk, ih]

/-! ### Values that cannot be encoded -/

mutual
theorem unsupportedType_none : ∀ v : Value, v.encodable = true → v.unsupportedType = none
  | .null, _ => rfl
  | .bool _, _ => rfl
  | .int _, _ => rfl
  | .float64 _, _ => rfl
  | .str _, _ => rfl
  | .arr xs, h => by
    simp only [Value.encodable] at h
    simp only [Value.unsupportedType, unsupportedTypeList_none xs h]
  | .obj kvs, h => by
    simp only [Value.encodable] at h
    simp only [Value.unsupportedType, unsupportedTypeFields_none kvs h]
  | .unsupported _, h => by simp [Value.encodable] at h
theorem unsupportedTypeList_none :
    ∀ vs : List Value, encodableList vs = true → unsupportedTypeList vs = none
  | [], _ => rfl
  | v :: vs, h => by
    simp only [encodableList, Bool.and_eq_true] at h
    simp only [unsupportedTypeList, unsupportedType_none v h.1, unsupportedTypeList_none vs h.2]
theorem unsupportedTypeFields_none :
    ∀ kvs : List (String × Value), encodableFields kvs = true → unsupportedTypeFields kvs = none
  | [], _ => rfl
  | (_, v) :: kvs, h => by
    simp only [encodableFields, Bool.and_eq_true] at h
    simp only [unsupportedTypeFields, unsupportedType_none v h.1,
      unsupportedTypeFields_none kvs h.2]
end

/-! ### Numbers -/

theorem digitChar_isDigit (d : Nat) (h : d < 10) : isDigit (Nat.digitChar d) = true := by
  interval_cases d <;> rfl

theorem digitChar_val (d : Nat) (h : d < 10) : (Nat.digitChar d).toNat - 48 = d := by
  interval_cases d <;> rfl

theorem digitChar_ne_zero (d : Nat) (h : d < 10) (h0 : 0 < d) : Nat.digitChar d ≠ '0' := by
  interval_cases d <;> decide

theorem parseDigits_toDigitsCore (fuel : Nat) :
    ∀ (n : Nat) (ds rest : List Char), n < fuel →
      parseDigits (Nat.toDigitsCore 10 fuel n ds ++ rest) 0 = parseDigits (ds ++ rest) n := by
  induction fuel with
  | zero => intro n ds rest h; omega
  | succ f ih =>
    intro n ds rest h
    simp only [Nat.toDigitsCore]
    by_cases hn : n / 10 = 0
    · have hlt : n < 10 := by omega
      simp only [hn, if_true, List.cons_append, parseDigits]
      rw [digitChar_isDigit _ (Nat.mod_lt _ (by norm_num)), digitChar_val _ (Nat.mod_lt _ (by norm_num))]
      simp [Nat.mod_eq_of_lt hlt]
    · simp only [hn, if_false]
      rw [ih (n / 10) _ rest (by omega)]
      simp only [List.cons_append, parseDigits]
      rw [digitChar_isDigit _ (Nat.mod_lt _ (by norm_num)), digitChar_val _ (Nat.mod_lt _ (by norm_num))]
      simp only [if_true]
      congr 1
      omega

theorem toDigitsCore_head (fuel : Nat) :
    ∀ (n : Nat) (ds : List Char), n < fuel → 0 < n →
      ∃ h t, Nat.toDigitsCore 10 fuel n ds = h :: t ∧ isDigit h = true ∧ h ≠ '0' := by
  induction fuel with
  | zero => intro n ds h; omega
  | succ f ih =>
    intro n ds h h0
    simp only [Nat.toDigitsCore]
    by_cases hn : n / 10 = 0
    · have hlt : n < 10 := by omega
      simp only [hn, if_true]
      refine ⟨_, _, rfl, digitChar_isDigit _ (Nat.mod_lt _ (by norm_num)), ?_⟩
      rw [Nat.mod_eq_of_lt hlt]
      exact digitChar_ne_zero n hlt h0
    · simp only [hn, if_false]
      exact ih (n / 10) _ (by omega) (by omega)

theorem Delimited.cases {c : Char} {cs : List Char} (h : Delimited (c :: cs) = true) :
    c = ',' ∨ c = ']' ∨ c = '}' ∨ c = '\n' := by
  simp only [Delimited, Bool.or_eq_true, decide_eq_true_eq] at h
  rcases h with ((h | h) | h) | h
  · exact Or.inl h
  · exact Or.inr (Or.inl h)
  · exact Or.inr (Or.inr (Or.inl h))
  · exact Or.inr (Or.inr (Or.inr h))

theorem parseDigits_delimited {rest : List Char} (h : Delimited rest = true) (acc : Nat) :
    parseDigits rest acc = (acc, rest) := by
  cases rest with
  | nil => rfl
  | cons c cs =>
    rcases Delimited.cases h with h | h | h | h <;> subst h <;> rfl

theorem parseFraction_delimited {rest : List Char} (h : Delimited rest = true) (acc : Nat) :
    parseFraction acc rest = some (acc, 0, rest) := by
  cases rest with
  | nil => rfl
  | cons c cs =>
    rcases Delimited.cases h with h | h | h | h <;> subst h <;> rfl

theorem parseExponent_delimited {rest : List Char} (h : Delimited rest = true) :
    parseExponent rest = some (none, rest) := by
  cases rest with
  | nil => rfl
  | cons c cs =>
    rcases Delimited.cases h with h | h | h | h <;> subst h <;> rfl

theorem parseIntPart_toDigits (n : Nat) (rest : List Char) (hd : Delimited rest = true) :
    parseIntPart (Nat.toDigits 10 n ++ rest) = some (n, rest) := by
  by_cases h0 : n = 0
  · subst h0
    show parseIntPart ('0' :: rest) = _
    simp [parseIntPart]
  · obtain ⟨h, t, e, hdig, hne⟩ := toDigitsCore_head (n + 1) n [] (by omega) (by omega)
    have hp : parseDigits (Nat.toDigits 10 n ++ rest) 0 = (n, rest) := by
      unfold Nat.toDigits
      rw [parseDigits_toDigitsCore (n + 1) n [] rest (by omega)]
      exact parseDigits_delimited hd n
    unfold Nat.toDigits at hp ⊢
    rw [e] at hp ⊢
    simp only [List.cons_append] at hp ⊢
    simp only [parseIntPart, hne, if_false, hdig, if_true, hp]

theorem parseUnsigned_toDigits (neg : Bool) (n : Nat) (rest : List Char)
    (hd : Delimited rest = true) :
    parseUnsigned neg (Nat.toDigits 10 n ++ rest) = some (⟨neg, n, 0, true⟩, rest) := by
  simp [parseUnsigned, parseIntPart_toDigits n rest hd, parseFraction_delimited hd,
    parseExponent_delimited hd]

theorem toDigits_head (n : Nat) :
    ∃ h t, Nat.toDigits 10 n = h :: t ∧ isDigit h = true := by
  by_cases h0 : n = 0
  · subst h0; exact ⟨'0', [], rfl, rfl⟩
  · obtain ⟨h, t, e, hdig, -⟩ := toDigitsCore_head (n + 1) n [] (by omega) (by omega)
    exact ⟨h, t, e, hdig⟩

theorem isDigit_ne_minus {c : Char} (h : isDigit c = true) : c ≠ '-' := by
  intro e; subst e; exact absurd h (by decide)

theorem parseNumber_toDigits (neg : Bool) (n : Nat) (rest : List Char)
    (hd : Delimited rest = true) :
    parseNumber ((if neg then ['-'] else []) ++ Nat.toDigits 10 n ++ rest) =
      some (⟨neg, n, 0, true⟩, rest) := by
  cases neg with
  | true =>
    simp only [if_true, List.cons_append, List.nil_append, List.append_assoc, parseNumber]
    exact parseUnsigned_toDigits true n rest hd
  | false =>
    obtain ⟨h, t, e, hdig⟩ := toDigits_head n
    have := parseUnsigned_toDigits false n rest hd
    simp only [Bool.false_eq_true, if_false, List.nil_append]
    rw [e] at this ⊢
    simp only [List.cons_append] at this ⊢
    simp only [parseNumber, isDigit_ne_minus hdig, if_false, this]

theorem encodeInt_eq (z : Int) :
    encodeInt z = (if decide (z < 0) then ['-'] else []) ++ Nat.toDigits 10 z.natAbs := by
  cases z with
  | ofNat m => simp [encodeInt]
  | negSucc m => simp [encodeInt, Int.negSucc_lt_zero]

theorem parseNumber_encodeInt (z : Int) (rest : List Char) (hd : Delimited rest = true) :
    parseNumber (encodeInt z ++ rest) = some (⟨decide (z < 0), z.natAbs, 0, true⟩, rest) := by
  rw [encodeInt_eq]
  exact parseNumber_toDigits _ _ rest hd

/-! ### The nearest `float64` of an integer -/

theorem bitLength_le (fuel : Nat) : ∀ (n k : Nat), n < 2 ^ k → bitLength fuel n ≤ k := by
  induction fuel with
  | zero => intro n k _; simp [bitLength]
  | succ f ih =>
    intro n k h
    simp only [bitLength]
    by_cases hn : n = 0
    · simp [hn]
    · rw [if_neg hn]
      cases k with
      | zero => simp at h; omega
      | succ j =>
        have : n / 2 < 2 ^ j := by
          rw [pow_succ] at h
          omega
        have := ih (n / 2) j this
        omega

theorem leadingExp_one_le (n k : Nat) (h : n < 2 ^ k) : leadingExp n 1 ≤ (k : Int) - 1 := by
  have hb := bitLength_le n n k h
  have h1 : bitLength 1 1 = 1 := rfl
  unfold leadingExp
  rw [h1]
  simp only []
  split_ifs <;> omega

theorem roundDiv_one (n : Nat) : roundDiv n 1 = n := by
  simp [roundDiv, Nat.mod_one]

theorem reduceScale_mul_pow (k : Nat) : ∀ n : Nat, reduceScale (n * 2 ^ k) k = (n, 0) := by
  induction k with
  | zero => intro n; simp [reduceScale]
  | succ j ih =>
    intro n
    have h1 : n * 2 ^ (j + 1) % 2 = 0 := by
      rw [pow_succ, ← Nat.mul_assoc]; exact Nat.mul_mod_left _ _
    have h2 : n * 2 ^ (j + 1) / 2 = n * 2 ^ j := by
      rw [pow_succ, ← Nat.mul_assoc]; exact Nat.mul_div_cancel _ (by norm_num)
    simp only [reduceScale, h1, if_true, h2]
    exact ih n

/-- Rounding an integer to a multiple of a power of two that is at most one is the
identity. -/
theorem roundAt_one_nonpos (neg : Bool) (n : Nat) (q : Int) (hq : q ≤ 0) :
    Float64.roundAt neg n 1 q = some ⟨neg, n, 0⟩ := by
  unfold Float64.roundAt
  by_cases h0 : 0 ≤ q
  · have hq0 : q = 0 := by omega
    subst hq0
    simp [roundDiv_one]
  · rw [if_neg h0, roundDiv_one, reduceScale_mul_pow]

theorem roundAt_isSome (neg : Bool) (n d : Nat) (q : Int) (hq : q < 971) :
    ∃ f, Float64.roundAt neg n d q = some f := by
  unfold Float64.roundAt
  by_cases h0 : 0 ≤ q
  · rw [if_pos h0, if_neg (by omega)]
    exact ⟨_, rfl⟩
  · rw [if_neg h0]
    exact ⟨_, rfl⟩

/-- An integer below `2 ^ 53` is a `float64`. -/
theorem round_exact (neg : Bool) (n : Nat) (h : n < 2 ^ 53) :
    Float64.round neg n 1 = some ⟨neg, n, 0⟩ := by
  unfold Float64.round
  by_cases h0 : n = 0
  · simp [h0]
  · rw [if_neg (by simp [h0])]
    apply roundAt_one_nonpos
    have := leadingExp_one_le n 53 h
    omega

/-- The conversion of an integer of 64 binary digits to `float64` does not overflow. -/
theorem round_isSome (neg : Bool) (n : Nat) (h : n < 2 ^ 64) :
    ∃ f, Float64.round neg n 1 = some f := by
  unfold Float64.round
  by_cases h0 : n = 0
  · simp [h0]
  · rw [if_neg (by simp [h0])]
    apply roundAt_isSome
    have := leadingExp_one_le n 64 h
    omega

theorem natAbs_lt_of_inIntRange (n : Int) (h : inIntRange n = true) : n.natAbs < 2 ^ 64 := by
  simp only [inIntRange, Bool.and_eq_true, decide_eq_true_eq] at h
  omega

/-- Reading the digits of an `int` as a `float64` is the conversion `float64(n)`. -/
theorem toFloat64_int (n : Int) (h : inIntRange n = true) :
    NumLit.toFloat64 ⟨decide (n < 0), n.natAbs, 0, true⟩ = some (Float64.ofInt n) := by
  unfold NumLit.toFloat64 Float64.ofInt
  by_cases h0 : n.natAbs = 0
  · simp [h0, Float64.round]
  · obtain ⟨f, hf⟩ := round_isSome (decide (n < 0)) n.natAbs (natAbs_lt_of_inIntRange n h)
    simp only [h0, if_false]
    rw [if_neg (by decide), if_neg (by omega)]
    simp only [roundDecimal, le_refl, if_true, Int.toNat_zero, pow_zero, mul_one, hf]

/-- Reading the digits of an integer below `2 ^ 53` as a `float64` yields it. -/
theorem toFloat64_exact (f : Float64) (h : f.exactInt = true) :
    NumLit.toFloat64 ⟨f.neg, f.num, 0, true⟩ = some f := by
  obtain ⟨neg, num, scale⟩ := f
  simp only [Float64.exactInt, Bool.and_eq_true, decide_eq_true_eq] at h
  obtain ⟨hs, hn⟩ := h
  subst hs
  unfold NumLit.toFloat64
  by_cases h0 : num = 0
  · simp [h0]
  · simp only [h0, if_false]
    rw [if_neg (by decide), if_neg (by omega)]
    simp only [roundDecimal, le_refl, if_true, Int.toNat_zero, pow_zero, mul_one,
      round_exact neg num hn]

theorem toInt_int (n : Int) (h : inIntRange n = true) :
    NumLit.toInt ⟨decide (n < 0), n.natAbs, 0, true⟩ = some n := by
  have hv : (if decide (n < 0) = true then -((n.natAbs : Nat) : Int) else ((n.natAbs : Nat) : Int))
      = n := by
    by_cases hn : n < 0
    · simp only [hn, decide_True, if_true]; omega
    · simp only [hn, decide_False, Bool.false_eq_true, if_false]; omega
  simp only [NumLit.toInt, if_true, hv, h]

theorem format_exact (f : Float64) (h : f.exactInt = true) :
    f.format = (if f.neg then ['-'] else []) ++ Nat.toDigits 10 f.num := by
  simp only [Float64.exactInt, Bool.and_eq_true, decide_eq_true_eq] at h
  unfold Float64.format
  rw [if_pos h]

/-! ### Strings -/

theorem decodeChar_escapeU00 (n : Nat) (h : n < 256) (rest : List Char) :
    decodeChar (escapeU00 n ++ rest) = some (Char.ofNat n, rest) := by
  interval_cases n <;> rfl

theorem encodeChar_cases (c : Char) :
    (encodeChar c = [c] ∧ c ≠ '"' ∧ c ≠ '\\' ∧ ¬ c.toNat < 32) ∨
      (∃ t, encodeChar c = '\\' :: t ∧ ∀ rest, decodeChar ('\\' :: t ++ rest) = some (c, rest)) := by
  by_cases h1 : c = '"'
  · subst h1; exact Or.inr ⟨_, rfl, fun _ => rfl⟩
  by_cases h2 : c = '\\'
  · subst h2; exact Or.inr ⟨_, rfl, fun _ => rfl⟩
  by_cases h3 : c = '\x08'
  · subst h3; exact Or.inr ⟨_, rfl, fun _ => rfl⟩
  by_cases h4 : c = '\x0c'
  · subst h4; exact Or.inr ⟨_, rfl, fun _ => rfl⟩
  by_cases h5 : c = '\n'
  · subst h5; exact Or.inr ⟨_, rfl, fun _ => rfl⟩
  by_cases h6 : c = '\r'
  · subst h6; exact Or.inr ⟨_, rfl, fun _ => rfl⟩
  by_cases h7 : c = '\t'
  · subst h7; exact Or.inr ⟨_, rfl, fun _ => rfl⟩
  by_cases h8 : c.toNat < 32
  · refine Or.inr ⟨['u', '0', '0', hexDigit (c.toNat / 16), hexDigit (c.toNat % 16)], ?_,
      fun rest => ?_⟩
    · unfold encodeChar
      rw [if_neg h1, if_neg h2, if_neg h3, if_neg h4, if_neg h5, if_neg h6, if_neg h7, if_pos h8]
      rfl
    · have := decodeChar_escapeU00 c.toNat (by omega) rest
      rw [Char.ofNat_toNat] at this
      exact this
  by_cases h9 : c = '<'
  · subst h9; exact Or.inr ⟨_, rfl, fun _ => rfl⟩
  by_cases h10 : c = '>'
  · subst h10; exact Or.inr ⟨_, rfl, fun _ => rfl⟩
  by_cases h11 : c = '&'
  · subst h11; exact Or.inr ⟨_, rfl, fun _ => rfl⟩
  by_cases h12 : c = Char.ofNat 0x2028
  · subst h12; exact Or.inr ⟨_, rfl, fun _ => rfl⟩
  by_cases h13 : c = Char.ofNat 0x2029
  · subst h13; exact Or.inr ⟨_, rfl, fun _ => rfl⟩
  refine Or.inl ⟨?_, h1, h2, h8⟩
  unfold encodeChar
  have h14 : ¬ (c = '<' ∨ c = '>' ∨ c = '&') := by
    rintro (h | h | h)
    · exact h9 h
    · exact h10 h
    · exact h11 h
  rw [if_neg h1, if_neg h2, if_neg h3, if_neg h4, if_neg h5, if_neg h6, if_neg h7, if_neg h8,
    if_neg h14, if_neg h12, if_neg h13]

theorem decodeChar_encodeChar (c : Char) (rest : List Char) :
    decodeChar (encodeChar c ++ rest) = some (c, rest) := by
  rcases encodeChar_cases c with ⟨e, h1, h2, h8⟩ | ⟨t, e, h⟩
  · rw [e]
    simp only [List.singleton_append, decodeChar, h1, h2, if_false, h8]
  · rw [e]; exact h rest

theorem encodeChar_head (c : Char) :
    ∃ h t, encodeChar c = h :: t ∧ h ≠ '"' := by
  rcases encodeChar_cases c with ⟨e, h1, -, -⟩ | ⟨t, e, -⟩
  · exact ⟨c, [], e, h1⟩
  · exact ⟨'\\', t, e, by decide⟩

theorem encodeChar_length (c : Char) : 1 ≤ (encodeChar c).length := by
  obtain ⟨h, t, e, -⟩ := encodeChar_head c
  rw [e]; simp

theorem encodeChars_length (cs : List Char) : cs.length ≤ (encodeChars cs).length := by
  induction cs with
  | nil => simp [encodeChars]
  | cons c cs ih =>
    have := encodeChar_length c
    simp only [encodeChars, List.length_append, List.length_cons]
    omega

theorem parseStringBody_encodeChars (cs : List Char) :
    ∀ (fuel : Nat) (rest : List Char), cs.length < fuel →
      parseStringBody fuel (encodeChars cs ++ '"' :: rest) = some (cs, rest) := by
  induction cs with
  | nil =>
    intro fuel rest h
    cases fuel with
    | zero => omega
    | succ f => simp [encodeChars, parseStringBody]
  | cons c cs ih =>
    intro fuel rest h
    cases fuel with
    | zero => omega
    | succ f =>
      have hdec := decodeChar_encodeChar c (encodeChars cs ++ '"' :: rest)
      obtain ⟨hd, tl, e, hne⟩ := encodeChar_head c
      simp only [encodeChars, List.append_assoc]
      rw [e] at hdec ⊢
      simp only [List.cons_append] at hdec ⊢
      simp only [parseStringBody, hne, if_false, hdec]
      rw [ih f rest (by simp at h; omega)]
      rfl

theorem parseStringBody_encodeString (s : String) (fuel : Nat) (rest : List Char)
    (h : (encodeString s).length ≤ fuel + 1) :
    ∃ t, encodeString s ++ rest = '"' :: t ∧ parseStringBody fuel t = some (s.data, rest) := by
  refine ⟨encodeChars s.data ++ '"' :: rest, by simp [encodeString], ?_⟩
  apply parseStringBody_encodeChars
  have := encodeChars_length s.data
  simp [encodeString] at h
  omega

/-! ### Values -/

theorem skipWs_cons {c : Char} (h : isWs c = false) (r : List Char) :
    skipWs (c :: r) = c :: r := by
  simp [skipWs, h]

theorem isDigit_facts {c : Char} (h : isDigit c = true) :
    isWs c = false ∧ c ≠ '"' ∧ c ≠ '[' ∧ c ≠ '{' ∧ c ≠ 'n' ∧ c ≠ 't' ∧ c ≠ 'f' ∧
      c ≠ ']' ∧ c ≠ '}' := by
  have key : ∀ d : Char, isDigit d = false → c ≠ d := by
    intro d hd e
    subst e
    rw [h] at hd
    exact Bool.noConfusion hd
  refine ⟨?_, key _ rfl, key _ rfl, key _ rfl, key _ rfl, key _ rfl, key _ rfl, key _ rfl,
    key _ rfl⟩
  have h1 := key ' ' rfl
  have h2 := key '\t' rfl
  have h3 := key '\n' rfl
  have h4 := key '\r' rfl
  simp [isWs, h1, h2, h3, h4]

/-- The first character of a number written with its sign and all its digits. -/
theorem numberText_head (neg : Bool) (n : Nat) :
    ∃ h t, (if neg then ['-'] else []) ++ Nat.toDigits 10 n = h :: t ∧ isWs h = false ∧
      h ≠ '"' ∧ h ≠ '[' ∧ h ≠ '{' ∧ h ≠ 'n' ∧ h ≠ 't' ∧ h ≠ 'f' ∧ h ≠ ']' ∧ h ≠ '}' := by
  cases neg with
  | false =>
    obtain ⟨h, t, e, hdig⟩ := toDigits_head n
    exact ⟨h, t, by simp [e], isDigit_facts hdig⟩
  | true =>
    exact ⟨'-', _, rfl, rfl, by decide, by decide, by decide, by decide, by decide, by decide,
      by decide, by decide⟩

/-- The text of a number of the kinds covered: its sign and its digits. -/
theorem number_encode (v : Value) (hx : v.exact = true) :
    (∀ n, v = .int n → v.encode = (if decide (n < 0) then ['-'] else []) ++
      Nat.toDigits 10 n.natAbs) ∧
    (∀ f, v = .float64 f → v.encode = (if f.neg then ['-'] else []) ++
      Nat.toDigits 10 f.num) := by
  constructor
  · rintro n rfl
    simp only [Value.encode, encodeInt_eq]
  · rintro f rfl
    simp only [Value.exact] at hx
    simp only [Value.encode, format_exact f hx]

theorem encode_head (v : Value) (he : v.encodable = true) (hx : v.exact = true) :
    ∃ h t, v.encode = h :: t ∧ isWs h = false ∧ h ≠ ']' ∧ h ≠ '}' := by
  cases v with
  | null => exact ⟨'n', _, rfl, rfl, by decide, by decide⟩
  | bool b => cases b
              · exact ⟨'f', _, rfl, rfl, by decide, by decide⟩
              · exact ⟨'t', _, rfl, rfl, by decide, by decide⟩
  | int n =>
    obtain ⟨h, t, e, h1, -, -, -, -, -, -, h2, h3⟩ := numberText_head (decide (n < 0)) n.natAbs
    exact ⟨h, t, by rw [(number_encode _ hx).1 n rfl, e], h1, h2, h3⟩
  | float64 f =>
    obtain ⟨h, t, e, h1, -, -, -, -, -, -, h2, h3⟩ := numberText_head f.neg f.num
    exact ⟨h, t, by rw [(number_encode _ hx).2 f rfl, e], h1, h2, h3⟩
  | str s => exact ⟨'"', _, rfl, rfl, by decide, by decide⟩
  | arr xs => cases xs
              · exact ⟨'[', _, rfl, rfl, by decide, by decide⟩
              · exact ⟨'[', _, rfl, rfl, by decide, by decide⟩
  | obj kvs =>
    cases kvs with
    | nil => exact ⟨'{', _, rfl, rfl, by decide, by decide⟩
    | cons p rest => obtain ⟨k, v⟩ := p; exact ⟨'{', _, rfl, rfl, by decide, by decide⟩
  | unsupported t => simp [Value.encodable] at he

theorem encodeTail_head (vs : List Value) (rest : List Char) :
    ∃ c t, encodeTail vs ++ rest = c :: t ∧ (c = ',' ∨ c = ']') := by
  cases vs with
  | nil => exact ⟨']', rest, rfl, Or.inr rfl⟩
  | cons v vs => exact ⟨',', _, rfl, Or.inl rfl⟩

theorem encodeFieldsTail_head (kvs : List (String × Value)) (rest : List Char) :
    ∃ c t, encodeFieldsTail kvs ++ rest = c :: t ∧ (c = ',' ∨ c = '}') := by
  cases kvs with
  | nil => exact ⟨'}', rest, rfl, Or.inr rfl⟩
  | cons p kvs => obtain ⟨k, v⟩ := p; exact ⟨',', _, rfl, Or.inl rfl⟩

theorem encodeTail_delimited (vs : List Value) (rest : List Char) :
    Delimited (encodeTail vs ++ rest) = true := by
  obtain ⟨c, t, e, h⟩ := encodeTail_head vs rest
  rw [e]
  rcases h with h | h <;> simp [Delimited, h]

theorem encodeFieldsTail_delimited (kvs : List (String × Value)) (rest : List Char) :
    Delimited (encodeFieldsTail kvs ++ rest) = true := by
  obtain ⟨c, t, e, h⟩ := encodeFieldsTail_head kvs rest
  rw [e]
  rcases h with h | h <;> simp [Delimited, h]

theorem encodeTail_length (vs : List Value) : 1 ≤ (encodeTail vs).length := by
  cases vs <;> simp [encodeTail]

theorem encodeFieldsTail_length (kvs : List (String × Value)) :
    1 ≤ (encodeFieldsTail kvs).length := by
  cases kvs with
  | nil => simp [encodeFieldsTail]
  | cons p rest => obtain ⟨k, v⟩ := p; simp [encodeFieldsTail]

/-- Reading the text of a number of the kinds covered yields its literal. -/
theorem parseJson_number (v : Value) (neg : Bool) (n : Nat)
    (he : v.encode = (if neg then ['-'] else []) ++ Nat.toDigits 10 n)
    (fuel depth : Nat) (rest : List Char) (hd : Delimited rest = true) :
    parseJson (fuel + 1) depth (v.encode ++ rest) = some (.num ⟨neg, n, 0, true⟩, rest) := by
  obtain ⟨h, t, e, h0, h1, h2, h3, h4, h5, h6, -, -⟩ := numberText_head neg n
  have hp := parseNumber_toDigits neg n rest hd
  rw [he]
  rw [e] at hp ⊢
  simp only [List.cons_append] at hp ⊢
  simp only [parseJson, skipWs_cons h0, h1, h2, h3, h4, h5, h6, if_false, hp]
  rfl

mutual
/-- Reading the text of a value, whatever follows it, yields the JSON value of it. -/
theorem parseJson_encode : ∀ (v : Value), v.encodable = true → v.exact = true →
    ∀ (fuel depth : Nat) (rest : List Char), v.encode.length < fuel →
      depth + v.depth ≤ maxNestingDepth → Delimited rest = true →
      parseJson fuel depth (v.encode ++ rest) = some (v.toJson, rest)
  | .null, _, _, fuel, depth, rest, hf, _, _ => by
    cases fuel with
    | zero => omega
    | succ f => rfl
  | .bool true, _, _, fuel, depth, rest, hf, _, _ => by
    cases fuel with
    | zero => omega
    | succ f => rfl
  | .bool false, _, _, fuel, depth, rest, hf, _, _ => by
    cases fuel with
    | zero => omega
    | succ f => rfl
  | .int n, _, hx, fuel, depth, rest, hf, _, hd => by
    cases fuel with
    | zero => omega
    | succ f =>
      exact parseJson_number (.int n) _ _ ((number_encode _ hx).1 n rfl) f depth rest hd
  | .float64 x, _, hx, fuel, depth, rest, hf, _, hd => by
    cases fuel with
    | zero => omega
    | succ f =>
      exact parseJson_number (.float64 x) _ _ ((number_encode _ hx).2 x rfl) f depth rest hd
  | .str s, _, _, fuel, depth, rest, hf, _, _ => by
    cases fuel with
    | zero => omega
    | succ f =>
      simp only [Value.encode] at hf
      obtain ⟨t, e, hp⟩ := parseStringBody_encodeString s f rest (by omega)
      simp only [Value.encode, Value.toJson]
      rw [e]
      simp only [parseJson, skipWs_cons (show isWs '"' = false from rfl), if_true, hp]
      rfl
  | .arr [], _, _, fuel, depth, rest, hf, hdep, _ => by
    simp only [Value.depth, depthList] at hdep
    cases fuel with
    | zero => omega
    | succ f =>
      simp only [Value.encode, Value.toJson, toJsonList, List.cons_append, List.nil_append,
        parseJson, skipWs_cons (show isWs '[' = false from rfl),
        skipWs_cons (show isWs ']' = false from rfl)]
      rw [if_neg (by decide), if_pos trivial, if_neg (by omega), if_pos trivial]
  | .arr (v :: vs), he, hx, fuel, depth, rest, hf, hdep, _ => by
    simp only [Value.encodable, encodableList, Bool.and_eq_true] at he
    simp only [Value.exact, exactList, Bool.and_eq_true] at hx
    simp only [Value.encode, List.length_cons, List.length_append] at hf
    simp only [Value.depth, depthList] at hdep
    have hlt := encodeTail_length vs
    cases fuel with
    | zero => omega
    | succ f =>
      cases f with
      | zero => omega
      | succ g =>
        obtain ⟨h, t, e, h0, h1, -⟩ := encode_head v he.1 hx.1
        have hv := parseJson_encode v he.1 hx.1 g (depth + 1) (encodeTail vs ++ rest)
          (by omega) (by omega) (encodeTail_delimited vs rest)
        have ht := parseElems_tail vs he.2 hx.2 g (depth + 1)
          (v.encode ++ (encodeTail vs ++ rest)) v.toJson rest (by omega) (by omega) hv
        simp only [Value.encode, Value.toJson, toJsonList, List.cons_append,
          List.append_assoc]
        simp only [parseJson, skipWs_cons (show isWs '[' = false from rfl)]
        rw [if_neg (by decide), if_pos trivial, if_neg (by omega)]
        rw [e] at ht ⊢
        simp only [List.cons_append, skipWs_cons h0, h1, if_false] at ht ⊢
        rw [ht]
        rfl
  | .obj [], _, _, fuel, depth, rest, hf, hdep, _ => by
    simp only [Value.depth, depthFields] at hdep
    cases fuel with
    | zero => omega
    | succ f =>
      simp only [Value.encode, Value.toJson, toJsonFields, List.cons_append, List.nil_append,
        parseJson, skipWs_cons (show isWs '{' = false from rfl),
        skipWs_cons (show isWs '}' = false from rfl)]
      rw [if_neg (by decide), if_neg (by decide), if_pos trivial, if_neg (by omega),
        if_pos trivial]
  | .obj ((k, v) :: kvs), he, hx, fuel, depth, rest, hf, hdep, _ => by
    simp only [Value.encodable, encodableFields, Bool.and_eq_true] at he
    simp only [Value.exact, exactFields, Bool.and_eq_true] at hx
    simp only [Value.encode, List.length_cons, List.length_append] at hf
    simp only [Value.depth, depthFields] at hdep
    have hlt := encodeFieldsTail_length kvs
    cases fuel with
    | zero => omega
    | succ f =>
      cases f with
      | zero => omega
      | succ g =>
        obtain ⟨t, e, hk⟩ := parseStringBody_encodeString k g
          (':' :: (v.encode ++ (encodeFieldsTail kvs ++ rest))) (by omega)
        have hv := parseJson_encode v he.1 hx.1 g (depth + 1) (encodeFieldsTail kvs ++ rest)
          (by omega) (by omega) (encodeFieldsTail_delimited kvs rest)
        have ht := parseMembers_tail kvs he.2 hx.2 g (depth + 1)
          (encodeString k ++ ':' :: (v.encode ++ (encodeFieldsTail kvs ++ rest)))
          k v.toJson rest (by omega) (by omega) t _ _ (by rw [e]; rfl) hk rfl hv
        simp only [Value.encode, Value.toJson, toJsonFields, List.cons_append,
          List.append_assoc]
        simp only [parseJson, skipWs_cons (show isWs '{' = false from rfl)]
        rw [if_neg (by decide), if_neg (by decide), if_pos trivial, if_neg (by omega)]
        rw [e] at ht ⊢
        simp only [skipWs_cons (show isWs '"' = false from rfl)] at ht ⊢
        rw [if_neg (by decide), ht]
        rfl
  | .unsupported _, he, _, _, _, _, _, _, _ => by simp [Value.encodable] at he
/-- After the first element of an array has been read, the remaining elements are. -/
theorem parseElems_tail : ∀ (vs : List Value), encodableList vs = true →
    exactList vs = true →
    ∀ (fuel depth : Nat) (s : List Char) (j1 : Json) (rest : List Char),
      (encodeTail vs).length ≤ fuel → depth + depthList vs ≤ maxNestingDepth →
      parseJson fuel depth s = some (j1, encodeTail vs ++ rest) →
      parseElems (fuel + 1) depth s = some (j1 :: toJsonList vs, rest)
  | [], _, _, fuel, depth, s, j1, rest, _, _, hv => by
    simp only [parseElems, hv, encodeTail, List.cons_append, List.nil_append,
      skipWs_cons (show isWs ']' = false from rfl), toJsonList]
    rfl
  | w :: ws, he, hx, fuel, depth, s, j1, rest, hf, hdep, hv => by
    simp only [encodableList, Bool.and_eq_true] at he
    simp only [exactList, Bool.and_eq_true] at hx
    simp only [encodeTail, List.length_cons, List.length_append] at hf
    simp only [depthList] at hdep
    have hlt := encodeTail_length ws
    cases fuel with
    | zero => omega
    | succ f =>
      have hw := parseJson_encode w he.1 hx.1 f depth (encodeTail ws ++ rest) (by omega)
        (by omega) (encodeTail_delimited ws rest)
      have ht := parseElems_tail ws he.2 hx.2 f depth (w.encode ++ (encodeTail ws ++ rest))
        w.toJson rest (by omega) (by omega) hw
      simp only [parseElems, hv, encodeTail, List.cons_append, List.append_assoc,
        skipWs_cons (show isWs ',' = false from rfl), if_true, toJsonList]
      simp only [parseElems] at ht
      rw [ht]
      rfl
/-- After the first member of an object has been read, the remaining members are. -/
theorem parseMembers_tail : ∀ (kvs : List (String × Value)), encodableFields kvs = true →
    exactFields kvs = true →
    ∀ (fuel depth : Nat) (s : List Char) (k : String) (j1 : Json) (rest : List Char),
      (encodeFieldsTail kvs).length ≤ fuel → depth + depthFields kvs ≤ maxNestingDepth →
      ∀ (r r1 r2 : List Char), skipWs s = '"' :: r →
        parseStringBody fuel r = some (k.data, r1) → skipWs r1 = ':' :: r2 →
        parseJson fuel depth r2 = some (j1, encodeFieldsTail kvs ++ rest) →
        parseMembers (fuel + 1) depth s = some ((k, j1) :: toJsonFields kvs, rest)
  | [], _, _, fuel, depth, s, k, j1, rest, _, _, r, r1, r2, h1, h2, h3, h4 => by
    simp only [parseMembers, h1, if_true, h2, h3, h4, encodeFieldsTail, List.cons_append,
      List.nil_append, skipWs_cons (show isWs '}' = false from rfl), toJsonFields]
    rfl
  | (k2, w) :: ws, he, hx, fuel, depth, s, k, j1, rest, hf, hdep, r, r1, r2, h1, h2, h3, h4 => by
    simp only [encodableFields, Bool.and_eq_true] at he
    simp only [exactFields, Bool.and_eq_true] at hx
    simp only [encodeFieldsTail, List.length_cons, List.length_append] at hf
    simp only [depthFields] at hdep
    have hlt := encodeFieldsTail_length ws
    cases fuel with
    | zero => omega
    | succ f =>
      obtain ⟨t, e, hk⟩ := parseStringBody_encodeString k2 f
        (':' :: (w.encode ++ (encodeFieldsTail ws ++ rest))) (by omega)
      have hw := parseJson_encode w he.1 hx.1 f depth (encodeFieldsTail ws ++ rest) (by omega)
        (by omega) (encodeFieldsTail_delimited ws rest)
      have ht := parseMembers_tail ws he.2 hx.2 f depth
        (encodeString k2 ++ ':' :: (w.encode ++ (encodeFieldsTail ws ++ rest)))
        k2 w.toJson rest (by omega) (by omega) t _ _ (by rw [e]; rfl) hk rfl hw
      simp only [parseMembers, h1, if_true, h2, h3, h4, encodeFieldsTail, List.cons_append,
        List.append_assoc, skipWs_cons (show isWs ',' = false from rfl), toJsonFields]
      simp only [parseMembers] at ht
      rw [ht]
      rfl
end

/-! ### Maps with sorted keys -/

theorem keyLt_irrefl (a : List Char) : keyLt a a = false := by
  induction a with
  | nil => rfl
  | cons c cs ih => simp [keyLt, ih]

theorem keyLt_asymm : ∀ (a b : List Char), keyLt a b = true → keyLt b a = false
  | [], [], h => by simp [keyLt] at h
  | [], _ :: _, _ => by simp [keyLt]
  | _ :: _, [], h => by simp [keyLt] at h
  | x :: xs, y :: ys, h => by
    simp only [keyLt] at h ⊢
    by_cases h1 : x.toNat < y.toNat
    · have h2 : ¬ y.toNat < x.toNat := by omega
      have h3 : y ≠ x := by
        intro e; subst e; omega
      simp [h2, h3]
    · simp only [h1, if_false] at h
      by_cases h2 : x = y
      · subst h2
        simp only [if_true] at h
        simp [keyLt_asymm xs ys h]
      · simp [h2] at h

theorem mapInsert_end (k : String) (v : Value) (acc : List (String × Value))
    (h : ∀ p ∈ acc, keyLt p.1.data k.data = true) :
    mapInsert k v acc = acc ++ [(k, v)] := by
  induction acc with
  | nil => rfl
  | cons p rest ih =>
    obtain ⟨k1, v1⟩ := p
    have h1 : keyLt k1.data k.data = true := h (k1, v1) (List.mem_cons_self _ _)
    have h2 : keyLt k.data k1.data = false := keyLt_asymm _ _ h1
    have h3 : k ≠ k1 := by
      intro e; subst e
      rw [keyLt_irrefl] at h1
      exact Bool.noConfusion h1
    simp only [mapInsert, h2, h3, if_false, Bool.false_eq_true, List.cons_append]
    rw [ih (fun p hp => h p (List.mem_cons_of_mem _ hp))]

theorem foldl_mapInsert (ms : List (String × Value)) :
    ∀ acc : List (String × Value),
      (acc ++ ms).Pairwise (fun a b => keyLt a.1.data b.1.data = true) →
      ms.foldl (fun m p => mapInsert p.1 p.2 m) acc = acc ++ ms := by
  induction ms with
  | nil => intro acc _; simp
  | cons p rest ih =>
    intro acc h
    obtain ⟨k, v⟩ := p
    have hlt : ∀ q ∈ acc, keyLt q.1.data k.data = true := by
      intro q hq
      rw [List.pairwise_append] at h
      exact h.2.2 q hq (k, v) (List.mem_cons_self _ _)
    simp only [List.foldl_cons, mapInsert_end k v acc hlt]
    rw [ih (acc ++ [(k, v)]) (by simpa using h)]
    simp

theorem mkMap_sorted (ms : List (String × Value))
    (h : ms.Pairwise (fun a b => keyLt a.1.data b.1.data = true)) : mkMap ms = ms := by
  unfold mkMap
  simpa using foldl_mapInsert ms [] (by simpa using h)

theorem keyBelow_normalize (k : String) (kvs : List (String × Value))
    (h : keyBelow k kvs = true) :
    ∀ q ∈ normalizeFields kvs, keyLt k.data q.1.data = true := by
  induction kvs with
  | nil => intro q hq; simp [normalizeFields] at hq
  | cons p rest ih =>
    obtain ⟨k1, v1⟩ := p
    simp only [keyBelow, Bool.and_eq_true] at h
    intro q hq
    simp only [normalizeFields, List.mem_cons] at hq
    rcases hq with rfl | hq
    · exact h.1
    · exact ih h.2 q hq

theorem sortedKeysFields_pairwise (kvs : List (String × Value))
    (h : sortedKeysFields kvs = true) :
    (normalizeFields kvs).Pairwise (fun a b => keyLt a.1.data b.1.data = true) := by
  induction kvs with
  | nil => simp [normalizeFields]
  | cons p rest ih =>
    obtain ⟨k1, v1⟩ := p
    simp only [sortedKeysFields, Bool.and_eq_true] at h
    simp only [normalizeFields, List.pairwise_cons]
    exact ⟨keyBelow_normalize k1 rest h.1.1, ih h.2⟩

theorem sortedKeysFields_fieldsSorted (kvs : List (String × Value))
    (h : sortedKeysFields kvs = true) : fieldsSorted kvs = true := by
  induction kvs with
  | nil => rfl
  | cons p rest ih =>
    obtain ⟨k, v⟩ := p
    simp only [sortedKeysFields, Bool.and_eq_true] at h
    simp only [fieldsSorted, Bool.and_eq_true]
    exact ⟨h.1.2, ih h.2⟩

/-! ### Storing a JSON value into an `interface{}` -/

mutual
/-- Storing the JSON value of a value yields the normalised value. -/
theorem toValue_toJson : ∀ (v : Value), v.encodable = true → v.exact = true →
    v.sortedKeys = true → v.toJson.toValue = some v.normalize
  | .null, _, _, _ => rfl
  | .bool _, _, _, _ => rfl
  | .int n, _, hx, _ => by
    simp only [Value.exact] at hx
    simp only [Value.toJson, Json.toValue, toFloat64_int n hx, Option.map_some',
      Value.normalize]
  | .float64 f, _, hx, _ => by
    simp only [Value.exact] at hx
    simp only [Value.toJson, Json.toValue, toFloat64_exact f hx, Option.map_some',
      Value.normalize]
  | .str _, _, _, _ => rfl
  | .arr xs, he, hx, hs => by
    simp only [Value.encodable] at he
    simp only [Value.exact] at hx
    simp only [Value.sortedKeys] at hs
    simp only [Value.toJson, Json.toValue, toValues_toJsonList xs he hx hs, Option.map_some',
      Value.normalize]
  | .obj kvs, he, hx, hs => by
    simp only [Value.encodable] at he
    simp only [Value.exact] at hx
    simp only [Value.sortedKeys] at hs
    simp only [Value.toJson, Json.toValue,
      toFields_toJsonFields kvs he hx (sortedKeysFields_fieldsSorted kvs hs), Option.map_some',
      Value.normalize, mkMap_sorted _ (sortedKeysFields_pairwise kvs hs)]
  | .unsupported _, he, _, _ => by simp [Value.encodable] at he
/-- Storing the JSON values of the elements of a slice. -/
theorem toValues_toJsonList : ∀ (xs : List Value), encodableList xs = true →
    exactList xs = true → sortedKeysList xs = true →
    toValues (toJsonList xs) = some (normalizeList xs)
  | [], _, _, _ => rfl
  | v :: vs, he, hx, hs => by
    simp only [encodableList, Bool.and_eq_true] at he
    simp only [exactList, Bool.and_eq_true] at hx
    simp only [sortedKeysList, Bool.and_eq_true] at hs
    simp only [toJsonList, toValues, toValue_toJson v he.1 hx.1 hs.1,
      toValues_toJsonList vs he.2 hx.2 hs.2, normalizeList]
/-- Storing the JSON values of the entries of a map, before the map is built. -/
theorem toFields_toJsonFields : ∀ (kvs : List (String × Value)), encodableFields kvs = true →
    exactFields kvs = true → fieldsSorted kvs = true →
    toFields (toJsonFields kvs) = some (normalizeFields kvs)
  | [], _, _, _ => rfl
  | (k, v) :: kvs, he, hx, hs => by
    simp only [encodableFields, Bool.and_eq_true] at he
    simp only [exactFields, Bool.and_eq_true] at hx
    simp only [fieldsSorted, Bool.and_eq_true] at hs
    simp only [toJsonFields, toFields, toValue_toJson v he.1 hx.1 hs.1,
      toFields_toJsonFields kvs he.2 hx.2 hs.2, normalizeFields]
end

/-! ### Requests -/

theorem marshalRequest_eq (r : Request) (h : encodableList (r.Params.getD []) = true) :
    marshalRequest r = .ok (Value.obj r.members).encode := by
  unfold marshalRequest
  rw [unsupportedTypeList_none _ h]
  simp only []
  cases hp : r.Params with
  | none => simp [Request.members, hp, paramsValue, Value.encode, encodeFieldsTail, encodeParams]; rfl
  | some xs => simp [Request.members, hp, paramsValue, Value.encode, encodeFieldsTail, encodeParams]; rfl

mutual
/-- Normalisation leaves a generic value as it is. -/
theorem normalize_generic : ∀ (v : Value), v.generic = true → v.normalize = v
  | .null, _ => rfl
  | .bool _, _ => rfl
  | .int _, h => by simp [Value.generic] at h
  | .float64 _, _ => rfl
  | .str _, _ => rfl
  | .arr xs, h => by
    simp only [Value.generic] at h
    simp only [Value.normalize, normalizeList_generic xs h]
  | .obj kvs, h => by
    simp only [Value.generic] at h
    simp only [Value.normalize, normalizeFields_generic kvs h]
  | .unsupported _, _ => rfl
/-- Normalisation leaves a slice of generic values as it is. -/
theorem normalizeList_generic : ∀ (xs : List Value), genericList xs = true →
    normalizeList xs = xs
  | [], _ => rfl
  | v :: vs, h => by
    simp only [genericList, Bool.and_eq_true] at h
    simp only [normalizeList, normalize_generic v h.1, normalizeList_generic vs h.2]
/-- Normalisation leaves a map of generic values as it is. -/
theorem normalizeFields_generic : ∀ (kvs : List (String × Value)), genericFields kvs = true →
    normalizeFields kvs = kvs
  | [], _ => rfl
  | (k, v) :: kvs, h => by
    simp only [genericFields, Bool.and_eq_true] at h
    simp only [normalizeFields, normalize_generic v h.1, normalizeFields_generic kvs h.2]
end

/-- Storing the members that `EncodeRequest` writes, in their order, into the zero
request. -/
theorem setFields_members (a b c : String) (p : Json) (t : Int) (ps : Option (List Value))
    (ht : inIntRange t = true)
    (hp : (p = .null ∧ ps = none) ∨ (∃ xs vs, p = .arr xs ∧ toValues xs = some vs ∧ ps = some vs)) :
    setFields Request.setField Request.zero
      [("id", .str a), ("service", .str b), ("method", .str c), ("params", p),
        ("timeout_ms", .num ⟨decide (t < 0), t.natAbs, 0, true⟩)] = some ⟨a, b, c, ps, t⟩ := by
  have e1 : ∀ (q : Request) (x : String), q.setField "id" (.str x) = some { q with ID := x } :=
    fun _ _ => rfl
  have e2 : ∀ (q : Request) (x : String),
      q.setField "service" (.str x) = some { q with Service := x } := fun _ _ => rfl
  have e3 : ∀ (q : Request) (x : String),
      q.setField "method" (.str x) = some { q with Method := x } := fun _ _ => rfl
  have e4 : ∀ (q : Request), q.setField "params" .null = some { q with Params := none } :=
    fun _ => rfl
  have e5 : ∀ (q : Request) (xs : List Json),
      q.setField "params" (.arr xs) =
        (toValues xs).map (fun vs => { q with Params := some vs }) := fun _ _ => rfl
  have e6 : ∀ (q : Request) (lit : NumLit), q.setField "timeout_ms" (.num lit) =
      lit.toInt.map (fun n => { q with TimeoutMS := n }) := fun _ _ => rfl
  rcases hp with ⟨rfl, rfl⟩ | ⟨xs, vs, rfl, hvs, rfl⟩
  · simp only [setFields, e1, e2, e3, e4, e6, toInt_int t ht, Option.map_some', Request.zero]
  · simp only [setFields, e1, e2, e3, e5, e6, hvs, toInt_int t ht, Option.map_some',
      Request.zero]

/-- The text that `EncodeRequest` writes for a valid request is read as the object of
its members. -/
theorem parseText_members (r : Request) (hv : r.valid = true) :
    parseText ((Value.obj r.members).encode ++ ['\n']) = some (.obj (toJsonFields r.members)) := by
  simp only [Request.valid, Bool.and_eq_true, decide_eq_true_eq] at hv
  obtain ⟨⟨⟨⟨henc, -⟩, hex⟩, hdep⟩, hint⟩ := hv
  have hme : (Value.obj r.members).encodable = true := by
    cases hp : r.Params with
    | none => simp [Request.members, hp, paramsValue, Value.encodable, encodableFields]
    | some xs =>
      simp only [hp, Option.getD_some] at henc
      simp [Request.members, hp, paramsValue, Value.encodable, encodableFields, henc]
  have hmx : (Value.obj r.members).exact = true := by
    cases hp : r.Params with
    | none => simp [Request.members, hp, paramsValue, Value.exact, exactFields, hint]
    | some xs =>
      simp only [hp, Option.getD_some] at hex
      simp [Request.members, hp, paramsValue, Value.exact, exactFields, hex, hint]
  have hmd : 0 + (Value.obj r.members).depth ≤ maxNestingDepth := by
    cases hp : r.Params with
    | none => simp [Request.members, hp, paramsValue, Value.depth, depthFields, maxNestingDepth]
    | some xs =>
      simp only [hp, Option.getD_some] at hdep
      simp only [Request.members, hp, paramsValue, Value.depth, depthFields]
      simp only [maxNestingDepth] at hdep ⊢
      omega
  have hp := parseJson_encode (Value.obj r.members) hme hmx
    (((Value.obj r.members).encode ++ ['\n']).length + 1) 0 ['\n']
    (by simp only [List.length_append, List.length_cons, List.length_nil]; omega) hmd rfl
  unfold parseText
  rw [hp]
  rfl

/-- The conversion `float64(n)` of an integer of magnitude below `2 ^ 53` is exact. -/
theorem ofInt_exact (n : Int) (h : n.natAbs < 2 ^ 53) :
    Float64.ofInt n = ⟨decide (n < 0), n.natAbs, 0⟩ := by
  unfold Float64.ofInt
  rw [round_exact _ _ h]

/-- The frame that `EncodeRequest` writes for a request whose parameters can all be
encoded. -/
theorem encodeRequest_eq (r : Request) (h : encodableList (r.Params.getD []) = true) :
    EncodeRequest r = .ok ((Value.obj r.members).encode ++ ['\n']) := by
  unfold EncodeRequest
  rw [marshalRequest_eq r h]

/-- Decoding the frame of a valid request yields the request with its parameters
normalised. -/
theorem decodeRequest_encode (errText : ErrorText) (r : Request) (hv : r.valid = true) :
    DecodeRequest errText ((Value.obj r.members).encode ++ ['\n']) = .ok r.normalize := by
  have hv0 := hv
  simp only [Request.valid, Bool.and_eq_true, decide_eq_true_eq] at hv
  obtain ⟨⟨⟨⟨henc, hsort⟩, hex⟩, -⟩, hint⟩ := hv
  unfold DecodeRequest unmarshalStruct
  rw [parseText_members r hv0]
  have hset := setFields_members r.ID r.Service r.Method (paramsValue r.Params).toJson
    r.TimeoutMS (r.Params.map normalizeList) hint (by
      cases hp : r.Params with
      | none => exact Or.inl ⟨rfl, rfl⟩
      | some xs =>
        simp only [hp, Option.getD_some] at henc hsort hex
        exact Or.inr ⟨toJsonList xs, normalizeList xs, rfl,
          toValues_toJsonList xs henc hex hsort, rfl⟩)
  simp only [Request.members, toJsonFields, Value.toJson]
  simp only [Value.toJson] at hset
  rw [hset]
  rfl

/-- C1: for every valid request (its parameters are nil, booleans, numbers of type
`int` and `float64`, strings, slices `[]interface{}` and maps `map[string]interface{}`
of such, or values that cannot be encoded, of which a valid request has none; every
`float64` among them is an integer of magnitude below `2 ^ 53`, and they are nested
less than 9999 deep) `EncodeRequest` succeeds and `DecodeRequest` of the bytes yields
the request with each parameter normalised: a value of static type `int` comes back as
the `float64` nearest to it, which has the same value when the magnitude is below
`2 ^ 53`, and every other value as itself. So a request without `int` values in its
parameters is decoded to itself. -/
theorem codec_round_trip (errText : ErrorText) (r : Request) (hv : r.valid = true) :
    ∃ data, EncodeRequest r = .ok data ∧ DecodeRequest errText data = .ok r.normalize ∧
      (genericList (r.Params.getD []) = true → DecodeRequest errText data = .ok r) ∧
      (∀ n : Int, n.natAbs < 2 ^ 53 →
        (Value.int n).normalize = .float64 ⟨decide (n < 0), n.natAbs, 0⟩) := by
  have hdec := decodeRequest_encode errText r hv
  simp only [Request.valid, Bool.and_eq_true, decide_eq_true_eq] at hv
  obtain ⟨⟨⟨⟨henc, hsort⟩, hex⟩, -⟩, hint⟩ := hv
  refine ⟨(Value.obj r.members).encode ++ ['\n'], encodeRequest_eq r henc, hdec, ?_, ?_⟩
  · intro hg
    rw [hdec]
    congr 1
    cases r with
    | mk a b c ps t =>
      cases ps with
      | none => rfl
      | some xs =>
        simp only [Request.normalize, Option.map_some']
        simp only [Option.getD_some] at hg
        rw [normalizeList_generic xs hg]
  · intro n hn
    simp only [Value.normalize, ofInt_exact n hn]

/-- Witness of C1: a request whose parameters are a number, a string with a line
break and an array. -/
theorem codec_round_trip_witness :
    ∃ data,
      EncodeRequest ⟨"a-1", "Echo", "Say", some [.float64 5, .str "x\ny", .arr [.null, .bool true]], 250⟩
        = .ok data ∧
      DecodeRequest ⟨fun _ => "", fun _ => ""⟩ data = .ok (Request.normalize
        ⟨"a-1", "Echo", "Say", some [.float64 5, .str "x\ny", .arr [.null, .bool true]], 250⟩) ∧
      (genericList ((some [Value.float64 5, .str "x\ny", .arr [.null, .bool true]]).getD []) = true →
        DecodeRequest ⟨fun _ => "", fun _ => ""⟩ data =
          .ok ⟨"a-1", "Echo", "Say", some [.float64 5, .str "x\ny", .arr [.null, .bool true]], 250⟩) ∧
      (∀ n : Int, n.natAbs < 2 ^ 53 →
        (Value.int n).normalize = .float64 ⟨decide (n < 0), n.natAbs, 0⟩) :=
  codec_round_trip ⟨fun _ => "", fun _ => ""⟩
    ⟨"a-1", "Echo", "Say", some [.float64 5, .str "x\ny", .arr [.null, .bool true]], 250⟩ rfl

/-- Counterexample to C1 as stated: the request of `client.Call("CalculatorService",
"Add", 5, 3)` is valid and is encoded, and decoding the bytes yields a request whose
parameters are the `float64` values 5 and 3, not the `int` values that were sent. An
`int` beyond `2 ^ 53` comes back as another number: 9007199254740993 as
9007199254740992. -/
theorem codec_round_trip_loses_int :
    addRequest.valid = true ∧
      EncodeRequest addRequest = .ok
        "\x7b\"id\":\"CalculatorService-Add-1\",\"service\":\"CalculatorService\",\"method\":\"Add\",\"params\":[5,3],\"timeout_ms\":5000\x7d\n".data ∧
      (∀ errText : ErrorText, DecodeRequest errText
        "\x7b\"id\":\"CalculatorService-Add-1\",\"service\":\"CalculatorService\",\"method\":\"Add\",\"params\":[5,3],\"timeout_ms\":5000\x7d\n".data
        = .ok ⟨"CalculatorService-Add-1", "CalculatorService", "Add",
            some [.float64 5, .float64 3], 5000⟩) ∧
      (⟨"CalculatorService-Add-1", "CalculatorService", "Add",
          some [.float64 5, .float64 3], 5000⟩ : Request) ≠ addRequest ∧
      EncodeRequest ⟨"1", "S", "M", some [.int 9007199254740993], 0⟩ = .ok
        "\x7b\"id\":\"1\",\"service\":\"S\",\"method\":\"M\",\"params\":[9007199254740993],\"timeout_ms\":0\x7d\n".data ∧
      (∀ errText : ErrorText, DecodeRequest errText
        "\x7b\"id\":\"1\",\"service\":\"S\",\"method\":\"M\",\"params\":[9007199254740993],\"timeout_ms\":0\x7d\n".data
        = .ok ⟨"1", "S", "M", some [.float64 9007199254740992], 0⟩) := by
  refine ⟨rfl, rfl, fun _ => rfl, ?_, rfl, fun _ => rfl⟩
  intro h
  simp [addRequest] at h

/-! ### Dispatch and connection handling -/

/-- C2 fails on the code: for the frame of a request that passes a string (or null)
to `Geo.Scale`, whose parameter is a `float64`, `invoke` panics in `reflect.Value.Call`;
the panic leaves `HandleConnection`, no response is written and the next request is
never read. -/
theorem invoke_panics_on_passed_through_argument :
    (∀ errText : ErrorText, DecodeRequest errText scaleLine =
        .ok ⟨"1", "Geo", "Scale", some [.str "abc"], 5000⟩) ∧
      demoServer.invoke "Geo" "Scale" [.str "abc"] =
        .panic "reflect: Call using string as type float64" ∧
      demoServer.invoke "Geo" "Scale" [.null] =
        .panic "reflect: Call using zero Value argument" ∧
      (∀ errText : ErrorText,
        demoServer.HandleConnection errText ⟨[scaleLine, addLine], fun _ => true⟩ =
          ([], .panicked "reflect: Call using string as type float64")) :=
  ⟨fun _ => rfl, rfl, rfl, fun _ => rfl⟩

/-- C3 fails on the code: after the read failure the table is empty and the client
is closed, but the pending call receives a nil pointer from its closed channel and
panics when it reads `resp.Error`; it does not return an error. -/
theorem pending_call_panics_on_read_error :
    waitingClient.handleReadError = (⟨[], true, [⟨[], 1, true⟩], false⟩, .ok ()) ∧
      waitingClient.awaitResponse 0 = none ∧
      waitingClient.handleReadError.1.awaitResponse 0 =
        some (.panic "invalid memory address or nil pointer dereference") :=
  ⟨rfl, rfl, rfl⟩

theorem encodeResponse_ok (resp : Response) (h : resp.Result.encodable = true) :
    ∃ frame, EncodeResponse resp = .ok frame := by
  unfold EncodeResponse marshalResponse
  rw [unsupportedType_none _ h]
  exact ⟨_, rfl⟩

theorem handleLoop_answers (s : Server) (errText : ErrorText) (writeOk : Nat → Bool)
    (hw : ∀ k, writeOk k = true) :
    ∀ (lines : List Bytes) (reqs : List Request) (k : Nat) (out : List Bytes),
      List.Forall₂ (fun line req => DecodeRequest errText line = .ok req) lines reqs →
      (∀ req ∈ reqs, s.answers req = true) →
      ∃ frames, s.handleLoop errText writeOk lines k out = (out ++ frames, .returned) ∧
        List.Forall₂ (fun req frame => EncodeResponse (s.respond req) = .ok frame)
          reqs frames := by
  intro lines
  induction lines with
  | nil =>
    intro reqs k out hdec _
    cases hdec
    exact ⟨[], by simp [Server.handleLoop], List.Forall₂.nil⟩
  | cons line rest ih =>
    intro reqs k out hdec hans
    cases hdec with
    | cons hline hrest =>
      rename_i req reqs1
      have hreq := hans req (List.mem_cons_self _ _)
      have hresp : ∃ frame, EncodeResponse (s.respond req) = .ok frame ∧
          ∀ k out, s.handleLoop errText writeOk (line :: rest) k out =
            s.handleLoop errText writeOk rest (k + 1) (out ++ [frame]) := by
        unfold Server.answers at hreq
        unfold Server.respond
        cases hinv : s.invoke req.Service req.Method (req.Params.getD []) with
        | ok v =>
          rw [hinv] at hreq
          obtain ⟨frame, hf⟩ := encodeResponse_ok (makeResponse req.ID (.ok v)) hreq
          refine ⟨frame, hf, fun k out => ?_⟩
          simp only [Server.handleLoop, hline, hinv, hf, hw, if_true]
        | error e =>
          obtain ⟨frame, hf⟩ := encodeResponse_ok (makeResponse req.ID (.error e)) rfl
          refine ⟨frame, hf, fun k out => ?_⟩
          simp only [Server.handleLoop, hline, hinv, hf, hw, if_true]
        | panic e =>
          rw [hinv] at hreq
          exact Bool.noConfusion hreq
      obtain ⟨frame, hf, hstep⟩ := hresp
      obtain ⟨frames, h1, h2⟩ := ih reqs1 (k + 1) (out ++ [frame]) hrest
        (fun r hr => hans r (List.mem_cons_of_mem _ hr))
      refine ⟨frame :: frames, ?_, List.Forall₂.cons hf h2⟩
      rw [hstep, h1]; simp

theorem respond_id (s : Server) (req : Request) : (s.respond req).ID = req.ID := by
  unfold Server.respond
  cases s.invoke req.Service req.Method (req.Params.getD []) <;> rfl

theorem respond_outcome (s : Server) (req : Request) :
    (∀ v, s.invoke req.Service req.Method (req.Params.getD []) = .ok v →
      (s.respond req).Result = v ∧ (s.respond req).Error = "") ∧
    (∀ e, s.invoke req.Service req.Method (req.Params.getD []) = .error e →
      (s.respond req).Result = .null ∧ (s.respond req).Error = e) := by
  unfold Server.respond
  constructor
  · intro v h; rw [h]; exact ⟨rfl, rfl⟩
  · intro e h; rw [h]; exact ⟨rfl, rfl⟩

/-- C4: when every line read decodes to a request, no dispatch panics, every result
can be encoded and every write succeeds, `HandleConnection` writes exactly one response
per request, in request order, and then returns. The i-th frame written is the encoding
of a response that carries the id of the i-th request and the outcome of its dispatch:
the result and an empty error message when `invoke` returns a result, no result and the
error message when `invoke` returns an error. -/
theorem handleConnection_in_order (s : Server) (errText : ErrorText) (conn : Conn)
    (reqs : List Request)
    (hdec : List.Forall₂ (fun line req => DecodeRequest errText line = .ok req) conn.lines reqs)
    (hwrite : ∀ k, conn.writeOk k = true) (hans : ∀ req ∈ reqs, s.answers req = true) :
    ∃ frames, s.HandleConnection errText conn = (frames, .returned) ∧
      List.Forall₂ (fun req frame => EncodeResponse (s.respond req) = .ok frame)
        reqs frames ∧
      ∀ req ∈ reqs, (s.respond req).ID = req.ID ∧
        (∀ v, s.invoke req.Service req.Method (req.Params.getD []) = .ok v →
          (s.respond req).Result = v ∧ (s.respond req).Error = "") ∧
        (∀ e, s.invoke req.Service req.Method (req.Params.getD []) = .error e →
          (s.respond req).Result = .null ∧ (s.respond req).Error = e) := by
  obtain ⟨frames, h1, h2⟩ :=
    handleLoop_answers s errText conn.writeOk hwrite conn.lines reqs 0 [] hdec hans
  exact ⟨frames, by simpa [Server.HandleConnection] using h1, h2,
    fun req _ => ⟨respond_id s req, respond_outcome s req⟩⟩

/-- Witness of C4: two requests for `CalculatorService.Add` on one connection; the
second writes its numbers with a fraction and an exponent. -/
theorem handleConnection_in_order_witness :
    ∃ frames,
      calculatorServer.HandleConnection ⟨fun _ => "", fun _ => ""⟩
          ⟨[addLine, addLineExp], fun _ => true⟩ = (frames, .returned) ∧
      List.Forall₂ (fun req frame => EncodeResponse (calculatorServer.respond req) = .ok frame)
        [⟨"2", "CalculatorService", "Add", some [.float64 5, .float64 3], 5000⟩,
          ⟨"3", "CalculatorService", "Add", some [.float64 5, .float64 3], 0⟩] frames ∧
      ∀ req ∈ ([⟨"2", "CalculatorService", "Add", some [.float64 5, .float64 3], 5000⟩,
          ⟨"3", "CalculatorService", "Add", some [.float64 5, .float64 3], 0⟩] :
          List Request), (calculatorServer.respond req).ID = req.ID ∧
        (∀ v, calculatorServer.invoke req.Service req.Method (req.Params.getD []) = .ok v →
          (calculatorServer.respond req).Result = v ∧ (calculatorServer.respond req).Error = "") ∧
        (∀ e, calculatorServer.invoke req.Service req.Method (req.Params.getD []) = .error e →
          (calculatorServer.respond req).Result = .null ∧
            (calculatorServer.respond req).Error = e) :=
  handleConnection_in_order calculatorServer ⟨fun _ => "", fun _ => ""⟩
    ⟨[addLine, addLineExp], fun _ => true⟩
    [⟨"2", "CalculatorService", "Add", some [.float64 5, .float64 3], 5000⟩,
      ⟨"3", "CalculatorService", "Add", some [.float64 5, .float64 3], 0⟩]
    (List.Forall₂.cons rfl (List.Forall₂.cons rfl List.Forall₂.nil))
    (fun _ => rfl)
    (fun req hreq => by
      simp only [List.mem_cons, List.mem_singleton, List.not_mem_nil, or_false] at hreq
      rcases hreq with h | h <;> subst h <;> rfl)

/-- Counterexample to C4 as stated: both lines are well-formed requests; the result
of the first cannot be encoded, so the handler logs that and goes on, and the only
response written carries the id of the second request; and when the write of the first
response fails the handler returns and the second request gets no response. -/
theorem handleConnection_skips_response :
    (∀ errText : ErrorText,
      DecodeRequest errText makeLine = .ok ⟨"1", "Geo", "Make", some [], 5000⟩) ∧
      (∀ errText : ErrorText, DecodeRequest errText addLine =
        .ok ⟨"2", "CalculatorService", "Add", some [.float64 5, .float64 3], 5000⟩) ∧
      (∀ errText : ErrorText,
        demoServer.HandleConnection errText ⟨[makeLine, addLine], fun _ => true⟩ =
          (["\x7b\"id\":\"2\",\"result\":8,\"error\":\"\"\x7d\n".data], .returned)) ∧
      (∀ errText : ErrorText,
        calculatorServer.HandleConnection errText ⟨[addLine, addLine], fun _ => false⟩ =
          ([], .returned)) :=
  ⟨fun _ => rfl, fun _ => rfl, fun _ => rfl, fun _ => rfl⟩

/-! ### Registration -/

theorem register_lookup (s : Server) (name : String) (service : Service) (k : String) :
    mapGet? (s.Register name service).1.services k =
      (mapGet? s.services k).orElse (fun _ => mapGet? [(name, service)] k) := by
  unfold Server.Register
  cases h : mapGet? s.services name with
  | some old =>
    simp only []
    by_cases hk : name = k
    · subst hk; simp [h]
    · cases hg : mapGet? s.services k <;> simp [mapGet?, hk]
  | none =>
    simp only [mapSet_absent _ _ h, mapGet?_append]

/-- C10: `Register` returns the error `service ... already registered` exactly when
the name is registered already, and then leaves the registry as it is; otherwise it
returns nil and appends the entry `name -> service`, every other name keeps its entry;
after any sequence of `Register` calls a name maps to the service it had before, or else
to the service of the first call in the sequence that names it. -/
theorem register_append_only (s : Server) (name : String) (service : Service) :
    ((s.Register name service).2 = .error ("service " ++ name ++ " already registered") ↔
        (mapGet? s.services name).isSome) ∧
      ((mapGet? s.services name).isSome → (s.Register name service).1 = s) ∧
      (mapGet? s.services name = none →
        (s.Register name service).2 = .ok () ∧
        (s.Register name service).1.services = s.services ++ [(name, service)] ∧
        mapGet? (s.Register name service).1.services name = some service) ∧
      (∀ k, k ≠ name →
        mapGet? (s.Register name service).1.services k = mapGet? s.services k) ∧
      (∀ (regs : List (String × Service)) (k : String),
        mapGet? (s.registerAll regs).services k =
          (mapGet? s.services k).orElse (fun _ => mapGet? regs k)) := by
  refine ⟨?_, ?_, ?_, ?_, ?_⟩
  · unfold Server.Register
    cases h : mapGet? s.services name <;> simp
  · unfold Server.Register
    cases h : mapGet? s.services name <;> simp
  · intro h
    refine ⟨by simp [Server.Register, h], by simp [Server.Register, h, mapSet_absent], ?_⟩
    rw [register_lookup, h]
    simp [mapGet?]
  · intro k hk
    rw [register_lookup]
    have : name ≠ k := fun e => hk e.symm
    cases hg : mapGet? s.services k <;> simp [mapGet?, this]
  · intro regs
    induction regs generalizing s with
    | nil => intro k; cases hg : mapGet? s.services k <;> simp [Server.registerAll, mapGet?, hg]
    | cons p rest ih =>
      obtain ⟨n, svc⟩ := p
      intro k
      simp only [Server.registerAll]
      rw [ih, register_lookup]
      cases hg : mapGet? s.services k with
      | some v => simp
      | none =>
        by_cases hk : n = k
        · simp [mapGet?, hk]
        · simp [mapGet?, hk]

end Rpc

namespace PubSub

open Rpc (Value Result mapGet? mapSet mapDelete)

theorem allSubs_append (m1 m2 : List (String × List Nat)) :
    allSubs (m1 ++ m2) = allSubs m1 ++ allSubs m2 := by
  induction m1 with
  | nil => rfl
  | cons p rest ih =>
    obtain ⟨k, l⟩ := p
    simp [allSubs, ih]

theorem mapGet?_some_split {β : Type} (m : List (String × β)) (k : String) (v : β)
    (h : mapGet? m k = some v) :
    ∃ pre post, m = pre ++ (k, v) :: post ∧ ∀ l, mapSet m k l = pre ++ (k, l) :: post := by
  induction m with
  | nil => simp [mapGet?] at h
  | cons p rest ih =>
    obtain ⟨k1, v1⟩ := p
    by_cases hk : k1 = k
    · subst hk
      simp [mapGet?] at h
      subst h
      exact ⟨[], rest, rfl, fun l => by simp [mapSet]⟩
    · simp [mapGet?, hk] at h
      obtain ⟨pre, post, h1, h2⟩ := ih h
      refine ⟨(k1, v1) :: pre, post, by simp [h1], fun l => ?_⟩
      simp [mapSet, hk, h2]

theorem subs_subset (b : Broker) (topic : String) (ch : Nat) (h : ch ∈ b.subs topic) :
    ch ∈ allSubs b.subscribers := by
  unfold Broker.subs at h
  cases hg : mapGet? b.subscribers topic with
  | none => simp [hg] at h
  | some l =>
    simp [hg] at h
    obtain ⟨pre, post, h1, -⟩ := mapGet?_some_split _ _ _ hg
    rw [h1, allSubs_append]
    simp [allSubs, h]

theorem set_same {α : Type} (l : List α) (i : Nat) (a : α) (h : l[i]? = some a) :
    l.set i a = l := by
  apply List.ext_getElem?
  intro j
  rw [List.getElem?_set]
  by_cases hij : i = j
  · subst hij
    have hlt : i < l.length := (List.getElem?_eq_some.mp h).1
    simp [hlt, h]
  · simp [hij]

theorem trySend_open (chans : List Chan) (ch : Nat) (msg : Message) (c : Chan)
    (h : chans[ch]? = some c) (hc : c.closed = false) :
    trySend chans ch msg = some (chans.set ch (deliver msg c)) := by
  unfold trySend deliver
  simp only [h, hc]
  by_cases hl : c.buf.length < c.cap
  · simp [hl]
  · simp only [hl, if_false, Bool.false_eq_true]
    congr 1
    exact (set_same _ _ _ h).symm

theorem sendAll_spec (msg : Message) (subs : List Nat) :
    ∀ chans : List Chan, subs.Nodup →
      (∀ ch ∈ subs, ∃ c : Chan, chans[ch]? = some c ∧ c.closed = false) →
      ∃ chans1, sendAll msg subs chans = (chans1, true) ∧
        ∀ ch, chans1[ch]? = if ch ∈ subs then (chans[ch]?).map (deliver msg) else chans[ch]? := by
  induction subs with
  | nil => intro chans _ _; exact ⟨chans, rfl, fun ch => by simp⟩
  | cons a rest ih =>
    intro chans hnd hopen
    obtain ⟨c, hc, hcl⟩ := hopen a (List.mem_cons_self _ _)
    rw [List.nodup_cons] at hnd
    have hlt : a < chans.length := (List.getElem?_eq_some.mp hc).1
    have hrest : ∀ ch ∈ rest, ∃ c1 : Chan, (chans.set a (deliver msg c))[ch]? = some c1 ∧
        c1.closed = false := by
      intro ch hch
      have hne : a ≠ ch := fun e => hnd.1 (e ▸ hch)
      rw [List.getElem?_set_ne hne]
      exact hopen ch (List.mem_cons_of_mem _ hch)
    obtain ⟨chans1, h1, h2⟩ := ih (chans.set a (deliver msg c)) hnd.2 hrest
    refine ⟨chans1, by simp [sendAll, trySend_open chans a msg c hc hcl, h1], fun ch => ?_⟩
    rw [h2 ch]
    by_cases hch : ch ∈ rest
    · have hne : a ≠ ch := fun e => hnd.1 (e ▸ hch)
      simp [hch, List.getElem?_set_ne hne]
    · by_cases hca : ch = a
      · subst hca
        simp [hnd.1, List.getElem?_set_self hlt, hc]
      · have hne : a ≠ ch := fun e => hca e.symm
        simp [hch, hca, List.getElem?_set_ne hne]

theorem chanClose_open (chans : List Chan) (ch : Nat) (c : Chan)
    (h : chans[ch]? = some c) (hc : c.closed = false) :
    chanClose chans ch = some (chans.set ch (shut c)) := by
  unfold chanClose shut
  simp [h, hc]

theorem closeList_spec (subs : List Nat) :
    ∀ chans : List Chan, subs.Nodup →
      (∀ ch ∈ subs, ∃ c : Chan, chans[ch]? = some c ∧ c.closed = false) →
      ∃ chans1, closeList subs chans = (chans1, true) ∧
        ∀ ch, chans1[ch]? = if ch ∈ subs then (chans[ch]?).map shut else chans[ch]? := by
  induction subs with
  | nil => intro chans _ _; exact ⟨chans, rfl, fun ch => by simp⟩
  | cons a rest ih =>
    intro chans hnd hopen
    obtain ⟨c, hc, hcl⟩ := hopen a (List.mem_cons_self _ _)
    rw [List.nodup_cons] at hnd
    have hlt : a < chans.length := (List.getElem?_eq_some.mp hc).1
    have hrest : ∀ ch ∈ rest, ∃ c1 : Chan, (chans.set a (shut c))[ch]? = some c1 ∧
        c1.closed = false := by
      intro ch hch
      have hne : a ≠ ch := fun e => hnd.1 (e ▸ hch)
      rw [List.getElem?_set_ne hne]
      exact hopen ch (List.mem_cons_of_mem _ hch)
    obtain ⟨chans1, h1, h2⟩ := ih (chans.set a (shut c)) hnd.2 hrest
    refine ⟨chans1, by simp [closeList, chanClose_open chans a c hc hcl, h1], fun ch => ?_⟩
    rw [h2 ch]
    by_cases hch : ch ∈ rest
    · have hne : a ≠ ch := fun e => hnd.1 (e ▸ hch)
      simp [hch, List.getElem?_set_ne hne]
    · by_cases hca : ch = a
      · subst hca
        simp [hnd.1, List.getElem?_set_self hlt, hc]
      · have hne : a ≠ ch := fun e => hca e.symm
        simp [hch, hca, List.getElem?_set_ne hne]

theorem closeTopics_spec (m : List (String × List Nat)) :
    ∀ chans : List Chan, (allSubs m).Nodup →
      (∀ ch ∈ allSubs m, ∃ c : Chan, chans[ch]? = some c ∧ c.closed = false) →
      ∃ chans1, closeTopics m chans = ([], chans1, true) ∧
        ∀ ch, chans1[ch]? = if ch ∈ allSubs m then (chans[ch]?).map shut else chans[ch]? := by
  induction m with
  | nil => intro chans _ _; exact ⟨chans, rfl, fun ch => by simp [allSubs]⟩
  | cons p rest ih =>
    obtain ⟨topic, subs⟩ := p
    intro chans hnd hopen
    simp only [allSubs] at hnd hopen
    rw [List.nodup_append] at hnd
    obtain ⟨hn1, hn2, hdis⟩ := hnd
    obtain ⟨chans1, h1, h2⟩ := closeList_spec subs chans hn1
      (fun ch hch => hopen ch (List.mem_append_left _ hch))
    have hrest : ∀ ch ∈ allSubs rest, ∃ c1 : Chan, chans1[ch]? = some c1 ∧ c1.closed = false := by
      intro ch hch
      have hns : ch ∉ subs := fun hs => hdis hs hch
      rw [h2 ch]
      simp only [hns, if_false]
      exact hopen ch (List.mem_append_right _ hch)
    obtain ⟨chans2, h3, h4⟩ := ih chans1 hn2 hrest
    refine ⟨chans2, by simp [closeTopics, h1, h3], fun ch => ?_⟩
    rw [h4 ch, h2 ch]
    by_cases hs : ch ∈ subs
    · have hnr : ch ∉ allSubs rest := fun hr => hdis hs hr
      simp [allSubs, hs, hnr]
    · by_cases hr : ch ∈ allSubs rest <;> simp [allSubs, hs, hr]

theorem allSubs_mapSet_append (m : List (String × List Nat)) (k : String) (ch : Nat) :
    (allSubs (mapSet m k ((mapGet? m k).getD [] ++ [ch]))).Perm (ch :: allSubs m) := by
  cases hg : mapGet? m k with
  | none =>
    rw [Rpc.mapSet_absent m k hg, allSubs_append]
    simp only [Option.getD_none, List.nil_append, allSubs, List.append_nil]
    exact List.perm_append_singleton _ _
  | some old =>
    obtain ⟨pre, post, h1, h2⟩ := mapGet?_some_split m k old hg
    rw [h2]
    conv_rhs => rw [h1]
    simp only [allSubs_append, allSubs, Option.getD_some, List.append_assoc]
    refine List.Perm.trans ?_ List.perm_middle
    exact List.Perm.append_left _ List.perm_middle

theorem allSubs_mapSet_erase (m : List (String × List Nat)) (k : String) (ch : Nat)
    (old : List Nat) (hg : mapGet? m k = some old) (hch : ch ∈ old) :
    (allSubs m).Perm (ch :: allSubs (mapSet m k (old.erase ch))) := by
  obtain ⟨pre, post, h1, h2⟩ := mapGet?_some_split m k old hg
  rw [h2]
  conv_lhs => rw [h1]
  simp only [allSubs_append, allSubs]
  refine List.Perm.trans ?_ List.perm_middle
  refine List.Perm.append_left _ ?_
  exact List.Perm.append_right _ (List.perm_cons_erase hch)

theorem subs_nodup (b : Broker) (topic : String) (h : (allSubs b.subscribers).Nodup) :
    (b.subs topic).Nodup := by
  unfold Broker.subs
  cases hg : mapGet? b.subscribers topic with
  | none => simp
  | some l =>
    obtain ⟨pre, post, h1, -⟩ := mapGet?_some_split _ _ _ hg
    rw [h1, allSubs_append] at h
    simp only [allSubs] at h
    simp only [Option.getD_some]
    exact (List.nodup_append.mp (List.nodup_append.mp h).2.1).1

theorem deliver_closed (msg : Message) (c : Chan) : (deliver msg c).closed = c.closed := by
  unfold deliver; split <;> rfl

theorem deliver_cap (msg : Message) (c : Chan) : (deliver msg c).cap = c.cap := by
  unfold deliver; split <;> rfl

theorem deliver_len (msg : Message) (c : Chan) (h : c.buf.length ≤ c.cap) :
    (deliver msg c).buf.length ≤ c.cap := by
  unfold deliver
  split
  · simp; omega
  · exact h

/-- A change of the queues that keeps every channel's capacity and closed flag and the
bound on its length keeps the invariant. -/
theorem Inv.update {b : Broker} (hI : Inv b) (chans1 : List Chan) (g : Nat → Chan → Chan)
    (hg : ∀ ch, chans1[ch]? = (b.chans[ch]?).map (g ch))
    (hclosed : ∀ ch c, (g ch c).closed = c.closed) (hcap : ∀ ch c, (g ch c).cap = c.cap)
    (hlen : ∀ ch c, c.buf.length ≤ c.cap → (g ch c).buf.length ≤ c.cap) :
    Inv { b with chans := chans1 } := by
  have key : ∀ ch c1, chans1[ch]? = some c1 → ∃ c, b.chans[ch]? = some c ∧ c1 = g ch c := by
    intro ch c1 h1
    rw [hg ch] at h1
    cases hb : b.chans[ch]? with
    | none => simp [hb] at h1
    | some c => simp [hb] at h1; exact ⟨c, rfl, h1.symm⟩
  refine ⟨hI.nodup, ?_, ?_, ?_, hI.closedEmpty, hI.closeChanEq⟩
  · intro ch hch
    obtain ⟨c, hc, hcl⟩ := hI.listedOpen ch hch
    exact ⟨g ch c, by simp [hg ch, hc], by rw [hclosed]; exact hcl⟩
  · intro ch c1 h1
    obtain ⟨c, hc, rfl⟩ := key ch c1 h1
    have hb := hI.bounded ch c hc
    refine ⟨by rw [hcap]; exact hb.1, ?_⟩
    have := hlen ch c (by omega)
    omega
  · intro ch c1 h1 hop
    obtain ⟨c, hc, rfl⟩ := key ch c1 h1
    rw [hclosed] at hop
    exact hI.openListed ch c hc hop

theorem Inv.init : Inv NewBroker := by
  refine ⟨by simp [NewBroker, allSubs], ?_, ?_, ?_, ?_, rfl⟩
  · intro ch hch; simp [NewBroker, allSubs] at hch
  · intro ch c h; simp [NewBroker] at h
  · intro ch c h; simp [NewBroker] at h
  · intro h; simp [NewBroker] at h

theorem Inv.listed_lt {b : Broker} (hI : Inv b) (ch : Nat) (h : ch ∈ allSubs b.subscribers) :
    ch < b.chans.length := by
  obtain ⟨c, hc, -⟩ := hI.listedOpen ch h
  exact (List.getElem?_eq_some.mp hc).1

theorem Inv.subscribe {b : Broker} (hI : Inv b) (topic : String) :
    Inv (b.Subscribe topic).1 := by
  unfold Broker.Subscribe
  cases hcl : b.closed with
  | true => simpa using hI
  | false =>
    simp only [if_false, Bool.false_eq_true]
    have hperm := allSubs_mapSet_append b.subscribers topic b.chans.length
    have hfresh : b.chans.length ∉ allSubs b.subscribers := fun h =>
      Nat.lt_irrefl _ (hI.listed_lt _ h)
    have hget : ∀ ch (c : Chan), (b.chans ++ [(⟨[], 100, false⟩ : Chan)])[ch]? = some c →
        (b.chans[ch]? = some c) ∨ (ch = b.chans.length ∧ c = ⟨[], 100, false⟩) := by
      intro ch c h
      rw [List.getElem?_append] at h
      by_cases hlt : ch < b.chans.length
      · rw [if_pos hlt] at h; exact Or.inl h
      · rw [if_neg hlt] at h
        have hlen := (List.getElem?_eq_some.mp h).1
        simp at hlen
        have : ch = b.chans.length := by omega
        subst this
        simp at h
        exact Or.inr ⟨rfl, h.symm⟩
    refine ⟨?_, ?_, ?_, ?_, ?_, hI.closeChanEq.trans hcl⟩
    · exact (List.Perm.nodup_iff hperm).mpr (List.nodup_cons.mpr ⟨hfresh, hI.nodup⟩)
    · intro ch hch
      have := (List.Perm.mem_iff hperm).mp hch
      rcases List.mem_cons.mp this with rfl | hold
      · exact ⟨⟨[], 100, false⟩, by simp, rfl⟩
      · obtain ⟨c, hc, hop⟩ := hI.listedOpen ch hold
        refine ⟨c, ?_, hop⟩
        show (b.chans ++ _)[ch]? = some c
        rw [List.getElem?_append_left (hI.listed_lt ch hold)]
        exact hc
    · intro ch c h
      rcases hget ch c h with h1 | ⟨-, rfl⟩
      · exact hI.bounded ch c h1
      · simp
    · intro ch c h hop
      apply (List.Perm.mem_iff hperm).mpr
      rcases hget ch c h with h1 | ⟨rfl, -⟩
      · exact List.mem_cons_of_mem _ (hI.openListed ch c h1 hop)
      · exact List.mem_cons_self _ _
    · intro h; simp at h

theorem publish_spec {b : Broker} (hI : Inv b) (hopen : b.closed = false) (topic : String)
    (payload : Value) (now : Nat) :
    ∃ chans1, b.Publish topic payload now = ({ b with chans := chans1 }, .ok ()) ∧
      ∀ ch, chans1[ch]? = if ch ∈ b.subs topic
        then (b.chans[ch]?).map (deliver ⟨topic, payload, now⟩) else b.chans[ch]? := by
  unfold Broker.Publish
  rw [if_neg (by simp [hopen])]
  by_cases hlen : (b.subs topic).length = 0
  · refine ⟨b.chans, by simp only [hlen, if_true], fun ch => ?_⟩
    have : b.subs topic = [] := List.length_eq_zero.mp hlen
    simp [this]
  · obtain ⟨chans1, h1, h2⟩ := sendAll_spec ⟨topic, payload, now⟩ (b.subs topic) b.chans
      (subs_nodup b topic hI.nodup)
      (fun ch hch => hI.listedOpen ch (subs_subset b topic ch hch))
    exact ⟨chans1, by simp [hlen, h1], h2⟩

theorem Inv.publish {b : Broker} (hI : Inv b) (topic : String) (payload : Value) (now : Nat) :
    Inv (b.Publish topic payload now).1 := by
  cases hcl : b.closed with
  | true => simpa [Broker.Publish, hcl] using hI
  | false =>
    obtain ⟨chans1, h1, h2⟩ := publish_spec hI hcl topic payload now
    rw [h1]
    refine hI.update chans1
      (fun ch => if ch ∈ b.subs topic then deliver ⟨topic, payload, now⟩ else id) ?_ ?_ ?_ ?_
    · intro ch
      rw [h2 ch]
      by_cases hch : ch ∈ b.subs topic <;> simp [hch]
    · intro ch c
      by_cases hch : ch ∈ b.subs topic <;> simp [hch, deliver_closed]
    · intro ch c
      by_cases hch : ch ∈ b.subs topic <;> simp [hch, deliver_cap]
    · intro ch c hc
      by_cases hch : ch ∈ b.subs topic
      · simpa [hch] using deliver_len _ c hc
      · simpa [hch] using hc

theorem subs_eq_of_get {b : Broker} {topic : String} {ch : Nat} (h : ch ∈ b.subs topic) :
    mapGet? b.subscribers topic = some (b.subs topic) := by
  unfold Broker.subs at h ⊢
  cases hg : mapGet? b.subscribers topic with
  | none => simp [hg] at h
  | some l => simp

theorem unsubscribe_spec {b : Broker} (hI : Inv b) (topic : String) (ch : Nat)
    (hmem : ch ∈ b.subs topic) :
    ∃ c : Chan, b.chans[ch]? = some c ∧ c.closed = false ∧
      b.Unsubscribe topic ch =
        ({ b with
            subscribers := mapSet b.subscribers topic ((b.subs topic).erase ch)
            chans := b.chans.set ch (shut c) }, .ok ()) := by
  obtain ⟨c, hc, hop⟩ := hI.listedOpen ch (subs_subset b topic ch hmem)
  refine ⟨c, hc, hop, ?_⟩
  unfold Broker.Unsubscribe
  simp only [hmem, if_true, List.eraseIdx_indexOf_eq_erase, chanClose_open b.chans ch c hc hop]

theorem unsubscribe_absent (b : Broker) (topic : String) (ch : Nat) (h : ch ∉ b.subs topic) :
    b.Unsubscribe topic ch = (b, .ok ()) := by
  unfold Broker.Unsubscribe
  simp [h]

theorem Inv.unsubscribe {b : Broker} (hI : Inv b) (topic : String) (ch : Nat) :
    Inv (b.Unsubscribe topic ch).1 := by
  by_cases hmem : ch ∈ b.subs topic
  · obtain ⟨c, hc, hop, heq⟩ := unsubscribe_spec hI topic ch hmem
    rw [heq]
    have hperm := allSubs_mapSet_erase b.subscribers topic ch (b.subs topic)
      (subs_eq_of_get hmem) hmem
    have hnd := (List.Perm.nodup_iff hperm).mp hI.nodup
    rw [List.nodup_cons] at hnd
    have hlt : ch < b.chans.length := (List.getElem?_eq_some.mp hc).1
    refine ⟨hnd.2, ?_, ?_, ?_, ?_, hI.closeChanEq⟩
    · intro x hx
      have hne : ch ≠ x := fun e => hnd.1 (e ▸ hx)
      have hold : x ∈ allSubs b.subscribers :=
        (List.Perm.mem_iff hperm).mpr (List.mem_cons_of_mem _ hx)
      obtain ⟨c1, hc1, hop1⟩ := hI.listedOpen x hold
      exact ⟨c1, by simp [List.getElem?_set_ne hne, hc1], hop1⟩
    · intro x c1 h1
      by_cases hx : ch = x
      · subst hx
        simp only [List.getElem?_set_self hlt, Option.some.injEq] at h1
        subst h1
        exact hI.bounded ch c hc
      · simp only [List.getElem?_set_ne hx] at h1
        exact hI.bounded x c1 h1
    · intro x c1 h1 hop1
      by_cases hx : ch = x
      · subst hx
        simp only [List.getElem?_set_self hlt, Option.some.injEq] at h1
        subst h1
        simp [shut] at hop1
      · simp only [List.getElem?_set_ne hx] at h1
        have hold := hI.openListed x c1 h1 hop1
        rcases List.mem_cons.mp ((List.Perm.mem_iff hperm).mp hold) with e | h2
        · exact absurd e.symm hx
        · exact h2
    · intro hclosed
      have hempty := hI.closedEmpty hclosed
      simp [Broker.subs, hempty, mapGet?] at hmem
  · rw [unsubscribe_absent b topic ch hmem]
    exact hI

theorem close_spec {b : Broker} (hI : Inv b) (hopen : b.closed = false) :
    ∃ chans1 : List Chan, b.Close =
        ({ b with closed := true, closeChan := true, subscribers := [], chans := chans1 },
          .ok ()) ∧
      ∀ ch : Nat, chans1[ch]? = (b.chans[ch]?).map shut := by
  obtain ⟨chans1, h1, h2⟩ := closeTopics_spec b.subscribers b.chans hI.nodup hI.listedOpen
  refine ⟨chans1, ?_, fun ch => ?_⟩
  · unfold Broker.Close
    have hcc : b.closeChan = false := hI.closeChanEq.trans hopen
    simp [hopen, hcc, h1]
  · rw [h2 ch]
    by_cases hch : ch ∈ allSubs b.subscribers
    · simp [hch]
    · simp only [hch, if_false]
      cases hc : b.chans[ch]? with
      | none => rfl
      | some c =>
        have hclosed : c.closed = true := by
          cases hcl : c.closed with
          | true => rfl
          | false => exact absurd (hI.openListed ch c hc hcl) hch
        simp only [Option.map_some', Option.some.injEq]
        cases c
        simp only [shut] at hclosed ⊢
        simp [hclosed]

theorem Inv.close {b : Broker} (hI : Inv b) : Inv b.Close.1 := by
  cases hcl : b.closed with
  | true => simpa [Broker.Close, hcl] using hI
  | false =>
    obtain ⟨chans1, h1, h2⟩ := close_spec hI hcl
    rw [h1]
    have key : ∀ (ch : Nat) (c1 : Chan), chans1[ch]? = some c1 →
        ∃ c, b.chans[ch]? = some c ∧ c1 = shut c := by
      intro ch c1 hc1
      rw [h2 ch] at hc1
      cases hb : b.chans[ch]? with
      | none => simp [hb] at hc1
      | some c => simp [hb] at hc1; exact ⟨c, rfl, hc1.symm⟩
    refine ⟨by simp [allSubs], ?_, ?_, ?_, fun _ => rfl, rfl⟩
    · intro ch hch; simp [allSubs] at hch
    · intro ch c1 hc1
      obtain ⟨c, hc, rfl⟩ := key ch c1 hc1
      exact hI.bounded ch c hc
    · intro ch c1 hc1 hop
      obtain ⟨c, hc, rfl⟩ := key ch c1 hc1
      simp [shut] at hop

theorem Inv.receive {b : Broker} (hI : Inv b) (ch : Nat) : Inv (b.Receive ch).1 := by
  unfold Broker.Receive
  cases hc : b.chans[ch]? with
  | none => exact hI
  | some c =>
    dsimp only
    cases hbuf : c.buf with
    | nil => exact hI
    | cons m rest =>
      dsimp only
      have hlt : ch < b.chans.length := (List.getElem?_eq_some.mp hc).1
      refine hI.update _ (fun x c1 => if x = ch then { c1 with buf := c1.buf.tail } else c1)
        ?_ ?_ ?_ ?_
      · intro x
        by_cases hx : x = ch
        · subst hx
          simp [List.getElem?_set_self hlt, hc, hbuf]
        · have hne : ch ≠ x := fun e => hx e.symm
          simp [List.getElem?_set_ne hne, hx]
      · intro x c1; by_cases hx : x = ch <;> simp [hx]
      · intro x c1; by_cases hx : x = ch <;> simp [hx]
      · intro x c1 hlen
        by_cases hx : x = ch
        · simp [hx]; omega
        · simpa [hx] using hlen

/-- Every reachable state satisfies the invariant. -/
theorem Reachable.inv {b : Broker} (h : Reachable b) : Inv b := by
  induction h with
  | init => exact Inv.init
  | subscribe topic _ ih => exact ih.subscribe topic
  | publish topic payload now _ ih => exact ih.publish topic payload now
  | unsubscribe topic ch _ ih => exact ih.unsubscribe topic ch
  | close _ ih => exact ih.close
  | receive ch _ ih => exact ih.receive ch

theorem mapGet?_mapSet_self {β : Type} (m : List (String × β)) (k : String) (v : β) :
    mapGet? (mapSet m k v) k = some v := by
  induction m with
  | nil => simp [mapSet, mapGet?]
  | cons p rest ih =>
    obtain ⟨k1, v1⟩ := p
    by_cases hk : k1 = k
    · simp [mapSet, mapGet?, hk]
    · simp [mapSet, mapGet?, hk, ih]

theorem queue_of_get {b : Broker} {ch : Nat} {c : Chan} (h : b.chans[ch]? = some c) :
    b.queue ch = c.buf := by
  simp [Broker.queue, h]

theorem publishAll_spec (topic : String) (ch : Nat) :
    ∀ (ps : List (Value × Nat)) (b : Broker), Inv b → b.closed = false → ch ∈ b.subs topic →
      (b.queue ch).length + ps.length ≤ 100 →
      ∃ b2, publishAll topic b ps = (b2, true) ∧
        b2.queue ch = b.queue ch ++ ps.map (fun p => ⟨topic, p.1, p.2⟩) ∧
        Inv b2 ∧ b2.closed = false ∧ ch ∈ b2.subs topic := by
  intro ps
  induction ps with
  | nil => intro b hI hop hmem _; exact ⟨b, rfl, by simp, hI, hop, hmem⟩
  | cons p rest ih =>
    obtain ⟨payload, now⟩ := p
    intro b hI hop hmem hlen
    obtain ⟨chans1, h1, h2⟩ := publish_spec hI hop topic payload now
    obtain ⟨c, hc, -⟩ := hI.listedOpen ch (subs_subset b topic ch hmem)
    have hcap := (hI.bounded ch c hc).1
    have hq : b.queue ch = c.buf := queue_of_get hc
    have hI1 : Inv { b with chans := chans1 } := by
      have := hI.publish topic payload now
      rw [h1] at this
      exact this
    have hc1 : chans1[ch]? = some { c with buf := c.buf ++ [⟨topic, payload, now⟩] } := by
      rw [h2 ch]
      simp only [hmem, if_true, hc, Option.map_some', deliver]
      rw [if_pos]
      rw [hq] at hlen
      simp at hlen
      omega
    have hq1 : Broker.queue { b with chans := chans1 } ch = b.queue ch ++ [⟨topic, payload, now⟩] := by
      rw [hq]
      exact @queue_of_get { b with chans := chans1 } ch _ hc1
    obtain ⟨b2, h3, h4, h5, h6, h7⟩ := ih { b with chans := chans1 } hI1 hop hmem (by
      rw [hq1]; simp at hlen ⊢; omega)
    refine ⟨b2, ?_, ?_, h5, h6, h7⟩
    · simp only [publishAll, h1, h3]
    · rw [h4, hq1]; simp

theorem closed_run {b : Broker} (hI : Inv b) (hcl : b.closed = true) (ops : List Op) :
    Inv (b.run ops) ∧ (b.run ops).closed = true ∧
      ∀ (ch : Nat) (c : Chan), b.chans[ch]? = some c →
        ∃ c2 : Chan, (b.run ops).chans[ch]? = some c2 ∧ c2.closed = c.closed ∧ c2.buf <:+ c.buf := by
  induction ops generalizing b with
  | nil => exact ⟨hI, hcl, fun ch c hc => ⟨c, hc, rfl, List.suffix_refl _⟩⟩
  | cons op rest ih =>
    have hempty : ∀ topic, b.subs topic = [] := by
      intro topic
      simp [Broker.subs, hI.closedEmpty hcl, mapGet?]
    have hstep : Inv (b.step op) ∧ (b.step op).closed = true ∧
        ∀ (ch : Nat) (c : Chan), b.chans[ch]? = some c →
          ∃ c2 : Chan, (b.step op).chans[ch]? = some c2 ∧ c2.closed = c.closed ∧
            c2.buf <:+ c.buf := by
      have same : ∀ (ch : Nat) (c : Chan), b.chans[ch]? = some c →
          ∃ c2 : Chan, b.chans[ch]? = some c2 ∧ c2.closed = c.closed ∧ c2.buf <:+ c.buf :=
        fun ch c hc => ⟨c, hc, rfl, List.suffix_refl _⟩
      cases op with
      | subscribe topic =>
        have : (b.Subscribe topic) = (b, .error "broker is closed") := by
          simp [Broker.Subscribe, hcl]
        simp only [Broker.step, this]
        exact ⟨hI, hcl, same⟩
      | publish topic payload now =>
        have : (b.Publish topic payload now) = (b, .error "broker is closed") := by
          simp [Broker.Publish, hcl]
        simp only [Broker.step, this]
        exact ⟨hI, hcl, same⟩
      | unsubscribe topic ch =>
        have : b.Unsubscribe topic ch = (b, .ok ()) :=
          unsubscribe_absent b topic ch (by simp [hempty topic])
        simp only [Broker.step, this]
        exact ⟨hI, hcl, same⟩
      | close =>
        have : b.Close = (b, .ok ()) := by simp [Broker.Close, hcl]
        simp only [Broker.step, this]
        exact ⟨hI, hcl, same⟩
      | receive x =>
        refine ⟨hI.receive x, ?_, ?_⟩
        · simp only [Broker.step, Broker.Receive]
          cases hx : b.chans[x]? with
          | none => exact hcl
          | some cx =>
            dsimp only
            cases hbuf : cx.buf with
            | nil => exact hcl
            | cons m r => exact hcl
        · intro ch c hc
          simp only [Broker.step, Broker.Receive]
          cases hx : b.chans[x]? with
          | none => exact same ch c hc
          | some cx =>
            dsimp only
            cases hbuf : cx.buf with
            | nil => exact same ch c hc
            | cons m r =>
              dsimp only
              have hlt : x < b.chans.length := (List.getElem?_eq_some.mp hx).1
              by_cases hxc : x = ch
              · subst hxc
                rw [hc] at hx
                cases hx
                refine ⟨_, List.getElem?_set_self hlt, rfl, ?_⟩
                rw [hbuf]
                exact List.suffix_cons m r
              · rw [List.getElem?_set_ne hxc]
                exact same ch c hc
    obtain ⟨hI1, hcl1, hch1⟩ := hstep
    obtain ⟨hI2, hcl2, hch2⟩ := ih hI1 hcl1
    refine ⟨hI2, hcl2, fun ch c hc => ?_⟩
    obtain ⟨c1, hc1, e1, s1⟩ := hch1 ch c hc
    obtain ⟨c2, hc2, e2, s2⟩ := hch2 ch c1 hc1
    exact ⟨c2, hc2, e2.trans e1, s2.trans s1⟩

theorem subscribe_spec (b : Broker) (hopen : b.closed = false) (topic : String) :
    ∃ b1, b.Subscribe topic = (b1, .ok b.chans.length) ∧ b.chans.length ∈ b1.subs topic ∧
      b1.queue b.chans.length = [] ∧ b1.closed = false := by
  refine ⟨{ b with
      chans := b.chans ++ [⟨[], 100, false⟩]
      subscribers := mapSet b.subscribers topic (b.subs topic ++ [b.chans.length])
      subCounter := b.subCounter + 1 }, ?_, ?_, ?_, hopen⟩
  · unfold Broker.Subscribe
    rw [if_neg (by simp [hopen])]
  · simp [Broker.subs, mapGet?_mapSet_self]
  · simp [Broker.queue]

/-- C5: on a reachable open broker, `Subscribe(topic)` followed by `N <= 100` calls of
`Publish(topic, p_i)` with nothing drained: every call returns nil and the new
subscriber's queue holds exactly the messages `p_1 .. p_N` in publish order; when the
queue holds 100 messages a further `Publish` returns nil and leaves the queue as it is. -/
theorem publish_slow_subscriber (b : Broker) (hb : Reachable b) (hopen : b.closed = false)
    (topic : String) (ps : List (Value × Nat)) (hN : ps.length ≤ 100) :
    ∃ b1 ch b2, b.Subscribe topic = (b1, .ok ch) ∧ b1.queue ch = [] ∧
      publishAll topic b1 ps = (b2, true) ∧
      b2.queue ch = ps.map (fun p => ⟨topic, p.1, p.2⟩) ∧
      (ps.length = 100 → ∀ payload now, ∃ b3,
        b2.Publish topic payload now = (b3, .ok ()) ∧ b3.queue ch = b2.queue ch) := by
  have hI := hb.inv
  obtain ⟨b1, hsub, hmem, hq0, hop1⟩ := subscribe_spec b hopen topic
  have hI1 : Inv b1 := by
    have := hI.subscribe topic
    rw [hsub] at this
    exact this
  obtain ⟨b2, h1, h2, hI2, hop2, hmem2⟩ :=
    publishAll_spec topic b.chans.length ps b1 hI1 hop1 hmem (by rw [hq0]; simpa using hN)
  refine ⟨b1, b.chans.length, b2, hsub, hq0, h1, by rw [h2, hq0]; simp, ?_⟩
  intro hfull payload now
  obtain ⟨chans3, h3, h4⟩ := publish_spec hI2 hop2 topic payload now
  refine ⟨_, h3, ?_⟩
  obtain ⟨c, hc, -⟩ := hI2.listedOpen _ (subs_subset b2 topic _ hmem2)
  have hcap := (hI2.bounded _ c hc).1
  have hlen : c.buf.length = 100 := by
    rw [← queue_of_get hc, h2, hq0]
    simpa using hfull
  have hc3 : chans3[b.chans.length]? = some c := by
    rw [h4]
    simp only [hmem2, if_true, hc, Option.map_some', deliver]
    rw [if_neg (by omega)]
  rw [@queue_of_get { b2 with chans := chans3 } _ _ hc3, queue_of_get hc]

/-- Witness of C5: a fresh broker, topic `t`, two payloads. -/
theorem publish_slow_subscriber_witness :
    ∃ b1 ch b2, NewBroker.Subscribe "t" = (b1, .ok ch) ∧ b1.queue ch = [] ∧
      publishAll "t" b1 [(.int 1, 10), (.str "x", 11)] = (b2, true) ∧
      b2.queue ch = [(.int 1, 10), (.str "x", 11)].map (fun p => ⟨"t", p.1, p.2⟩) ∧
      (([(.int 1, 10), (.str "x", 11)] : List (Value × Nat)).length = 100 →
        ∀ payload now, ∃ b3,
          b2.Publish "t" payload now = (b3, .ok ()) ∧ b3.queue ch = b2.queue ch) :=
  publish_slow_subscriber NewBroker Reachable.init rfl "t" [(.int 1, 10), (.str "x", 11)]
    (by decide)

/-- C6: on a reachable open broker `Publish` returns nil and changes nothing but
the queues of the topic's subscribers: every subscribed channel exists, is within its
capacity of 100, and gets the message appended when it holds fewer than 100 messages
and is left as it is when it holds 100; every other channel is left as it is. -/
theorem publish_fan_out (b : Broker) (hb : Reachable b) (hopen : b.closed = false)
    (topic : String) (payload : Value) (now : Nat) :
    ∃ chans1 : List Chan, b.Publish topic payload now = ({ b with chans := chans1 }, .ok ()) ∧
      (∀ ch ∈ b.subs topic, ∃ c : Chan, b.chans[ch]? = some c ∧ c.buf.length ≤ 100 ∧
        chans1[ch]? = some (if c.buf.length < 100
          then { c with buf := c.buf ++ [⟨topic, payload, now⟩] } else c)) ∧
      (∀ ch : Nat, ch ∉ b.subs topic → chans1[ch]? = b.chans[ch]?) := by
  have hI := hb.inv
  obtain ⟨chans1, h1, h2⟩ := publish_spec hI hopen topic payload now
  refine ⟨chans1, h1, ?_, ?_⟩
  · intro ch hch
    obtain ⟨c, hc, -⟩ := hI.listedOpen ch (subs_subset b topic ch hch)
    obtain ⟨hcap, hlen⟩ := hI.bounded ch c hc
    refine ⟨c, hc, hlen, ?_⟩
    rw [h2 ch]
    simp only [hch, if_true, hc, Option.map_some', deliver, hcap]
  · intro ch hch
    rw [h2 ch]
    simp only [hch, if_false]

/-- Witness of C6: two subscribers of topic `t`. -/
theorem publish_fan_out_witness :
    ∃ chans1 : List Chan,
      (NewBroker.run [.subscribe "t", .subscribe "t"]).Publish "t" (.str "x") 5 =
        ({ NewBroker.run [.subscribe "t", .subscribe "t"] with chans := chans1 }, .ok ()) ∧
      (∀ ch ∈ (NewBroker.run [.subscribe "t", .subscribe "t"]).subs "t", ∃ c : Chan,
        (NewBroker.run [.subscribe "t", .subscribe "t"]).chans[ch]? = some c ∧
        c.buf.length ≤ 100 ∧
        chans1[ch]? = some (if c.buf.length < 100
          then { c with buf := c.buf ++ [⟨"t", .str "x", 5⟩] } else c)) ∧
      (∀ ch : Nat, ch ∉ (NewBroker.run [.subscribe "t", .subscribe "t"]).subs "t" →
        chans1[ch]? = (NewBroker.run [.subscribe "t", .subscribe "t"]).chans[ch]?) :=
  publish_fan_out _ (Reachable.subscribe "t" (Reachable.subscribe "t" Reachable.init)) rfl
    "t" (.str "x") 5

theorem close_effect {b : Broker} (hI : Inv b) :
    b.Close.2 = .ok () ∧ b.Close.1.closed = true ∧
      ∀ (ch : Nat) (c : Chan), b.chans[ch]? = some c →
        b.Close.1.chans[ch]? = some (shut c) := by
  cases hcl : b.closed with
  | true =>
    have hsame : b.Close = (b, .ok ()) := by simp [Broker.Close, hcl]
    rw [hsame]
    refine ⟨rfl, hcl, fun ch c hc => ?_⟩
    have hclosed : c.closed = true := by
      cases hcc : c.closed with
      | true => rfl
      | false =>
        have := hI.openListed ch c hc hcc
        simp [hI.closedEmpty hcl, allSubs] at this
    rw [hc]
    cases c
    simp only [shut] at hclosed ⊢
    simp [hclosed]
  | false =>
    obtain ⟨chans1, h1, h2⟩ := close_spec hI hcl
    rw [h1]
    refine ⟨rfl, rfl, fun ch c hc => ?_⟩
    simp [h2 ch, hc]

/-- C7: `Close` on a reachable broker returns without a panic; after it, whatever
operations follow, the broker stays closed, `Subscribe` and `Publish` return the error
`broker is closed` and leave the state as it is, and every channel that existed before
`Close` is closed and holds a suffix of its former queue: nothing is added to it. -/
theorem close_terminal (b : Broker) (hb : Reachable b) (ops : List Op) :
    b.Close.2 = .ok () ∧ (b.Close.1.run ops).closed = true ∧
      (∀ topic, (b.Close.1.run ops).Subscribe topic =
        (b.Close.1.run ops, .error "broker is closed")) ∧
      (∀ topic payload now, (b.Close.1.run ops).Publish topic payload now =
        (b.Close.1.run ops, .error "broker is closed")) ∧
      (∀ (ch : Nat) (c : Chan), b.chans[ch]? = some c →
        ∃ c2 : Chan, (b.Close.1.run ops).chans[ch]? = some c2 ∧ c2.closed = true ∧
          c2.buf <:+ c.buf) := by
  have hI := hb.inv
  have hclose := close_effect hI
  obtain ⟨hok, hcl1, hch1⟩ := hclose
  obtain ⟨-, hcl2, hch2⟩ := closed_run hI.close hcl1 ops
  refine ⟨hok, hcl2, ?_, ?_, ?_⟩
  · intro topic
    simp [Broker.Subscribe, hcl2]
  · intro topic payload now
    simp [Broker.Publish, hcl2]
  · intro ch c hc
    obtain ⟨c2, hc2, e2, s2⟩ := hch2 ch (shut c) (hch1 ch c hc)
    exact ⟨c2, hc2, e2, s2⟩

/-- Witness of C7: a broker with one subscriber that holds one message. -/
theorem close_terminal_witness :
    (NewBroker.run [.subscribe "t", .publish "t" (.int 1) 3]).Close.2 = .ok () ∧
      ((NewBroker.run [.subscribe "t", .publish "t" (.int 1) 3]).Close.1.run
        [.publish "t" (.int 2) 4]).closed = true :=
  ⟨(close_terminal _ (Reachable.publish "t" (.int 1) 3 (Reachable.subscribe "t" Reachable.init))
      [.publish "t" (.int 2) 4]).1,
   (close_terminal _ (Reachable.publish "t" (.int 1) 3 (Reachable.subscribe "t" Reachable.init))
      [.publish "t" (.int 2) 4]).2.1⟩

/-- C8: on a reachable broker `Unsubscribe(topic, ch)` returns without a panic and a
second call leaves the state of the first; when `ch` is subscribed to the topic the
first call removes it from the topic's list and closes its channel, which was open;
after `Close`, `Unsubscribe` changes nothing. -/
theorem unsubscribe_idempotent (b : Broker) (hb : Reachable b) (topic : String) (ch : Nat) :
    ∃ b1, b.Unsubscribe topic ch = (b1, .ok ()) ∧ b1.Unsubscribe topic ch = (b1, .ok ()) ∧
      (ch ∈ b.subs topic →
        b1.subs topic = (b.subs topic).erase ch ∧ ch ∉ b1.subs topic ∧
        ∃ c : Chan, b.chans[ch]? = some c ∧ c.closed = false ∧
          b1.chans = b.chans.set ch { c with closed := true }) ∧
      (ch ∉ b.subs topic → b1 = b) ∧
      b.Close.1.Unsubscribe topic ch = (b.Close.1, .ok ()) := by
  have hI := hb.inv
  have hlast : b.Close.1.Unsubscribe topic ch = (b.Close.1, .ok ()) := by
    apply unsubscribe_absent
    have hcl : b.Close.1.closed = true := (close_effect hI).2.1
    simp [Broker.subs, hI.close.closedEmpty hcl, mapGet?]
  by_cases hmem : ch ∈ b.subs topic
  · obtain ⟨c, hc, hop, heq⟩ := unsubscribe_spec hI topic ch hmem
    have hsubs1 : Broker.subs { b with
        subscribers := mapSet b.subscribers topic ((b.subs topic).erase ch)
        chans := b.chans.set ch (shut c) } topic = (b.subs topic).erase ch := by
      simp [Broker.subs, mapGet?_mapSet_self]
    have hnot : ch ∉ (b.subs topic).erase ch := by
      intro h
      exact ((subs_nodup b topic hI.nodup).mem_erase_iff.mp h).1 rfl
    refine ⟨_, heq, ?_, ?_, ?_, hlast⟩
    · apply unsubscribe_absent
      rw [hsubs1]
      exact hnot
    · intro _
      exact ⟨hsubs1, by rw [hsubs1]; exact hnot, c, hc, hop, rfl⟩
    · intro h; exact absurd hmem h
  · refine ⟨b, unsubscribe_absent b topic ch hmem, unsubscribe_absent b topic ch hmem, ?_, ?_,
      hlast⟩
    · intro h; exact absurd h hmem
    · intro _; rfl

/-- Witness of C8: the second of two subscribers of topic `t` unsubscribes. -/
theorem unsubscribe_idempotent_witness :
    ∃ b1, (NewBroker.run [.subscribe "t", .subscribe "t"]).Unsubscribe "t" 1 = (b1, .ok ()) ∧
      b1.Unsubscribe "t" 1 = (b1, .ok ()) :=
  (unsubscribe_idempotent _ (Reachable.subscribe "t" (Reachable.subscribe "t" Reachable.init))
    "t" 1).imp (fun _ h => ⟨h.1, h.2.1⟩)

/-- C9: on an open broker, `Publish` to a topic without subscribers returns nil and
leaves the whole state as it is. -/
theorem publish_no_subscribers (b : Broker) (topic : String) (payload : Value) (now : Nat)
    (hopen : b.closed = false) (hnone : b.GetSubscriberCount topic = 0) :
    b.Publish topic payload now = (b, .ok ()) := by
  unfold Broker.GetSubscriberCount at hnone
  unfold Broker.Publish
  rw [if_neg (by simp [hopen])]
  simp only [hnone, if_true]

/-- Witness of C9: the topic `t` after its only subscriber has unsubscribed. -/
theorem publish_no_subscribers_witness :
    (NewBroker.run [.subscribe "t", .unsubscribe "t" 0]).closed = false ∧
      (NewBroker.run [.subscribe "t", .unsubscribe "t" 0]).GetSubscriberCount "t" = 0 ∧
      (NewBroker.run [.subscribe "t", .unsubscribe "t" 0]).Publish "t" (.str "x") 9 =
        (NewBroker.run [.subscribe "t", .unsubscribe "t" 0], .ok ()) :=
  ⟨rfl, rfl, publish_no_subscribers _ "t" (.str "x") 9 rfl rfl⟩

end PubSub

namespace Rpc

/-! ### Dispatch: validation and coercion -/

theorem mapGet?_trapped (m : List (String × Service)) (k : String) :
    mapGet? (m.map (fun p => (p.1, p.2.trapped))) k = (mapGet? m k).map Service.trapped := by
  induction m with
  | nil => rfl
  | cons p rest ih =>
    obtain ⟨k1, v1⟩ := p
    by_cases hk : k1 = k
    · simp [mapGet?, hk]
    · simp [mapGet?, hk, ih]

theorem find?_trapped (methods : List Method) (name : String) :
    (methods.map Method.trapped).find? (fun m => m.name = name) =
      (methods.find? (fun m => m.name = name)).map Method.trapped := by
  induction methods with
  | nil => rfl
  | cons m rest ih =>
    by_cases hm : m.name = name
    · simp [List.find?, hm, Method.trapped]
    · simp [List.find?, hm, Method.trapped, ih]

theorem methodByName_trapped (svc : Service) (name : String) (m : Option Method)
    (h : svc.MethodByName name = .ok m) :
    svc.trapped.MethodByName name = .ok (m.map Method.trapped) := by
  cases svc with
  | nil => simp [Service.MethodByName] at h
  | value methods =>
    simp only [Service.MethodByName, Result.ok.injEq] at h
    simp only [Service.trapped, Service.MethodByName, find?_trapped, h]

theorem methodByName_nil_or_ok (svc : Service) (name : String) :
    svc = .nil ∨ ∃ m, svc.MethodByName name = .ok m := by
  cases svc with
  | nil => exact Or.inl rfl
  | value methods => exact Or.inr ⟨_, rfl⟩

/-- C11: `invoke` fails with `service not found` when the service name is not
registered; otherwise, when the service registered under the name is not the nil
interface, with `method not found` when it has no method of that name; otherwise with
`wrong number of parameters` when the count of the parameters is not the count the
method declares; and each of these errors is returned as well when every method body is
replaced by a trap, so no method is invoked. `Sub` on the calculator service is a
method that is not found. A service is the nil interface or gives an answer to
`MethodByName`. -/
theorem invoke_validation_order (s : Server) (serviceName methodName : String)
    (params : List Value) :
    (mapGet? s.services serviceName = none →
        s.invoke serviceName methodName params =
          .error ("service not found: " ++ serviceName) ∧
        s.trapped.invoke serviceName methodName params =
          .error ("service not found: " ++ serviceName)) ∧
      (∀ service, mapGet? s.services serviceName = some service →
        service.MethodByName methodName = .ok none →
        s.invoke serviceName methodName params =
          .error ("method not found: " ++ serviceName ++ "." ++ methodName) ∧
        s.trapped.invoke serviceName methodName params =
          .error ("method not found: " ++ serviceName ++ "." ++ methodName)) ∧
      (∀ service method, mapGet? s.services serviceName = some service →
        service.MethodByName methodName = .ok (some method) →
        params.length ≠ method.ins.length →
        s.invoke serviceName methodName params =
          .error ("wrong number of parameters: expected " ++ toString method.ins.length
            ++ ", got " ++ toString params.length) ∧
        s.trapped.invoke serviceName methodName params =
          .error ("wrong number of parameters: expected " ++ toString method.ins.length
            ++ ", got " ++ toString params.length)) ∧
      (∀ service, mapGet? s.services serviceName = some service →
        service = .nil ∨ ∃ m, service.MethodByName methodName = .ok m) ∧
      calculatorServer.invoke "CalculatorService" "Sub" [.float64 5, .float64 3] =
        .error "method not found: CalculatorService.Sub" := by
  refine ⟨?_, ?_, ?_, fun service _ => methodByName_nil_or_ok service methodName, rfl⟩
  · intro h
    constructor
    · simp [Server.invoke, h]
    · simp [Server.invoke, Server.trapped, mapGet?_trapped, h]
  · intro service h1 h2
    constructor
    · simp [Server.invoke, h1, h2]
    · simp [Server.invoke, Server.trapped, mapGet?_trapped, h1,
        methodByName_trapped service methodName none h2]
  · intro service method h1 h2 h3
    constructor
    · simp [Server.invoke, h1, h2, h3]
    · simp [Server.invoke, Server.trapped, mapGet?_trapped, h1,
        methodByName_trapped service methodName (some method) h2, Method.trapped, h3]

/-- Witness of C11: a service that is not registered, on the calculator server and on
the same server with every method body trapped. -/
theorem invoke_validation_order_witness :
    calculatorServer.invoke "Calc" "Add" [.float64 5, .float64 3] =
        .error ("service not found: " ++ "Calc") ∧
      calculatorServer.trapped.invoke "Calc" "Add" [.float64 5, .float64 3] =
        .error ("service not found: " ++ "Calc") :=
  (invoke_validation_order calculatorServer "Calc" "Add" [.float64 5, .float64 3]).1 rfl

/-- Counterexample to C11 as stated: `Register` accepts the nil interface as a
service, and a request for any method of that service makes `invoke` panic in
`reflect.Value.MethodByName`; it does not fail with `method not found`, and the panic
leaves `HandleConnection`. -/
theorem invoke_panics_on_nil_service :
    NewServer.Register "S" .nil = (⟨[("S", .nil)]⟩, .ok ()) ∧
      (NewServer.Register "S" .nil).1.invoke "S" "M" [] =
        .panic "reflect: call of reflect.Value.MethodByName on zero Value" ∧
      (∀ errText : ErrorText, (NewServer.Register "S" .nil).1.HandleConnection errText
          ⟨["\x7b\"id\":\"1\",\"service\":\"S\",\"method\":\"M\",\"params\":[]\x7d\n".data, addLine],
            fun _ => true⟩ =
        ([], .panicked "reflect: call of reflect.Value.MethodByName on zero Value")) :=
  ⟨rfl, rfl, fun _ => rfl⟩

/-- C12 fails on the code, by the defect of C2: a boolean passed to `Geo.Scale`,
whose parameter is a `float64`, is not reported as a mismatch of parameter 0; it is
passed through and `reflect.Value.Call` panics. For an `int` parameter the mismatch is
reported with the index of the parameter. -/
theorem float_mismatch_not_reported :
    demoServer.invoke "Geo" "Scale" [.bool true] =
        .panic "reflect: Call using bool as type float64" ∧
      demoServer.invoke "Geo" "Scale" [.float64 4] = .ok (.float64 8) ∧
      calculatorServer.invoke "CalculatorService" "Add" [.float64 1, .str "x"] =
        .error "parameter 1: expected number, got string" ∧
      calculatorServer.trapped.invoke "CalculatorService" "Add" [.float64 1, .str "x"] =
        .error "parameter 1: expected number, got string" :=
  ⟨rfl, rfl, rfl, rfl⟩

theorem wrapInt_of_inRange (n : Int) (h : inIntRange n = true) : wrapInt n = n := by
  unfold inIntRange at h
  simp only [Bool.and_eq_true, decide_eq_true_eq] at h
  unfold wrapInt
  have h1 : (0 : Int) ≤ n + 2 ^ 63 := by omega
  have h2 : n + 2 ^ 63 < 2 ^ 64 := by omega
  rw [Int.emod_eq_of_lt h1 h2]
  omega

/-- The conversion `int(v)` of a `float64` that is an integer in the range of `int`. -/
theorem float64ToInt_int (n : Int) (h : inIntRange n = true) :
    float64ToInt ⟨decide (n < 0), n.natAbs, 0⟩ = n := by
  have ht : Float64.trunc ⟨decide (n < 0), n.natAbs, 0⟩ = n := by
    by_cases hn : n < 0
    · simp only [Float64.trunc, hn, decide_True, if_true, pow_zero, Nat.div_one]; omega
    · simp only [Float64.trunc, hn, decide_False, Bool.false_eq_true, if_false, pow_zero,
        Nat.div_one]; omega
  unfold float64ToInt
  rw [ht, if_pos h]

theorem inIntRange_of_small (n : Int) (h : n.natAbs < 2 ^ 53) : inIntRange n = true := by
  simp only [inIntRange, Bool.and_eq_true, decide_eq_true_eq]
  omega

/-- What `invoke` returns for `Add` on two numbers. -/
theorem invoke_add (s : Server) (name : String) (svc : Service) (x y : Float64)
    (hs : mapGet? s.services name = some svc)
    (hm : svc.MethodByName "Add" = .ok (some (intMethod "Add" (fun a b => wrapInt (a + b))))) :
    s.invoke name "Add" [.float64 x, .float64 y] =
      .ok (.int (wrapInt (float64ToInt x + float64ToInt y))) := by
  unfold Server.invoke
  rw [hs]
  simp only [hm]
  rfl

/-- C13: with a service registered whose `Add` method returns the sum of its two `int`
parameters, dispatching `Add` with two numbers as they come from the wire, that is with
the `float64` values nearest to the numbers written, returns `int(x) + int(y)` wrapped
to 64 bits, where `int` drops the fraction. For integers `a` and `b` of magnitude below
`2 ^ 53` written with their digits, the values are `a` and `b` themselves and the
result is `a + b`; so for the frame of the call `Add(a, b)` of a client the handler
writes the frame of the response with the id of the call and the result `a + b`. -/
theorem add_dispatch (s : Server) (name : String) (svc : Service)
    (hs : mapGet? s.services name = some svc)
    (hm : svc.MethodByName "Add" = .ok (some (intMethod "Add" (fun a b => wrapInt (a + b))))) :
    (∀ (la lb : NumLit) (x y : Float64), la.toFloat64 = some x → lb.toFloat64 = some y →
      toValues [.num la, .num lb] = some [.float64 x, .float64 y] ∧
      s.invoke name "Add" [.float64 x, .float64 y] =
        .ok (.int (wrapInt (float64ToInt x + float64ToInt y)))) ∧
    (∀ a b : Int, a.natAbs < 2 ^ 53 → b.natAbs < 2 ^ 53 →
      toValues [(Value.int a).toJson, (Value.int b).toJson] =
        some [.float64 (Float64.ofInt a), .float64 (Float64.ofInt b)] ∧
      s.invoke name "Add" [.float64 (Float64.ofInt a), .float64 (Float64.ofInt b)] =
        .ok (.int (a + b))) ∧
    (∀ (errText : ErrorText) (id : String) (a b timeout : Int), a.natAbs < 2 ^ 53 →
      b.natAbs < 2 ^ 53 → inIntRange timeout = true →
      ∃ data frame,
        EncodeRequest ⟨id, name, "Add", some [.int a, .int b], timeout⟩ = .ok data ∧
        EncodeResponse ⟨id, .int (a + b), ""⟩ = .ok frame ∧
        s.HandleConnection errText ⟨[data], fun _ => true⟩ = ([frame], .returned)) := by
  have hsum : ∀ a b : Int, a.natAbs < 2 ^ 53 → b.natAbs < 2 ^ 53 →
      s.invoke name "Add" [.float64 (Float64.ofInt a), .float64 (Float64.ofInt b)] =
        .ok (.int (a + b)) := by
    intro a b ha hb
    have ra := inIntRange_of_small a ha
    have rb := inIntRange_of_small b hb
    rw [invoke_add s name svc _ _ hs hm, ofInt_exact a ha, ofInt_exact b hb,
      float64ToInt_int a ra, float64ToInt_int b rb]
    rw [wrapInt_of_inRange]
    simp only [inIntRange, Bool.and_eq_true, decide_eq_true_eq]
    omega
  refine ⟨?_, ?_, ?_⟩
  · intro la lb x y hx hy
    refine ⟨?_, invoke_add s name svc x y hs hm⟩
    simp only [toValues, Json.toValue, hx, hy, Option.map_some']
  rotate_left
  · intro errText id a b timeout ha hb ht
    have ra := inIntRange_of_small a ha
    have rb := inIntRange_of_small b hb
    have hv : (⟨id, name, "Add", some [.int a, .int b], timeout⟩ : Request).valid = true := by
      simp only [Request.valid, Option.getD_some, encodableList, Value.encodable, sortedKeysList,
        Value.sortedKeys, exactList, Value.exact, ra, rb, ht, depthList, Value.depth,
        maxNestingDepth, Bool.and_self, Bool.and_true, Bool.true_and, decide_eq_true_eq]
      decide
    have henc := encodeRequest_eq ⟨id, name, "Add", some [.int a, .int b], timeout⟩ rfl
    have hdec := decodeRequest_encode errText _ hv
    obtain ⟨frame, hf⟩ := encodeResponse_ok ⟨id, .int (a + b), ""⟩ rfl
    refine ⟨_, frame, henc, hf, ?_⟩
    have hinv := hsum a b ha hb
    simp only [Server.HandleConnection, Server.handleLoop, hdec, Request.normalize,
      Option.map_some', normalizeList, Value.normalize, Option.getD_some, hinv, makeResponse, hf,
      if_true, List.nil_append]
  · intro a b ha hb
    have ra := inIntRange_of_small a ha
    have rb := inIntRange_of_small b hb
    constructor
    · simp only [toValues, Value.toJson, Json.toValue, toFloat64_int a ra, toFloat64_int b rb,
        Option.map_some']
    · exact hsum a b ha hb

/-- Witness of C13: the parameters 5 and 3 on the calculator service give 8. -/
theorem add_dispatch_witness :
    toValues [(Value.int 5).toJson, (Value.int 3).toJson] =
        some [.float64 (Float64.ofInt 5), .float64 (Float64.ofInt 3)] ∧
      calculatorServer.invoke "CalculatorService" "Add"
          [.float64 (Float64.ofInt 5), .float64 (Float64.ofInt 3)] = .ok (.int (5 + 3)) :=
  (add_dispatch calculatorServer "CalculatorService" CalculatorImpl rfl rfl).2.1 5 3
    (by decide) (by decide)

/-- Counterexample to C13 as stated: for `a = b = 2^62` the sum does not fit an `int`
and `Add` returns `-2^63`, not `a + b`; the number 9007199254740993 reaches `Add` as
9007199254740992; and 9223372036854775807 reaches `invoke` as the `float64` `2^63`,
which `int` turns into `-2^63`. -/
theorem add_dispatch_overflows :
    calculatorServer.invoke "CalculatorService" "Add"
        [.float64 4611686018427387904, .float64 4611686018427387904] =
        .ok (.int (-9223372036854775808)) ∧
      (4611686018427387904 + 4611686018427387904 : Int) ≠ -9223372036854775808 ∧
      (∀ errText : ErrorText, calculatorServer.HandleConnection errText
          ⟨["\x7b\"id\":\"1\",\"service\":\"CalculatorService\",\"method\":\"Add\",\"params\":[9007199254740993,0]\x7d\n".data,
            "\x7b\"id\":\"2\",\"service\":\"CalculatorService\",\"method\":\"Add\",\"params\":[9223372036854775807,0]\x7d\n".data],
            fun _ => true⟩ =
        (["\x7b\"id\":\"1\",\"result\":9007199254740992,\"error\":\"\"\x7d\n".data,
          "\x7b\"id\":\"2\",\"result\":-9223372036854775808,\"error\":\"\"\x7d\n".data],
          .returned)) :=
  ⟨rfl, by decide, fun _ => rfl⟩

/-- C14 fails on the code: in the state the reader loop leaves after a read failure
the client is marked closed although `conn.Close` was never called, so `Close` returns
nil at once and the connection stays open. From a state that is not marked closed,
`Close` does close the connection, and a second `Close` changes nothing. -/
theorem close_after_read_error_keeps_connection :
    waitingClient.handleReadError.1.connClosed = false ∧
      waitingClient.handleReadError.1.Close none = (waitingClient.handleReadError.1, .ok ()) ∧
      (waitingClient.handleReadError.1.Close none).1.connClosed = false ∧
      (waitingClient.Close none).1.connClosed = true ∧
      (waitingClient.Close none).1.Close none = ((waitingClient.Close none).1, .ok ()) :=
  ⟨rfl, rfl, rfl, rfl, rfl⟩

/-! ### The pending table of the client -/

theorem mapGet?_mapSet_other {β : Type} (m : List (String × β)) (k k1 : String) (v : β)
    (h : k1 ≠ k) : mapGet? (mapSet m k v) k1 = mapGet? m k1 := by
  induction m with
  | nil =>
    have : k ≠ k1 := fun e => h e.symm
    simp [mapSet, mapGet?, this]
  | cons p rest ih =>
    obtain ⟨k2, v2⟩ := p
    by_cases hk : k2 = k
    · subst hk
      have : k2 ≠ k1 := fun e => h e.symm
      simp [mapSet, mapGet?, this]
    · by_cases hk1 : k2 = k1
      · subst hk1
        simp [mapSet, mapGet?, h]
      · simp [mapSet, mapGet?, hk, hk1, ih]

theorem mapGet?_eq_none_of_not_mem {β : Type} (m : List (String × β)) (k : String)
    (h : k ∉ m.map Prod.fst) : mapGet? m k = none := by
  induction m with
  | nil => rfl
  | cons p rest ih =>
    obtain ⟨k1, v1⟩ := p
    simp only [List.map_cons, List.mem_cons, not_or] at h
    have : k1 ≠ k := fun e => h.1 e.symm
    simp [mapGet?, this, ih h.2]

theorem mapDelete_keys_subset {β : Type} (m : List (String × β)) (k k1 : String)
    (h : k1 ∈ (mapDelete m k).map Prod.fst) : k1 ∈ m.map Prod.fst := by
  induction m with
  | nil => simp [mapDelete] at h
  | cons p rest ih =>
    obtain ⟨k2, v2⟩ := p
    by_cases hk : k2 = k
    · simp only [mapDelete, hk, if_true] at h
      exact List.mem_cons_of_mem _ h
    · simp only [mapDelete, hk, if_false, List.map_cons, List.mem_cons] at h
      rcases h with h | h
      · simp [h]
      · exact List.mem_cons_of_mem _ (ih h)

theorem mapDelete_nodup {β : Type} (m : List (String × β)) (k : String)
    (h : (m.map Prod.fst).Nodup) : ((mapDelete m k).map Prod.fst).Nodup := by
  induction m with
  | nil => simp [mapDelete]
  | cons p rest ih =>
    obtain ⟨k1, v1⟩ := p
    simp only [List.map_cons, List.nodup_cons] at h
    by_cases hk : k1 = k
    · simp only [mapDelete, hk, if_true]
      exact h.2
    · simp only [mapDelete, hk, if_false, List.map_cons, List.nodup_cons]
      exact ⟨fun hmem => h.1 (mapDelete_keys_subset rest k k1 hmem), ih h.2⟩

theorem mapGet?_mapDelete_self {β : Type} (m : List (String × β)) (k : String)
    (h : (m.map Prod.fst).Nodup) : mapGet? (mapDelete m k) k = none := by
  induction m with
  | nil => rfl
  | cons p rest ih =>
    obtain ⟨k1, v1⟩ := p
    simp only [List.map_cons, List.nodup_cons] at h
    by_cases hk : k1 = k
    · subst hk
      simp only [mapDelete, if_true]
      exact mapGet?_eq_none_of_not_mem rest k1 h.1
    · simp [mapDelete, mapGet?, hk, ih h.2]

theorem mapGet?_mapDelete_other {β : Type} (m : List (String × β)) (k k1 : String)
    (h : k1 ≠ k) : mapGet? (mapDelete m k) k1 = mapGet? m k1 := by
  induction m with
  | nil => rfl
  | cons p rest ih =>
    obtain ⟨k2, v2⟩ := p
    by_cases hk : k2 = k
    · subst hk
      have : k2 ≠ k1 := fun e => h e.symm
      simp [mapDelete, mapGet?, this]
    · by_cases hk1 : k2 = k1
      · subst hk1
        simp [mapDelete, mapGet?, h]
      · simp [mapDelete, mapGet?, hk, hk1, ih]

theorem mapSet_keys {β : Type} (m : List (String × β)) (k k1 : String) (v : β)
    (h : k1 ∈ (mapSet m k v).map Prod.fst) : k1 = k ∨ k1 ∈ m.map Prod.fst := by
  induction m with
  | nil => simp [mapSet] at h; exact Or.inl h
  | cons p rest ih =>
    obtain ⟨k2, v2⟩ := p
    by_cases hk : k2 = k
    · simp only [mapSet, hk, if_true, List.map_cons, List.mem_cons] at h
      rcases h with h | h
      · exact Or.inl h
      · exact Or.inr (List.mem_cons_of_mem _ h)
    · simp only [mapSet, hk, if_false, List.map_cons, List.mem_cons] at h
      rcases h with h | h
      · exact Or.inr (by simp [h])
      · rcases ih h with h1 | h1
        · exact Or.inl h1
        · exact Or.inr (List.mem_cons_of_mem _ h1)

theorem mapSet_nodup {β : Type} (m : List (String × β)) (k : String) (v : β)
    (h : (m.map Prod.fst).Nodup) : ((mapSet m k v).map Prod.fst).Nodup := by
  induction m with
  | nil => simp [mapSet]
  | cons p rest ih =>
    obtain ⟨k1, v1⟩ := p
    simp only [List.map_cons, List.nodup_cons] at h
    by_cases hk : k1 = k
    · subst hk
      simp only [mapSet, if_true, List.map_cons, List.nodup_cons]
      exact h
    · simp only [mapSet, hk, if_false, List.map_cons, List.nodup_cons]
      refine ⟨fun hmem => ?_, ih h.2⟩
      rcases mapSet_keys rest k k1 v hmem with h1 | h1
      · exact hk h1
      · exact h.1 h1

theorem callReturn_cleanup (c : Client) (req : Request) (respChan : Nat) (ev : CallEvent)
    (c1 : Client) (r : Result Value) (h : c.callReturn req respChan ev = some (c1, r)) :
    c1.pending = mapDelete c.pending req.ID := by
  unfold Client.callReturn at h
  cases henc : EncodeRequest req with
  | error e => simp [henc, Client.callCleanup] at h; rw [← h.1]
  | panic e => simp [henc, Client.callCleanup] at h; rw [← h.1]
  | ok data =>
    simp only [henc] at h
    cases ev with
    | writeError e => simp [Client.callCleanup] at h; rw [← h.1]
    | timeout => simp [Client.callCleanup] at h; rw [← h.1]
    | received =>
      simp only at h
      cases hc : c.chans[respChan]? with
      | none => simp [hc] at h
      | some rc =>
        simp only [hc] at h
        cases hr : recvResp rc with
        | none => simp [hr] at h
        | some p =>
          obtain ⟨resp, rc1⟩ := p
          simp [hr, Client.callCleanup] at h
          rw [← h.1]

/-- C15: on every path on which `Call` returns after its registration, the id is no
longer a key of the pending table and every other entry is as before; with the timer
case the result is the error `request timeout`; a response that carries the id and is
decoded afterwards, while the id is not registered again, is discarded: no channel
receives it, nothing panics and the state is as before. -/
theorem call_cleanup (c : Client) (req : Request) (respChan : Nat) (ev : CallEvent)
    (c1 : Client) (r : Result Value) (hkeys : (c.pending.map Prod.fst).Nodup)
    (hret : c.callReturn req respChan ev = some (c1, r)) :
    mapGet? c1.pending req.ID = none ∧
      (∀ k, k ≠ req.ID → mapGet? c1.pending k = mapGet? c.pending k) ∧
      (ev = .timeout → (∃ data, EncodeRequest req = .ok data) →
        r = .error "request timeout") ∧
      (∀ resp : Response, resp.ID = req.ID → c1.route resp = (c1, .discarded)) ∧
      (∀ (c2 : Client) (resp : Response), mapGet? c2.pending resp.ID = none →
        c2.route resp = (c2, .discarded)) := by
  have hp := callReturn_cleanup c req respChan ev c1 r hret
  have hnone : mapGet? c1.pending req.ID = none := by
    rw [hp]; exact mapGet?_mapDelete_self _ _ hkeys
  have hroute : ∀ (c2 : Client) (resp : Response), mapGet? c2.pending resp.ID = none →
      c2.route resp = (c2, .discarded) := by
    intro c2 resp h
    simp [Client.route, h]
  refine ⟨hnone, ?_, ?_, ?_, hroute⟩
  · intro k hk
    rw [hp]; exact mapGet?_mapDelete_other _ _ _ hk
  · rintro rfl ⟨data, hd⟩
    simp [Client.callReturn, hd] at hret
    exact hret.2.symm
  · intro resp hid
    exact hroute c1 resp (by rw [hid]; exact hnone)

/-- Witness of C15: a call registered on a new client times out. -/
theorem call_cleanup_witness :
    mapGet? (Client.callCleanup (NewClient.callRegister "S" "M" 7).1 "S-M-7").pending
        (callRequest "S-M-7" "S" "M" none).ID = none ∧
      (∀ k, k ≠ (callRequest "S-M-7" "S" "M" none).ID →
        mapGet? (Client.callCleanup (NewClient.callRegister "S" "M" 7).1 "S-M-7").pending k =
          mapGet? (NewClient.callRegister "S" "M" 7).1.pending k) ∧
      (CallEvent.timeout = .timeout →
        (∃ data, EncodeRequest (callRequest "S-M-7" "S" "M" none) = .ok data) →
        (Result.error "request timeout" : Result Value) = .error "request timeout") ∧
      (∀ resp : Response, resp.ID = (callRequest "S-M-7" "S" "M" none).ID →
        (Client.callCleanup (NewClient.callRegister "S" "M" 7).1 "S-M-7").route resp =
          (Client.callCleanup (NewClient.callRegister "S" "M" 7).1 "S-M-7", .discarded)) ∧
      (∀ (c2 : Client) (resp : Response), mapGet? c2.pending resp.ID = none →
        c2.route resp = (c2, .discarded)) :=
  call_cleanup (NewClient.callRegister "S" "M" 7).1 (callRequest "S-M-7" "S" "M" none) 0
    .timeout _ _ (by decide) rfl

theorem toDigits_injective (a b : Nat) (h : Nat.toDigits 10 a = Nat.toDigits 10 b) : a = b := by
  have ha := parseDigits_toDigitsCore (a + 1) a [] [] (by omega)
  have hb := parseDigits_toDigitsCore (b + 1) b [] [] (by omega)
  unfold Nat.toDigits at h
  rw [h, hb] at ha
  simp only [List.append_nil, parseDigits] at ha
  exact (Prod.mk.inj ha).1.symm

theorem requestID_injective (service method : String) (a b : Nat)
    (h : requestID service method a = requestID service method b) : a = b := by
  unfold requestID at h
  have h1 : (toString a : String) = toString b := by
    have := congrArg String.data h
    simp only [String.data_append, List.append_cancel_left_eq] at this
    exact String.ext this
  apply toDigits_injective
  have h2 := congrArg String.data h1
  exact h2

/-- C16: `Call` on an open client generates the id `service-method-clock reading` and
stores a new channel under it: afterwards the table has no duplicate keys, it maps the
id to the new channel and every other id to what it mapped to before, and when the id
was not a key nothing is overwritten. For one service and method, ids generated at
different clock readings differ. -/
theorem request_id_registered (c : Client) (service method : String) (now : Nat)
    (hopen : c.closed = false) (hkeys : (c.pending.map Prod.fst).Nodup) :
    ∃ c1, c.callRegister service method now =
        (c1, .ok (requestID service method now, c.chans.length)) ∧
      (c1.pending.map Prod.fst).Nodup ∧
      mapGet? c1.pending (requestID service method now) = some c.chans.length ∧
      (∀ k, k ≠ requestID service method now → mapGet? c1.pending k = mapGet? c.pending k) ∧
      (mapGet? c.pending (requestID service method now) = none →
        c1.pending = c.pending ++ [(requestID service method now, c.chans.length)]) ∧
      (∀ now2, now2 ≠ now →
        requestID service method now2 ≠ requestID service method now) := by
  refine ⟨{ c with
      chans := c.chans ++ [⟨[], 1, false⟩]
      pending := mapSet c.pending (requestID service method now) c.chans.length }, ?_, ?_, ?_,
    ?_, ?_, ?_⟩
  · unfold Client.callRegister
    rw [if_neg (by simp [hopen])]
  · exact mapSet_nodup _ _ _ hkeys
  · exact PubSub.mapGet?_mapSet_self _ _ _
  · intro k hk
    exact mapGet?_mapSet_other _ _ _ _ hk
  · intro h
    exact mapSet_absent _ _ h _
  · intro now2 hne e
    exact hne (requestID_injective service method now2 now e)

/-- Witness of C16: the first call on a new client. -/
theorem request_id_registered_witness :
    ∃ c1, NewClient.callRegister "S" "M" 7 = (c1, .ok (requestID "S" "M" 7, NewClient.chans.length)) ∧
      (c1.pending.map Prod.fst).Nodup ∧
      mapGet? c1.pending (requestID "S" "M" 7) = some NewClient.chans.length ∧
      (∀ k, k ≠ requestID "S" "M" 7 → mapGet? c1.pending k = mapGet? NewClient.pending k) ∧
      (mapGet? NewClient.pending (requestID "S" "M" 7) = none →
        c1.pending = NewClient.pending ++ [(requestID "S" "M" 7, NewClient.chans.length)]) ∧
      (∀ now2, now2 ≠ 7 → requestID "S" "M" now2 ≠ requestID "S" "M" 7) :=
  request_id_registered NewClient "S" "M" 7 rfl (by decide)

/-- Counterexample to C16 as stated: two calls of the same service and method at the
same clock reading get the same id; the id of the second call is already a key of the
pending table and its registration replaces the channel of the first call, which is
still waiting. Two different pairs of service and method can collide as well. -/
theorem request_id_collides :
    (NewClient.callRegister "S" "M" 7).2 = .ok ("S-M-7", 0) ∧
      mapGet? (NewClient.callRegister "S" "M" 7).1.pending (requestID "S" "M" 7) = some 0 ∧
      ((NewClient.callRegister "S" "M" 7).1.callRegister "S" "M" 7).2 = .ok ("S-M-7", 1) ∧
      ((NewClient.callRegister "S" "M" 7).1.callRegister "S" "M" 7).1.pending =
        [("S-M-7", 1)] ∧
      requestID "a-b" "c" 7 = requestID "a" "b-c" 7 :=
  ⟨rfl, rfl, rfl, rfl, rfl⟩

/-- C17: the reader loop looks the response up by its id. When no call is registered
under the id the response is discarded and the state is as before. When a call is
registered under it and its channel is open, the response is appended to that channel
if it has room, and else the send waits on that channel; the pending table and every
other channel are as before, and a call waiting on the empty channel receives this
response. A call that receives a response returns its result when the error message is
empty and otherwise an error that wraps the message. -/
theorem route_by_id (c : Client) (resp : Response) :
    (mapGet? c.pending resp.ID = none → c.route resp = (c, .discarded)) ∧
      (∀ (respChan : Nat) (rc : RespChan), mapGet? c.pending resp.ID = some respChan →
        c.chans[respChan]? = some rc → rc.closed = false →
        (rc.buf.length < rc.cap →
          c.route resp =
            ({ c with chans := c.chans.set respChan { rc with buf := rc.buf ++ [resp] } },
              .delivered respChan)) ∧
        (¬ rc.buf.length < rc.cap → c.route resp = (c, .blocked respChan)) ∧
        (c.route resp).1.pending = c.pending ∧
        (∀ other : Nat, other ≠ respChan → (c.route resp).1.chans[other]? = c.chans[other]?) ∧
        (rc.buf = [] → 0 < rc.cap →
          (c.route resp).1.awaitResponse respChan = some (Call.onReceive (some resp)))) ∧
      (∀ r : Response, Call.onReceive (some r) =
        if r.Error = "" then .ok r.Result else .error ("remote error: " ++ r.Error)) := by
  refine ⟨fun h => by simp [Client.route, h], ?_, ?_⟩
  · intro respChan rc hp hc hopen
    have hlt : respChan < c.chans.length := (List.getElem?_eq_some.mp hc).1
    by_cases hroom : rc.buf.length < rc.cap
    · have hr : c.route resp =
          ({ c with chans := c.chans.set respChan { rc with buf := rc.buf ++ [resp] } },
            .delivered respChan) := by
        simp [Client.route, hp, hc, hopen, hroom]
      refine ⟨fun _ => hr, fun h => absurd hroom h, by rw [hr], ?_, ?_⟩
      · intro other hne
        rw [hr]
        exact List.getElem?_set_ne (fun e => hne e.symm)
      · intro hempty _
        rw [hr]
        simp [Client.awaitResponse, List.getElem?_set_self hlt, recvResp, hempty]
    · have hr : c.route resp = (c, .blocked respChan) := by
        simp [Client.route, hp, hc, hopen, hroom]
      refine ⟨fun h => absurd h hroom, fun _ => hr, by rw [hr], ?_, ?_⟩
      · intro other _
        rw [hr]
      · intro hempty hcap
        rw [hempty] at hroom
        exact absurd hcap hroom
  · intro r
    by_cases he : r.Error = ""
    · simp [Call.onReceive, he]
    · simp [Call.onReceive, he]

/-- Witness of C17: the response to the one pending call of a client is put on the
channel of that call. -/
theorem route_by_id_witness :
    (([] : List Response).length < 1 →
      waitingClient.route ⟨"CalculatorService-Add-1", .float64 8, ""⟩ =
        ({ waitingClient with
            chans := waitingClient.chans.set 0
              { (⟨[], 1, false⟩ : RespChan) with
                buf := [] ++ [⟨"CalculatorService-Add-1", .float64 8, ""⟩] } },
          .delivered 0)) :=
  ((route_by_id waitingClient ⟨"CalculatorService-Add-1", .float64 8, ""⟩).2.1
    0 ⟨[], 1, false⟩ rfl rfl rfl).1


/-! ### The parser accepts texts of the grammar only -/

theorem skipWs_split (s : List Char) : ∃ w, s = w ++ skipWs s ∧ IsWs w := by
  induction s with
  | nil => exact ⟨[], rfl, fun c hc => by simp at hc⟩
  | cons c cs ih =>
    by_cases hc : isWs c = true
    · obtain ⟨w, e, hw⟩ := ih
      refine ⟨c :: w, ?_, ?_⟩
      · simp only [skipWs, hc, if_true, List.cons_append]
        rw [← e]
      · intro d hd
        simp only [List.mem_cons] at hd
        rcases hd with rfl | hd
        · exact hc
        · exact hw d hd
    · refine ⟨[], ?_, fun c hc => by simp at hc⟩
      simp [skipWs, hc]

theorem IsWs.nil : IsWs [] := fun c hc => by simp at hc

theorem parseDigits_sound : ∀ (s : List Char) (acc : Nat),
    ∃ ds, s = ds ++ (parseDigits s acc).2 ∧ (∀ c ∈ ds, isDigit c = true) ∧
      (parseDigits s acc).1 = digitsFrom acc ds
  | [], acc => ⟨[], rfl, fun c hc => by simp at hc, rfl⟩
  | c :: cs, acc => by
    by_cases hc : isDigit c = true
    · obtain ⟨ds, e, hd, hv⟩ := parseDigits_sound cs (acc * 10 + (c.toNat - 48))
      refine ⟨c :: ds, ?_, ?_, ?_⟩
      · simp only [parseDigits, hc, if_true, List.cons_append]
        rw [← e]
      · intro d hd1
        simp only [List.mem_cons] at hd1
        rcases hd1 with rfl | hd1
        · exact hc
        · exact hd d hd1
      · simp only [parseDigits, hc, if_true, hv, digitsFrom, List.foldl_cons]
    · exact ⟨[], by simp [parseDigits, hc], fun c hc => by simp at hc,
        by simp [parseDigits, hc, digitsFrom]⟩

theorem parseDigitsCount_sound : ∀ (s : List Char) (acc k : Nat),
    ∃ ds, s = ds ++ (parseDigitsCount s acc k).2.2 ∧ (∀ c ∈ ds, isDigit c = true) ∧
      (parseDigitsCount s acc k).1 = digitsFrom acc ds ∧
      (parseDigitsCount s acc k).2.1 = k + ds.length
  | [], acc, k => ⟨[], rfl, fun c hc => by simp at hc, rfl, rfl⟩
  | c :: cs, acc, k => by
    by_cases hc : isDigit c = true
    · obtain ⟨ds, e, hd, hv, hk⟩ := parseDigitsCount_sound cs (acc * 10 + (c.toNat - 48)) (k + 1)
      refine ⟨c :: ds, ?_, ?_, ?_, ?_⟩
      · simp only [parseDigitsCount, hc, if_true, List.cons_append]
        rw [← e]
      · intro d hd1
        simp only [List.mem_cons] at hd1
        rcases hd1 with rfl | hd1
        · exact hc
        · exact hd d hd1
      · simp only [parseDigitsCount, hc, if_true, hv, digitsFrom, List.foldl_cons]
      · simp only [parseDigitsCount, hc, if_true, hk, List.length_cons]
        omega
    · exact ⟨[], by simp [parseDigitsCount, hc], fun c hc => by simp at hc,
        by simp [parseDigitsCount, hc, digitsFrom], by simp [parseDigitsCount, hc]⟩

theorem parseIntPart_sound (s : List Char) (i : Nat) (r : List Char)
    (h : parseIntPart s = some (i, r)) :
    ∃ ip, s = ip ++ r ∧ IsDigits ip ∧ (ip = ['0'] ∨ ip.head? ≠ some '0') ∧
      i = digitsValue ip := by
  cases s with
  | nil => simp [parseIntPart] at h
  | cons c cs =>
    by_cases h0 : c = '0'
    · subst h0
      simp only [parseIntPart, if_true, Option.some.injEq, Prod.mk.injEq] at h
      obtain ⟨rfl, rfl⟩ := h
      refine ⟨['0'], rfl, ⟨by simp, ?_⟩, Or.inl rfl, rfl⟩
      intro d hd
      simp only [List.mem_singleton] at hd
      subst hd
      rfl
    · by_cases hc : isDigit c = true
      · simp only [parseIntPart, h0, if_false, hc, if_true, Option.some.injEq] at h
        obtain ⟨ds, e, hd, hv⟩ := parseDigits_sound (c :: cs) 0
        rw [h] at e hv
        simp only at e hv
        have hne : ds ≠ [] := by
          intro e0
          subst e0
          simp only [List.nil_append] at e
          have := congrArg Prod.snd h
          simp only [parseDigits, hc, if_true] at this
          obtain ⟨ds2, e2, -, -⟩ := parseDigits_sound cs (0 * 10 + (c.toNat - 48))
          rw [this] at e2
          have hl := congrArg List.length e2
          have hl2 := congrArg List.length e
          simp only [List.length_append, List.length_cons] at hl hl2
          omega
        refine ⟨ds, e, ⟨hne, hd⟩, Or.inr ?_, hv⟩
        cases ds with
        | nil => exact absurd rfl hne
        | cons d ds1 =>
          simp only [List.cons_append, List.cons.injEq] at e
          simp only [List.head?_cons, ne_eq, Option.some.injEq]
          rw [← e.1]
          exact h0
      · simp [parseIntPart, h0, hc] at h

theorem parseFraction_sound (acc : Nat) (s : List Char) (v k : Nat) (r : List Char)
    (h : parseFraction acc s = some (v, k, r)) :
    ∃ fp ft, s = ft ++ r ∧ FracText fp ft ∧ v = digitsFrom acc fp ∧ k = fp.length := by
  cases s with
  | nil =>
    simp only [parseFraction, Option.some.injEq, Prod.mk.injEq] at h
    obtain ⟨rfl, rfl, rfl⟩ := h
    exact ⟨[], [], rfl, FracText.absent, rfl, rfl⟩
  | cons c cs =>
    by_cases hc : c = '.'
    · subst hc
      cases cs with
      | nil => simp [parseFraction] at h
      | cons d ds =>
        by_cases hd : isDigit d = true
        · simp only [parseFraction, if_true, hd, Option.some.injEq] at h
          obtain ⟨fp, e, hfd, hv, hk⟩ := parseDigitsCount_sound (d :: ds) acc 0
          rw [h] at e hv hk
          simp only at e hv hk
          have hne : fp ≠ [] := by
            intro e0
            subst e0
            simp only [List.length_nil, add_zero] at hk
            have := congrArg (fun p => p.2.1) h
            simp only [parseDigitsCount, hd, if_true] at this
            obtain ⟨ds2, -, -, -, hk2⟩ :=
              parseDigitsCount_sound ds (acc * 10 + (d.toNat - 48)) (0 + 1)
            rw [this] at hk2
            omega
          refine ⟨fp, '.' :: fp, ?_, FracText.present fp ⟨hne, hfd⟩, hv, by omega⟩
          simp only [List.cons_append]
          rw [← e]
        · simp [parseFraction, hd] at h
    · simp only [parseFraction, hc, if_false, Option.some.injEq, Prod.mk.injEq] at h
      obtain ⟨rfl, rfl, rfl⟩ := h
      exact ⟨[], [], rfl, FracText.absent, rfl, rfl⟩

theorem parseExpDigits_sound (neg : Bool) (s : List Char) (x : Int) (r : List Char)
    (h : parseExpDigits neg s = some (x, r)) :
    ∃ ds, s = ds ++ r ∧ IsDigits ds ∧
      x = if neg then -(digitsValue ds : Int) else (digitsValue ds : Int) := by
  cases s with
  | nil => simp [parseExpDigits] at h
  | cons d ds =>
    by_cases hd : isDigit d = true
    · simp only [parseExpDigits, hd, if_true, Option.some.injEq, Prod.mk.injEq] at h
      obtain ⟨hx, hr⟩ := h
      obtain ⟨es, e, hed, hv⟩ := parseDigits_sound (d :: ds) 0
      rw [hr] at e
      have hne : es ≠ [] := by
        intro e0
        subst e0
        simp only [List.nil_append] at e
        have hr2 := hr
        simp only [parseDigits, hd, if_true] at hr2
        obtain ⟨ds2, e2, -, -⟩ := parseDigits_sound ds (0 * 10 + (d.toNat - 48))
        rw [hr2] at e2
        have hl := congrArg List.length e2
        have hl2 := congrArg List.length e
        simp only [List.length_append, List.length_cons] at hl hl2
        omega
      refine ⟨es, e, ⟨hne, hed⟩, ?_⟩
      rw [← hx, hv]
      rfl
    · simp [parseExpDigits, hd] at h

theorem parseExponent_sound (s : List Char) (x : Option Int) (r : List Char)
    (h : parseExponent s = some (x, r)) : ∃ et, s = et ++ r ∧ ExpText x et := by
  cases s with
  | nil =>
    simp only [parseExponent, Option.some.injEq, Prod.mk.injEq] at h
    obtain ⟨rfl, rfl⟩ := h
    exact ⟨[], rfl, ExpText.absent⟩
  | cons c cs =>
    by_cases hc : c = 'e' ∨ c = 'E'
    · cases cs with
      | nil => simp [parseExponent, hc] at h
      | cons d ds =>
        simp only [parseExponent, hc, if_true] at h
        by_cases hp : d = '+'
        · subst hp
          simp only [if_true, Option.map_eq_some', Prod.mk.injEq, Prod.exists] at h
          obtain ⟨v, r1, hpe, rfl, rfl⟩ := h
          obtain ⟨es, e, hes, hv⟩ := parseExpDigits_sound false ds v r1 hpe
          subst e
          simp only [Bool.false_eq_true, if_false] at hv
          subst hv
          exact ⟨c :: '+' :: es, rfl, ExpText.plus c es hc hes⟩
        · rw [if_neg hp] at h
          by_cases hm : d = '-'
          · subst hm
            simp only [if_true, Option.map_eq_some', Prod.mk.injEq, Prod.exists] at h
            obtain ⟨v, r1, hpe, rfl, rfl⟩ := h
            obtain ⟨es, e, hes, hv⟩ := parseExpDigits_sound true ds v r1 hpe
            subst e
            simp only [if_true] at hv
            subst hv
            exact ⟨c :: '-' :: es, rfl, ExpText.minus c es hc hes⟩
          · rw [if_neg hm] at h
            simp only [Option.map_eq_some', Prod.mk.injEq, Prod.exists] at h
            obtain ⟨v, r1, hpe, rfl, rfl⟩ := h
            obtain ⟨es, e, hes, hv⟩ := parseExpDigits_sound false (d :: ds) v r1 hpe
            simp only [Bool.false_eq_true, if_false] at hv
            subst hv
            refine ⟨c :: es, ?_, ExpText.plain c es hc hes⟩
            simp only [List.cons_append]
            rw [← e]
    · simp only [parseExponent, hc, if_false, Option.some.injEq, Prod.mk.injEq] at h
      obtain ⟨rfl, rfl⟩ := h
      exact ⟨[], rfl, ExpText.absent⟩

theorem digitsFrom_append (acc : Nat) (a b : List Char) :
    digitsFrom acc (a ++ b) = digitsFrom (digitsFrom acc a) b := by
  simp [digitsFrom, List.foldl_append]

theorem parseUnsigned_sound (neg : Bool) (s : List Char) (lit : NumLit) (r : List Char)
    (h : parseUnsigned neg s = some (lit, r)) :
    ∃ t, s = t ++ r ∧ NumText lit ((if neg then ['-'] else []) ++ t) := by
  unfold parseUnsigned at h
  cases hi : parseIntPart s with
  | none => simp [hi] at h
  | some p =>
    obtain ⟨i, r0⟩ := p
    simp only [hi] at h
    cases hf : parseFraction i r0 with
    | none => simp [hf] at h
    | some q =>
      obtain ⟨v, k, r1⟩ := q
      simp only [hf] at h
      cases he : parseExponent r1 with
      | none => simp [he] at h
      | some z =>
        obtain ⟨x, r2⟩ := z
        simp only [he, Option.some.injEq, Prod.mk.injEq] at h
        obtain ⟨hl, rfl⟩ := h
        obtain ⟨ip, e1, hip, hz, hiv⟩ := parseIntPart_sound s i r0 hi
        obtain ⟨fp, ft, e2, hft, hv, hk⟩ := parseFraction_sound i r0 v k r1 hf
        obtain ⟨et, e3, het⟩ := parseExponent_sound r1 x r2 he
        refine ⟨ip ++ (ft ++ et), by rw [e1, e2, e3]; simp, ?_⟩
        have := NumText.intro neg ip fp ft x et hip hz hft het
        have hlit : lit = ⟨neg, digitsValue (ip ++ fp), x.getD 0 - fp.length,
            fp.isEmpty && x.isNone⟩ := by
          rw [← hl]
          congr 1
          · rw [hv, hiv]
            simp only [digitsValue, digitsFrom_append]
          · rw [hk]
          · rw [hk]
            cases fp <;> simp
        rw [hlit]
        exact this

theorem parseNumber_sound (s : List Char) (lit : NumLit) (r : List Char)
    (h : parseNumber s = some (lit, r)) : ∃ t, s = t ++ r ∧ NumText lit t := by
  cases s with
  | nil => simp [parseNumber] at h
  | cons c cs =>
    by_cases hc : c = '-'
    · subst hc
      simp only [parseNumber, if_true] at h
      obtain ⟨t, e, ht⟩ := parseUnsigned_sound true cs lit r h
      exact ⟨'-' :: t, by rw [e]; rfl, by simpa using ht⟩
    · simp only [parseNumber, hc, if_false] at h
      obtain ⟨t, e, ht⟩ := parseUnsigned_sound false (c :: cs) lit r h
      exact ⟨t, e, by simpa using ht⟩

theorem getu4_some (s : List Char) (n : Nat) (rest : List Char)
    (h : getu4 s = some (n, rest)) :
    ∃ a b c d, s = '\\' :: 'u' :: a :: b :: c :: d :: rest ∧
      getu4 ['\\', 'u', a, b, c, d] = some (n, []) := by
  unfold getu4 at h
  split at h
  · rename_i a b c d r
    refine ⟨a, b, c, d, ?_, ?_⟩
    · split at h
      · simp only [Option.some.injEq, Prod.mk.injEq] at h
        rw [h.2]
      · exact absurd h (by simp)
    · split at h
      · rename_i x y z w hx hy hz hw
        simp only [Option.some.injEq, Prod.mk.injEq] at h
        simp only [getu4, hx, hy, hz, hw, h.1]
      · exact absurd h (by simp)
  · exact absurd h (by simp)

theorem getu4_append (t : List Char) (m : Nat) (r x : List Char)
    (h : getu4 t = some (m, r)) : getu4 (t ++ x) = some (m, r ++ x) := by
  obtain ⟨a, b, c, d, e, hv⟩ := getu4_some t m r h
  subst e
  simp only [List.cons_append]
  unfold getu4 at hv ⊢
  cases hx : hexVal a with
  | none => simp [hx] at hv
  | some x1 =>
    cases hy : hexVal b with
    | none => simp [hx, hy] at hv
    | some y1 =>
      cases hz : hexVal c with
      | none => simp [hx, hy, hz] at hv
      | some z1 =>
        cases hw : hexVal d with
        | none => simp [hx, hy, hz, hw] at hv
        | some w1 =>
          simp only [hx, hy, hz, hw, Option.some.injEq, Prod.mk.injEq, and_true] at hv
          simp only [hx, hy, hz, hw, hv]

/-- One character of a string literal is read as the grammar says. -/
theorem decodeChar_sound (s : List Char) (ch : Char) (r : List Char)
    (h : decodeChar s = some (ch, r)) (cs t x : List Char) (hr : r = t ++ '"' :: x)
    (ht : StrText cs t) : ∃ t2, s = t2 ++ '"' :: x ∧ StrText (ch :: cs) t2 := by
  cases s with
  | nil => simp [decodeChar] at h
  | cons c cs1 =>
    by_cases h1 : c = '"'
    · simp [decodeChar, h1] at h
    by_cases h2 : c = '\\'
    · subst h2
      cases cs1 with
      | nil => simp [decodeChar] at h
      | cons e cs2 =>
        by_cases hu : e = 'u'
        · subst hu
          simp only [decodeChar, if_true] at h
          rw [if_neg (by decide)] at h
          cases hg : getu4 ('\\' :: 'u' :: cs2) with
          | none => simp [hg] at h
          | some p =>
            obtain ⟨n, rest⟩ := p
            simp only [hg] at h
            obtain ⟨a, b, c, d, e1, hv⟩ := getu4_some _ n rest hg
            by_cases hs : isSurrogate n = true
            · simp only [hs, if_true] at h
              cases hg2 : getu4 rest with
              | none =>
                simp only [hg2, Option.some.injEq, Prod.mk.injEq] at h
                obtain ⟨rfl, rfl⟩ := h
                refine ⟨'\\' :: 'u' :: a :: b :: c :: d :: t, by rw [e1, hr]; rfl, ?_⟩
                refine StrText.lone a b c d n cs t hv hs ?_ ht
                intro m r1 hm
                have := getu4_append t m r1 ('"' :: x) hm
                rw [← hr, hg2] at this
                exact absurd this (by simp)
              | some p2 =>
                obtain ⟨m, rest1⟩ := p2
                simp only [hg2] at h
                cases hd : decodeSurrogates n m with
                | some q =>
                  simp only [hd, Option.some.injEq, Prod.mk.injEq] at h
                  obtain ⟨rfl, hrr⟩ := h
                  rw [hrr] at hg2
                  obtain ⟨a1, b1, c1, d1, e2, hv2⟩ := getu4_some _ m r hg2
                  refine ⟨'\\' :: 'u' :: a :: b :: c :: d :: '\\' :: 'u' :: a1 :: b1 :: c1 ::
                    d1 :: t, by rw [e1, e2, hr]; rfl, ?_⟩
                  exact StrText.pair a b c d a1 b1 c1 d1 n m q cs t hv hv2 hd ht
                | none =>
                  simp only [hd, Option.some.injEq, Prod.mk.injEq] at h
                  obtain ⟨rfl, rfl⟩ := h
                  refine ⟨'\\' :: 'u' :: a :: b :: c :: d :: t, by rw [e1, hr]; rfl, ?_⟩
                  refine StrText.lone a b c d n cs t hv hs ?_ ht
                  intro m2 r1 hm
                  have := getu4_append t m2 r1 ('"' :: x) hm
                  rw [← hr, hg2] at this
                  simp only [Option.some.injEq, Prod.mk.injEq] at this
                  rw [← this.1]
                  exact hd
            · simp only [hs, Bool.false_eq_true, if_false, Option.some.injEq,
                Prod.mk.injEq] at h
              obtain ⟨rfl, rfl⟩ := h
              refine ⟨'\\' :: 'u' :: a :: b :: c :: d :: t, by rw [e1, hr]; rfl, ?_⟩
              exact StrText.unicode a b c d n cs t hv (by simpa using hs) ht
        · simp only [decodeChar, if_true] at h
          rw [if_neg (by decide), if_neg hu] at h
          cases he : simpleEscape e with
          | none => simp [he] at h
          | some c1 =>
            simp only [he, Option.some.injEq, Prod.mk.injEq] at h
            obtain ⟨rfl, rfl⟩ := h
            exact ⟨'\\' :: e :: t, by rw [hr]; rfl, StrText.escape e c1 cs t he ht⟩
    · by_cases h3 : c.toNat < 32
      · simp [decodeChar, h1, h2, h3] at h
      · simp only [decodeChar, h1, h2, h3, if_false, Option.some.injEq, Prod.mk.injEq] at h
        obtain ⟨rfl, rfl⟩ := h
        exact ⟨c :: t, by rw [hr]; rfl, StrText.raw c cs t h1 h2 h3 ht⟩

theorem parseStringBody_sound (fuel : Nat) : ∀ (s cs rest : List Char),
    parseStringBody fuel s = some (cs, rest) → ∃ t, s = t ++ '"' :: rest ∧ StrText cs t := by
  induction fuel with
  | zero => intro s cs rest h; simp [parseStringBody] at h
  | succ f ih =>
    intro s cs rest h
    cases s with
    | nil => simp [parseStringBody] at h
    | cons c cs1 =>
      by_cases hq : c = '"'
      · subst hq
        simp only [parseStringBody, if_true, Option.some.injEq, Prod.mk.injEq] at h
        obtain ⟨rfl, rfl⟩ := h
        exact ⟨[], rfl, StrText.nil⟩
      · simp only [parseStringBody, hq, if_false] at h
        cases hd : decodeChar (c :: cs1) with
        | none => simp [hd] at h
        | some p =>
          obtain ⟨ch, r⟩ := p
          simp only [hd, Option.map_eq_some', Prod.mk.injEq, Prod.exists] at h
          obtain ⟨cs2, rest2, hp, rfl, rfl⟩ := h
          obtain ⟨t, e, ht⟩ := ih r cs2 rest2 hp
          exact decodeChar_sound (c :: cs1) ch r hd cs2 t rest2 e ht

theorem stripLiteral_sound (lit : List Char) :
    ∀ (s r : List Char), stripLiteral lit s = some r → s = lit ++ r := by
  induction lit with
  | nil => intro s r h; simp [stripLiteral] at h; simp [h]
  | cons l ls ih =>
    intro s r h
    cases s with
    | nil => simp [stripLiteral] at h
    | cons c cs =>
      by_cases hc : c = l
      · simp only [stripLiteral, hc, if_true] at h
        simp [hc, ih cs r h]
      · simp [stripLiteral, hc] at h

/-- What the parser reads is a value of the grammar, and the text read is a text of
that value after white space. -/
theorem parse_sound (fuel : Nat) :
    (∀ (depth : Nat) (s : List Char) (j : Json) (rest : List Char),
      parseJson fuel depth s = some (j, rest) →
      ∃ w t, s = w ++ (t ++ rest) ∧ IsWs w ∧ JsonText j t) ∧
    (∀ (depth : Nat) (s : List Char) (xs : List Json) (rest : List Char),
      parseElems fuel depth s = some (xs, rest) → ∃ t, s = t ++ rest ∧ ElemsText xs t) ∧
    (∀ (depth : Nat) (s : List Char) (ms : List (String × Json)) (rest : List Char),
      parseMembers fuel depth s = some (ms, rest) →
      ∃ t, s = t ++ rest ∧ MembersText ms t) := by
  induction fuel with
  | zero =>
    refine ⟨?_, ?_, ?_⟩ <;> intro depth s j rest h
    · simp [parseJson] at h
    · simp [parseElems] at h
    · simp [parseMembers] at h
  | succ f ih =>
    obtain ⟨ihJ, ihE, ihM⟩ := ih
    refine ⟨?_, ?_, ?_⟩
    · intro depth s j rest h
      obtain ⟨w, ew, hw⟩ := skipWs_split s
      simp only [parseJson] at h
      cases hs : skipWs s with
      | nil => simp [hs] at h
      | cons c r =>
        rw [hs] at ew
        simp only [hs] at h
        by_cases h1 : c = '"'
        · subst h1
          simp only [if_true, Option.map_eq_some', Prod.mk.injEq, Prod.exists] at h
          obtain ⟨cs, r1, hp, hj, hrest⟩ := h
          rw [← hj, ← hrest]
          obtain ⟨t, e, ht⟩ := parseStringBody_sound f r cs r1 hp
          refine ⟨w, '"' :: (t ++ ['"']), ?_, hw, JsonText.str cs t ht⟩
          rw [ew, e]; simp
        rw [if_neg h1] at h
        by_cases h2 : c = '['
        · subst h2
          simp only [if_true] at h
          by_cases hdp : maxNestingDepth ≤ depth
          · simp [hdp] at h
          rw [if_neg hdp] at h
          obtain ⟨w1, ew1, hw1⟩ := skipWs_split r
          cases hr : skipWs r with
          | nil => simp [hr] at h
          | cons c1 r1 =>
            rw [hr] at ew1
            simp only [hr] at h
            by_cases h3 : c1 = ']'
            · subst h3
              simp only [if_true, Option.some.injEq, Prod.mk.injEq] at h
              obtain ⟨hj, hrest⟩ := h
              rw [← hj, ← hrest]
              refine ⟨w, '[' :: (w1 ++ [']']), ?_, hw, JsonText.emptyArr w1 hw1⟩
              rw [ew, ew1]; simp
            · simp only [h3, if_false, Option.map_eq_some', Prod.mk.injEq, Prod.exists] at h
              obtain ⟨xs, r2, hp, hj, hrest⟩ := h
              rw [← hj, ← hrest]
              obtain ⟨t, e, ht⟩ := ihE (depth + 1) r xs r2 hp
              refine ⟨w, '[' :: t, ?_, hw, JsonText.arr xs t ht⟩
              rw [ew, e]; simp
        rw [if_neg h2] at h
        by_cases h4 : c = '{'
        · subst h4
          simp only [if_true] at h
          by_cases hdp : maxNestingDepth ≤ depth
          · simp [hdp] at h
          rw [if_neg hdp] at h
          obtain ⟨w1, ew1, hw1⟩ := skipWs_split r
          cases hr : skipWs r with
          | nil => simp [hr] at h
          | cons c1 r1 =>
            rw [hr] at ew1
            simp only [hr] at h
            by_cases h3 : c1 = '}'
            · subst h3
              simp only [if_true, Option.some.injEq, Prod.mk.injEq] at h
              obtain ⟨hj, hrest⟩ := h
              rw [← hj, ← hrest]
              refine ⟨w, '{' :: (w1 ++ ['}']), ?_, hw, JsonText.emptyObj w1 hw1⟩
              rw [ew, ew1]; simp
            · simp only [h3, if_false, Option.map_eq_some', Prod.mk.injEq, Prod.exists] at h
              obtain ⟨ms, r2, hp, hj, hrest⟩ := h
              rw [← hj, ← hrest]
              obtain ⟨t, e, ht⟩ := ihM (depth + 1) r ms r2 hp
              refine ⟨w, '{' :: t, ?_, hw, JsonText.obj ms t ht⟩
              rw [ew, e]; simp
        rw [if_neg h4] at h
        by_cases h5 : c = 'n'
        · subst h5
          simp only [if_true, Option.map_eq_some', Prod.mk.injEq] at h
          obtain ⟨r1, hp, hj, hrest⟩ := h
          rw [← hj, ← hrest]
          have e := stripLiteral_sound _ _ _ hp
          refine ⟨w, ['n', 'u', 'l', 'l'], ?_, hw, JsonText.null⟩
          rw [ew, e]; simp
        rw [if_neg h5] at h
        by_cases h6 : c = 't'
        · subst h6
          simp only [if_true, Option.map_eq_some', Prod.mk.injEq] at h
          obtain ⟨r1, hp, hj, hrest⟩ := h
          rw [← hj, ← hrest]
          have e := stripLiteral_sound _ _ _ hp
          refine ⟨w, ['t', 'r', 'u', 'e'], ?_, hw, JsonText.true⟩
          rw [ew, e]; simp
        rw [if_neg h6] at h
        by_cases h7 : c = 'f'
        · subst h7
          simp only [if_true, Option.map_eq_some', Prod.mk.injEq] at h
          obtain ⟨r1, hp, hj, hrest⟩ := h
          rw [← hj, ← hrest]
          have e := stripLiteral_sound _ _ _ hp
          refine ⟨w, ['f', 'a', 'l', 's', 'e'], ?_, hw, JsonText.false⟩
          rw [ew, e]; simp
        rw [if_neg h7] at h
        simp only [Option.map_eq_some', Prod.mk.injEq, Prod.exists] at h
        obtain ⟨lit, r1, hp, hj, hrest⟩ := h
        rw [← hj, ← hrest]
        obtain ⟨t, e, ht⟩ := parseNumber_sound _ lit r1 hp
        refine ⟨w, t, ?_, hw, JsonText.num lit t ht⟩
        rw [ew, e]
    · intro depth s xs rest h
      simp only [parseElems] at h
      cases hv : parseJson f depth s with
      | none => simp [hv] at h
      | some p =>
        obtain ⟨v, r⟩ := p
        simp only [hv] at h
        obtain ⟨w, t, e, hw, ht⟩ := ihJ depth s v r hv
        obtain ⟨w2, ew2, hw2⟩ := skipWs_split r
        cases hr : skipWs r with
        | nil => simp [hr] at h
        | cons c r1 =>
          rw [hr] at ew2
          simp only [hr] at h
          by_cases h1 : c = ','
          · subst h1
            simp only [if_true, Option.map_eq_some', Prod.mk.injEq, Prod.exists] at h
            obtain ⟨ys, r2, hp, hj, hrest⟩ := h
            rw [← hj, ← hrest]
            obtain ⟨t2, e2, ht2⟩ := ihE depth r1 ys r2 hp
            refine ⟨w ++ (t ++ (w2 ++ ',' :: t2)), ?_, ElemsText.cons v ys w t w2 t2 hw ht hw2 ht2⟩
            rw [e, ew2, e2]; simp
          · rw [if_neg h1] at h
            by_cases h2 : c = ']'
            · subst h2
              simp only [if_true, Option.some.injEq, Prod.mk.injEq] at h
              obtain ⟨hj, hrest⟩ := h
              rw [← hj, ← hrest]
              refine ⟨w ++ (t ++ (w2 ++ [']'])), ?_, ElemsText.last v w t w2 hw ht hw2⟩
              rw [e, ew2]; simp
            · simp [h2] at h
    · intro depth s ms rest h
      simp only [parseMembers] at h
      obtain ⟨w1, ew1, hw1⟩ := skipWs_split s
      cases hs : skipWs s with
      | nil => simp [hs] at h
      | cons q r =>
        rw [hs] at ew1
        simp only [hs] at h
        by_cases hq : q = '"'
        · subst hq
          simp only [if_true] at h
          cases hk : parseStringBody f r with
          | none => simp [hk] at h
          | some p =>
            obtain ⟨k, r1⟩ := p
            simp only [hk] at h
            obtain ⟨kt, ek, hkt⟩ := parseStringBody_sound f r k r1 hk
            obtain ⟨w2, ew2, hw2⟩ := skipWs_split r1
            cases hr1 : skipWs r1 with
            | nil => simp [hr1] at h
            | cons c r2 =>
              rw [hr1] at ew2
              simp only [hr1] at h
              by_cases hc : c = ':'
              · subst hc
                simp only [if_true] at h
                cases hv : parseJson f depth r2 with
                | none => simp [hv] at h
                | some p2 =>
                  obtain ⟨v, r3⟩ := p2
                  simp only [hv] at h
                  obtain ⟨w3, t, e3, hw3, ht⟩ := ihJ depth r2 v r3 hv
                  obtain ⟨w4, ew4, hw4⟩ := skipWs_split r3
                  cases hr3 : skipWs r3 with
                  | nil => simp [hr3] at h
                  | cons d r4 =>
                    rw [hr3] at ew4
                    simp only [hr3] at h
                    by_cases hd : d = ','
                    · subst hd
                      simp only [if_true, Option.map_eq_some', Prod.mk.injEq, Prod.exists] at h
                      obtain ⟨ms2, r5, hp, hj, hrest⟩ := h
                      rw [← hj, ← hrest]
                      obtain ⟨t2, e5, ht2⟩ := ihM depth r4 ms2 r5 hp
                      refine ⟨_, ?_, MembersText.cons k v ms2 w1 kt w2 w3 t w4 t2 hw1 hkt hw2
                        hw3 ht hw4 ht2⟩
                      rw [ew1, ek, ew2, e3, ew4, e5]; simp
                    · rw [if_neg hd] at h
                      by_cases hb : d = '}'
                      · subst hb
                        simp only [if_true, Option.some.injEq, Prod.mk.injEq] at h
                        obtain ⟨hj, hrest⟩ := h
                        rw [← hj, ← hrest]
                        refine ⟨_, ?_, MembersText.last k v w1 kt w2 w3 t w4 hw1 hkt hw2 hw3
                          ht hw4⟩
                        rw [ew1, ek, ew2, e3, ew4]; simp
                      · simp [hb] at h
              · simp [hc] at h
        · simp [hq] at h

/-- A text that `json.Unmarshal` reads is a JSON text of the value read. -/
theorem parseText_sound (data : Bytes) (j : Json) (h : parseText data = some j) :
    IsJsonText j data := by
  unfold parseText at h
  cases hp : parseJson (data.length + 1) 0 data with
  | none => simp [hp] at h
  | some p =>
    obtain ⟨j1, rest⟩ := p
    simp only [hp] at h
    by_cases hr : skipWs rest = []
    · simp only [hr, if_true, Option.some.injEq] at h
      subst h
      obtain ⟨w, t, e, hw, ht⟩ := (parse_sound (data.length + 1)).1 0 data j1 rest hp
      obtain ⟨w2, e2, hw2⟩ := skipWs_split rest
      rw [hr, List.append_nil] at e2
      exact ⟨w, t, rest, e, hw, ht, by rw [e2]; exact hw2⟩
    · simp [hr] at h


/-! ### The parser accepts every text of the grammar -/

theorem skipWs_ws_append (w s : List Char) (hw : IsWs w) : skipWs (w ++ s) = skipWs s := by
  induction w with
  | nil => rfl
  | cons c cs ih =>
    have hc : isWs c = true := hw c (List.mem_cons_self _ _)
    simp only [List.cons_append, skipWs, hc, if_true]
    exact ih (fun d hd => hw d (List.mem_cons_of_mem _ hd))

theorem parseDigits_complete (ds : List Char) (hd : ∀ c ∈ ds, isDigit c = true)
    (rest : List Char) (hr : ∀ c r, rest = c :: r → isDigit c = false) :
    ∀ acc, parseDigits (ds ++ rest) acc = (digitsFrom acc ds, rest) := by
  induction ds with
  | nil =>
    intro acc
    cases rest with
    | nil => rfl
    | cons c r => simp [parseDigits, hr c r rfl, digitsFrom]
  | cons d ds ih =>
    intro acc
    have h1 := hd d (List.mem_cons_self _ _)
    rw [List.cons_append]
    simp only [parseDigits, h1, if_true]
    rw [ih (fun c hc => hd c (List.mem_cons_of_mem _ hc))]
    simp [digitsFrom]

theorem parseDigitsCount_complete (ds : List Char) (hd : ∀ c ∈ ds, isDigit c = true)
    (rest : List Char) (hr : ∀ c r, rest = c :: r → isDigit c = false) :
    ∀ acc k, parseDigitsCount (ds ++ rest) acc k = (digitsFrom acc ds, k + ds.length, rest) := by
  induction ds with
  | nil =>
    intro acc k
    cases rest with
    | nil => rfl
    | cons c r => simp [parseDigitsCount, hr c r rfl, digitsFrom]
  | cons d ds ih =>
    intro acc k
    have h1 := hd d (List.mem_cons_self _ _)
    rw [List.cons_append]
    simp only [parseDigitsCount, h1, if_true]
    rw [ih (fun c hc => hd c (List.mem_cons_of_mem _ hc))]
    simp [digitsFrom]
    omega

theorem parseIntPart_complete (ip : List Char) (hip : IsDigits ip)
    (h0 : ip = ['0'] ∨ ip.head? ≠ some '0') (rest : List Char)
    (hr : ∀ c r, rest = c :: r → isDigit c = false) :
    parseIntPart (ip ++ rest) = some (digitsValue ip, rest) := by
  rcases h0 with rfl | h0
  · rfl
  · cases ip with
    | nil => exact absurd rfl hip.1
    | cons c cs =>
      have hc : c ≠ '0' := fun e => h0 (by simp [e])
      have hd := hip.2 c (List.mem_cons_self _ _)
      simp only [List.cons_append, parseIntPart, hc, if_false, hd, if_true]
      rw [← List.cons_append, parseDigits_complete (c :: cs) hip.2 rest hr]
      rfl

theorem parseFraction_complete (acc : Nat) (fp ft : List Char) (h : FracText fp ft)
    (rest : List Char) (hr : ∀ c r, rest = c :: r → isDigit c = false ∧ c ≠ '.') :
    parseFraction acc (ft ++ rest) = some (digitsFrom acc fp, fp.length, rest) := by
  cases h with
  | absent =>
    cases rest with
    | nil => rfl
    | cons c r => simp [parseFraction, (hr c r rfl).2, digitsFrom]
  | present _ hds =>
    cases fp with
    | nil => exact absurd rfl hds.1
    | cons d ds1 =>
      have hd := hds.2 d (List.mem_cons_self _ _)
      rw [List.cons_append, List.cons_append]
      simp only [parseFraction, if_true, hd]
      rw [← List.cons_append,
        parseDigitsCount_complete (d :: ds1) hds.2 rest (fun c r e => (hr c r e).1)]
      simp

theorem parseExpDigits_complete (neg : Bool) (ds : List Char) (hds : IsDigits ds)
    (rest : List Char) (hr : ∀ c r, rest = c :: r → isDigit c = false) :
    parseExpDigits neg (ds ++ rest) =
      some (if neg then -(digitsValue ds : Int) else (digitsValue ds : Int), rest) := by
  cases ds with
  | nil => exact absurd rfl hds.1
  | cons d ds1 =>
    have hd := hds.2 d (List.mem_cons_self _ _)
    simp only [List.cons_append, parseExpDigits, hd, if_true]
    rw [← List.cons_append, parseDigits_complete (d :: ds1) hds.2 rest hr]
    rfl

theorem parseExponent_complete (x : Option Int) (et : List Char) (h : ExpText x et)
    (rest : List Char) (hr : Stops rest) : parseExponent (et ++ rest) = some (x, rest) := by
  have hr1 : ∀ c r, rest = c :: r → isDigit c = false := fun c r e => (hr c r e).1
  cases h with
  | absent =>
    cases rest with
    | nil => rfl
    | cons c r =>
      have := hr c r rfl
      simp [parseExponent, this.2.2.1, this.2.2.2]
  | plain m ds hm hds =>
    cases ds with
    | nil => exact absurd rfl hds.1
    | cons d ds1 =>
      have hd := hds.2 d (List.mem_cons_self _ _)
      have hp : d ≠ '+' := fun e => by rw [e] at hd; exact Bool.noConfusion hd
      have hn : d ≠ '-' := fun e => by rw [e] at hd; exact Bool.noConfusion hd
      simp only [List.cons_append, parseExponent, hm, if_true, hp, hn, if_false]
      rw [← List.cons_append, parseExpDigits_complete false (d :: ds1) hds rest hr1]
      rfl
  | plus m ds hm hds =>
    simp only [List.cons_append, parseExponent, hm, if_true]
    rw [parseExpDigits_complete false ds hds rest hr1]
    rfl
  | minus m ds hm hds =>
    simp only [List.cons_append, parseExponent, hm, if_true]
    rw [if_neg (by decide), parseExpDigits_complete true ds hds rest hr1]
    rfl

theorem expText_head (x : Option Int) (et : List Char) (h : ExpText x et) :
    et = [] ∨ ∃ m r, et = m :: r ∧ (m = 'e' ∨ m = 'E') := by
  cases h with
  | absent => exact Or.inl rfl
  | plain m ds hm _ => exact Or.inr ⟨m, ds, rfl, hm⟩
  | plus m ds hm _ => exact Or.inr ⟨m, _, rfl, hm⟩
  | minus m ds hm _ => exact Or.inr ⟨m, _, rfl, hm⟩

theorem stops_exp (x : Option Int) (et : List Char) (h : ExpText x et) (rest : List Char)
    (hr : Stops rest) :
    ∀ c r, et ++ rest = c :: r → isDigit c = false ∧ c ≠ '.' := by
  intro c r e
  rcases expText_head x et h with rfl | ⟨m, r1, rfl, hm⟩
  · exact ⟨(hr c r e).1, (hr c r e).2.1⟩
  · simp only [List.cons_append, List.cons.injEq] at e
    obtain ⟨rfl, -⟩ := e
    rcases hm with rfl | rfl <;> exact ⟨rfl, by decide⟩

theorem stops_frac (fp ft : List Char) (hf : FracText fp ft) (x : Option Int) (et : List Char)
    (h : ExpText x et) (rest : List Char) (hr : Stops rest) :
    ∀ c r, ft ++ (et ++ rest) = c :: r → isDigit c = false := by
  intro c r e
  cases hf with
  | absent => exact (stops_exp x et h rest hr c r e).1
  | present _ hds =>
    simp only [List.cons_append, List.cons.injEq] at e
    obtain ⟨rfl, -⟩ := e
    rfl

theorem parseUnsigned_complete (neg : Bool) (ip fp ft : List Char) (x : Option Int)
    (et : List Char) (hip : IsDigits ip) (h0 : ip = ['0'] ∨ ip.head? ≠ some '0')
    (hf : FracText fp ft) (hx : ExpText x et) (rest : List Char) (hr : Stops rest) :
    parseUnsigned neg (ip ++ (ft ++ (et ++ rest))) =
      some (⟨neg, digitsValue (ip ++ fp), x.getD 0 - fp.length, fp.isEmpty && x.isNone⟩,
        rest) := by
  unfold parseUnsigned
  rw [parseIntPart_complete ip hip h0 _ (stops_frac fp ft hf x et hx rest hr)]
  simp only []
  rw [parseFraction_complete _ fp ft hf _ (stops_exp x et hx rest hr)]
  simp only []
  rw [parseExponent_complete x et hx rest hr]
  simp only [digitsValue, digitsFrom_append]
  cases fp <;> simp

theorem parseNumber_complete (lit : NumLit) (t : List Char) (h : NumText lit t)
    (rest : List Char) (hr : Stops rest) : parseNumber (t ++ rest) = some (lit, rest) := by
  cases h with
  | intro neg ip fp ft x et hip h0 hf hx =>
    have e : (ip ++ (ft ++ et)) ++ rest = ip ++ (ft ++ (et ++ rest)) := by
      simp only [List.append_assoc]
    cases neg with
    | true =>
      simp only [if_true, List.append_assoc, List.cons_append, List.nil_append, parseNumber]
      exact parseUnsigned_complete true ip fp ft x et hip h0 hf hx rest hr
    | false =>
      simp only [Bool.false_eq_true, if_false, List.nil_append]
      rw [e]
      cases ip with
      | nil => exact absurd rfl hip.1
      | cons c cs =>
        have hc := hip.2 c (List.mem_cons_self _ _)
        have hm : c ≠ '-' := fun e1 => by rw [e1] at hc; exact Bool.noConfusion hc
        rw [List.cons_append]
        simp only [parseNumber, hm, if_false]
        rw [← List.cons_append]
        exact parseUnsigned_complete false (c :: cs) fp ft x et hip h0 hf hx rest hr

/-! Strings. -/

theorem getu4_six (a b c d : Char) (n : Nat)
    (h : getu4 ['\\', 'u', a, b, c, d] = some (n, [])) (rest : List Char) :
    getu4 ('\\' :: 'u' :: a :: b :: c :: d :: rest) = some (n, rest) :=
  getu4_append _ n [] rest h

theorem getu4_of_append_quote (t : List Char) (m : Nat) (r x : List Char)
    (h : getu4 (t ++ '"' :: x) = some (m, r)) : ∃ r1, getu4 t = some (m, r1) := by
  obtain ⟨a, b, c, d, e, hv⟩ := getu4_some _ m r h
  have ha : ∀ y : Char, y ≠ '"' → ∀ (l : List Char) (z : Char) (l1 : List Char),
      l ++ '"' :: x = z :: l1 → z = y → ∃ l2, l = z :: l2 ∧ l2 ++ '"' :: x = l1 := by
    intro y hy l z l1 e1 e2
    cases l with
    | nil =>
      simp only [List.nil_append, List.cons.injEq] at e1
      exact absurd (e1.1.trans e2).symm (fun e3 => hy e3)
    | cons z1 l2 =>
      simp only [List.cons_append, List.cons.injEq] at e1
      exact ⟨l2, by rw [e1.1], e1.2⟩
  have hex : ∀ y : Char, (hexVal y).isSome → y ≠ '"' := by
    intro y hy e1
    rw [e1] at hy
    exact Bool.noConfusion hy
  have hva : (hexVal a).isSome ∧ (hexVal b).isSome ∧ (hexVal c).isSome ∧ (hexVal d).isSome := by
    unfold getu4 at hv
    cases hx : hexVal a with
    | none => simp [hx] at hv
    | some x1 =>
      cases hy : hexVal b with
      | none => simp [hx, hy] at hv
      | some y1 =>
        cases hz : hexVal c with
        | none => simp [hx, hy, hz] at hv
        | some z1 =>
          cases hw : hexVal d with
          | none => simp [hx, hy, hz, hw] at hv
          | some w1 => simp
  obtain ⟨l1, e1, f1⟩ := ha '\\' (by decide) t _ _ e rfl
  obtain ⟨l2, e2, f2⟩ := ha 'u' (by decide) l1 _ _ f1 rfl
  obtain ⟨l3, e3, f3⟩ := ha a (hex a hva.1) l2 _ _ f2 rfl
  obtain ⟨l4, e4, f4⟩ := ha b (hex b hva.2.1) l3 _ _ f3 rfl
  obtain ⟨l5, e5, f5⟩ := ha c (hex c hva.2.2.1) l4 _ _ f4 rfl
  obtain ⟨l6, e6, f6⟩ := ha d (hex d hva.2.2.2) l5 _ _ f5 rfl
  refine ⟨l6, ?_⟩
  rw [e1, e2, e3, e4, e5, e6]
  exact getu4_six a b c d m hv l6

theorem strText_length (cs t : List Char) (h : StrText cs t) : cs.length ≤ t.length := by
  induction h with
  | nil => exact Nat.le_refl _
  | raw c cs t _ _ _ _ ih => simp only [List.length_cons]; omega
  | escape e c cs t _ _ ih => simp only [List.length_cons]; omega
  | unicode a b c d n cs t _ _ _ ih => simp only [List.length_cons]; omega
  | pair a b c d a1 b1 c1 d1 hi lo p cs t _ _ _ _ ih => simp only [List.length_cons]; omega
  | lone a b c d n cs t _ _ _ _ ih => simp only [List.length_cons]; omega

theorem parseStringBody_step (f : Nat) (c : Char) (s : List Char) (ch : Char) (r : List Char)
    (hq : c ≠ '"') (hd : decodeChar (c :: s) = some (ch, r)) :
    parseStringBody (f + 1) (c :: s) =
      (parseStringBody f r).map (fun p => (ch :: p.1, p.2)) := by
  simp only [parseStringBody, hq, if_false, hd]

theorem decodeChar_raw (c : Char) (s : List Char) (h1 : c ≠ '"') (h2 : c ≠ '\\')
    (h3 : ¬ c.toNat < 32) : decodeChar (c :: s) = some (c, s) := by
  simp only [decodeChar, h1, h2, h3, if_false]

theorem decodeChar_escape (e c : Char) (s : List Char) (h : simpleEscape e = some c) :
    decodeChar ('\\' :: e :: s) = some (c, s) := by
  have hu : e ≠ 'u' := fun e1 => by rw [e1] at h; simp [simpleEscape] at h
  simp only [decodeChar, if_true, hu, if_false, h]
  rw [if_neg (by decide)]

theorem decodeChar_unicode (a b c d : Char) (n : Nat) (s : List Char)
    (h : getu4 ['\\', 'u', a, b, c, d] = some (n, [])) :
    decodeChar ('\\' :: 'u' :: a :: b :: c :: d :: s) =
      if isSurrogate n then
        match getu4 s with
        | none => some (Char.ofNat 0xfffd, s)
        | some (m, rest1) =>
          match decodeSurrogates n m with
          | some p => some (Char.ofNat p, rest1)
          | none => some (Char.ofNat 0xfffd, s)
      else some (Char.ofNat n, s) := by
  simp only [decodeChar, if_true, getu4_six a b c d n h]
  rw [if_neg (by decide)]

theorem parseStringBody_complete (cs t : List Char) (h : StrText cs t) :
    ∀ (fuel : Nat) (rest : List Char), cs.length < fuel →
      parseStringBody fuel (t ++ '"' :: rest) = some (cs, rest) := by
  induction h with
  | nil =>
    intro fuel rest hf
    cases fuel with
    | zero => exact absurd hf (Nat.lt_irrefl _)
    | succ f => simp [parseStringBody]
  | raw c cs t h1 h2 h3 _ ih =>
    intro fuel rest hf
    cases fuel with
    | zero => exact absurd hf (Nat.not_lt_zero _)
    | succ f =>
      have hf1 : cs.length < f := by simp only [List.length_cons] at hf; omega
      rw [List.cons_append, parseStringBody_step f c _ c _ h1 (decodeChar_raw c _ h1 h2 h3),
        ih f rest hf1]
      rfl
  | escape e c cs t h1 _ ih =>
    intro fuel rest hf
    cases fuel with
    | zero => exact absurd hf (Nat.not_lt_zero _)
    | succ f =>
      have hf1 : cs.length < f := by simp only [List.length_cons] at hf; omega
      rw [List.cons_append, List.cons_append,
        parseStringBody_step f '\\' _ c _ (by decide) (decodeChar_escape e c _ h1),
        ih f rest hf1]
      rfl
  | unicode a b c d n cs t h1 h2 _ ih =>
    intro fuel rest hf
    cases fuel with
    | zero => exact absurd hf (Nat.not_lt_zero _)
    | succ f =>
      have hf1 : cs.length < f := by simp only [List.length_cons] at hf; omega
      have hd : decodeChar ('\\' :: 'u' :: a :: b :: c :: d :: (t ++ '"' :: rest)) =
          some (Char.ofNat n, t ++ '"' :: rest) := by
        rw [decodeChar_unicode a b c d n _ h1, h2]
        rfl
      simp only [List.cons_append]
      rw [parseStringBody_step f '\\' _ _ _ (by decide) hd, ih f rest hf1]
      rfl
  | pair a b c d a1 b1 c1 d1 hi lo p cs t h1 h2 h3 _ ih =>
    intro fuel rest hf
    cases fuel with
    | zero => exact absurd hf (Nat.not_lt_zero _)
    | succ f =>
      have hf1 : cs.length < f := by simp only [List.length_cons] at hf; omega
      have hs : isSurrogate hi = true := by
        unfold decodeSurrogates at h3
        split at h3
        · rename_i hh
          simp only [isSurrogate, Bool.and_eq_true, decide_eq_true_eq]
          omega
        · exact absurd h3 (by simp)
      have hd : decodeChar ('\\' :: 'u' :: a :: b :: c :: d ::
            '\\' :: 'u' :: a1 :: b1 :: c1 :: d1 :: (t ++ '"' :: rest)) =
          some (Char.ofNat p, t ++ '"' :: rest) := by
        rw [decodeChar_unicode a b c d hi _ h1, hs, if_pos rfl,
          getu4_six a1 b1 c1 d1 lo h2]
        simp only [h3]
      simp only [List.cons_append]
      rw [parseStringBody_step f '\\' _ _ _ (by decide) hd, ih f rest hf1]
      rfl
  | lone a b c d n cs t h1 h2 h3 _ ih =>
    intro fuel rest hf
    cases fuel with
    | zero => exact absurd hf (Nat.not_lt_zero _)
    | succ f =>
      have hf1 : cs.length < f := by simp only [List.length_cons] at hf; omega
      have hd : decodeChar ('\\' :: 'u' :: a :: b :: c :: d :: (t ++ '"' :: rest)) =
          some (Char.ofNat 0xfffd, t ++ '"' :: rest) := by
        rw [decodeChar_unicode a b c d n _ h1, h2, if_pos rfl]
        cases hg : getu4 (t ++ '"' :: rest) with
        | none => rfl
        | some q =>
          obtain ⟨m, r1⟩ := q
          obtain ⟨r2, hr2⟩ := getu4_of_append_quote t m r1 rest hg
          simp only [h3 m r2 hr2]
      simp only [List.cons_append]
      rw [parseStringBody_step f '\\' _ _ _ (by decide) hd, ih f rest hf1]
      rfl

/-! Values. -/

theorem numText_head (lit : NumLit) (t : List Char) (h : NumText lit t) :
    ∃ c r, t = c :: r ∧ (c = '-' ∨ isDigit c = true) := by
  cases h with
  | intro neg ip fp ft x et hip h0 hf hx =>
    cases neg with
    | true => exact ⟨'-', _, rfl, Or.inl rfl⟩
    | false =>
      cases ip with
      | nil => exact absurd rfl hip.1
      | cons c cs => exact ⟨c, _, rfl, Or.inr (hip.2 c (List.mem_cons_self _ _))⟩

theorem numHead_facts {c : Char} (h : c = '-' ∨ isDigit c = true) :
    isWs c = false ∧ c ≠ '"' ∧ c ≠ '[' ∧ c ≠ '{' ∧ c ≠ 'n' ∧ c ≠ 't' ∧ c ≠ 'f' ∧
      c ≠ ']' ∧ c ≠ '}' := by
  rcases h with rfl | h
  · exact ⟨rfl, by decide, by decide, by decide, by decide, by decide, by decide, by decide,
      by decide⟩
  · exact isDigit_facts h

/-- The first character of the text of a value is no white space and closes nothing. -/
theorem jsonText_head (j : Json) (t : List Char) (h : JsonText j t) :
    ∃ c r, t = c :: r ∧ isWs c = false ∧ c ≠ ']' ∧ c ≠ '}' := by
  cases h with
  | null => exact ⟨'n', _, rfl, rfl, by decide, by decide⟩
  | true => exact ⟨'t', _, rfl, rfl, by decide, by decide⟩
  | false => exact ⟨'f', _, rfl, rfl, by decide, by decide⟩
  | num lit t hn =>
    obtain ⟨c, r, e, hc⟩ := numText_head lit t hn
    have := numHead_facts hc
    exact ⟨c, r, e, this.1, this.2.2.2.2.2.2.2.1, this.2.2.2.2.2.2.2.2⟩
  | str cs t hs => exact ⟨'"', _, rfl, rfl, by decide, by decide⟩
  | emptyArr w hw => exact ⟨'[', _, rfl, rfl, by decide, by decide⟩
  | arr xs t he => exact ⟨'[', _, rfl, rfl, by decide, by decide⟩
  | emptyObj w hw => exact ⟨'{', _, rfl, rfl, by decide, by decide⟩
  | obj ms t hm => exact ⟨'{', _, rfl, rfl, by decide, by decide⟩

theorem skipWs_ws_cons (w : List Char) (hw : IsWs w) (c : Char) (hc : isWs c = false)
    (r : List Char) : skipWs (w ++ c :: r) = c :: r := by
  rw [skipWs_ws_append w _ hw, skipWs_cons hc]

theorem elemsText_skip (xs : List Json) (T : List Char) (h : ElemsText xs T)
    (rest : List Char) : ∃ c r, skipWs (T ++ rest) = c :: r ∧ c ≠ ']' := by
  cases h with
  | last x w1 t w2 hw1 ht hw2 =>
    obtain ⟨c, r, e, h0, h1, -⟩ := jsonText_head x t ht
    subst e
    refine ⟨c, r ++ ((w2 ++ [']']) ++ rest), ?_, h1⟩
    simp only [List.append_assoc, List.cons_append]
    exact skipWs_ws_cons w1 hw1 c h0 _
  | cons x xs w1 t w2 rest1 hw1 ht hw2 hr =>
    obtain ⟨c, r, e, h0, h1, -⟩ := jsonText_head x t ht
    subst e
    refine ⟨c, r ++ ((w2 ++ ',' :: rest1) ++ rest), ?_, h1⟩
    simp only [List.append_assoc, List.cons_append]
    exact skipWs_ws_cons w1 hw1 c h0 _

theorem membersText_skip (ms : List (String × Json)) (T : List Char) (h : MembersText ms T)
    (rest : List Char) : ∃ r, skipWs (T ++ rest) = '"' :: r := by
  cases h with
  | last k x w1 kt w2 w3 t w4 hw1 hk hw2 hw3 ht hw4 =>
    refine ⟨(kt ++ '"' :: (w2 ++ ':' :: (w3 ++ (t ++ (w4 ++ ['}']))))) ++ rest, ?_⟩
    simp only [List.append_assoc, List.cons_append]
    exact skipWs_ws_cons w1 hw1 '"' rfl _
  | cons k x ms w1 kt w2 w3 t w4 rest1 hw1 hk hw2 hw3 ht hw4 hr =>
    refine ⟨(kt ++ '"' :: (w2 ++ ':' :: (w3 ++ (t ++ (w4 ++ ',' :: rest1))))) ++ rest, ?_⟩
    simp only [List.append_assoc, List.cons_append]
    exact skipWs_ws_cons w1 hw1 '"' rfl _

theorem stops_ws_cons (w : List Char) (hw : IsWs w) (c : Char)
    (hc : isDigit c = false ∧ c ≠ '.' ∧ c ≠ 'e' ∧ c ≠ 'E') (r : List Char) :
    Stops (w ++ c :: r) := by
  intro d r1 e
  cases w with
  | nil =>
    simp only [List.nil_append, List.cons.injEq] at e
    rw [← e.1]
    exact hc
  | cons a w1 =>
    simp only [List.cons_append, List.cons.injEq] at e
    have ha := hw a (List.mem_cons_self _ _)
    rw [e.1] at ha
    have key : ∀ y : Char, isWs y = false → d ≠ y := by
      intro y hy e1
      rw [e1, hy] at ha
      exact Bool.noConfusion ha
    refine ⟨?_, key _ rfl, key _ rfl, key _ rfl⟩
    cases hd : isDigit d with
    | false => rfl
    | true => exact absurd ha (by rw [(isDigit_facts hd).1]; exact Bool.noConfusion)

theorem stops_ws (w : List Char) (hw : IsWs w) : Stops w := by
  have := stops_ws_cons w hw
  intro d r1 e
  cases w with
  | nil => exact absurd e (by simp)
  | cons a w1 =>
    simp only [List.cons.injEq] at e
    have ha := hw a (List.mem_cons_self _ _)
    rw [e.1] at ha
    have key : ∀ y : Char, isWs y = false → d ≠ y := by
      intro y hy e1
      rw [e1, hy] at ha
      exact Bool.noConfusion ha
    refine ⟨?_, key _ rfl, key _ rfl, key _ rfl⟩
    cases hd : isDigit d with
    | false => rfl
    | true => exact absurd ha (by rw [(isDigit_facts hd).1]; exact Bool.noConfusion)

theorem parseJson_ws (f depth : Nat) (w s : List Char) (hw : IsWs w) :
    parseJson (f + 1) depth (w ++ s) = parseJson (f + 1) depth s := by
  simp only [parseJson, skipWs_ws_append w s hw]

theorem parseJson_num (f depth : Nat) (c : Char) (hc : c = '-' ∨ isDigit c = true)
    (s : List Char) :
    parseJson (f + 1) depth (c :: s) = (parseNumber (c :: s)).map (fun p => (.num p.1, p.2)) := by
  obtain ⟨h0, h1, h2, h3, h4, h5, h6, -, -⟩ := numHead_facts hc
  simp only [parseJson, skipWs_cons h0, h1, h2, h3, h4, h5, h6, if_false]

theorem parseJson_str (f depth : Nat) (s : List Char) :
    parseJson (f + 1) depth ('"' :: s) =
      (parseStringBody f s).map (fun p => (.str (String.mk p.1), p.2)) := by
  simp only [parseJson, skipWs_cons (show isWs '"' = false from rfl), if_true]

theorem parseJson_arr (f depth : Nat) (s : List Char) (c : Char) (r : List Char)
    (hd : depth < maxNestingDepth) (hs : skipWs s = c :: r) :
    parseJson (f + 1) depth ('[' :: s) =
      if c = ']' then some (.arr [], r)
      else (parseElems f (depth + 1) s).map (fun p => (.arr p.1, p.2)) := by
  simp only [parseJson, skipWs_cons (show isWs '[' = false from rfl), if_true, hs]
  rw [if_neg (by decide), if_neg (by omega)]

theorem parseJson_obj (f depth : Nat) (s : List Char) (c : Char) (r : List Char)
    (hd : depth < maxNestingDepth) (hs : skipWs s = c :: r) :
    parseJson (f + 1) depth ('{' :: s) =
      if c = '}' then some (.obj [], r)
      else (parseMembers f (depth + 1) s).map (fun p => (.obj p.1, p.2)) := by
  simp only [parseJson, skipWs_cons (show isWs '{' = false from rfl), if_true, hs]
  rw [if_neg (by decide), if_neg (by decide), if_neg (by omega)]

/-- Every text of the grammar is read as the value it denotes, when it is nested no
deeper than the scanner allows. -/
theorem parse_complete (fuel : Nat) :
    (∀ (j : Json) (t : List Char), JsonText j t → ∀ (depth : Nat) (w rest : List Char),
      IsWs w → t.length < fuel → depth + j.depth ≤ maxNestingDepth → Stops rest →
      parseJson fuel depth (w ++ (t ++ rest)) = some (j, rest)) ∧
    (∀ (xs : List Json) (T : List Char), ElemsText xs T → ∀ (depth : Nat) (rest : List Char),
      T.length < fuel → depth + depthJsons xs ≤ maxNestingDepth →
      parseElems fuel depth (T ++ rest) = some (xs, rest)) ∧
    (∀ (ms : List (String × Json)) (T : List Char), MembersText ms T →
      ∀ (depth : Nat) (rest : List Char),
      T.length < fuel → depth + depthMembers ms ≤ maxNestingDepth →
      parseMembers fuel depth (T ++ rest) = some (ms, rest)) := by
  induction fuel with
  | zero =>
    refine ⟨?_, ?_, ?_⟩
    · intro j t _ depth w rest _ hlen; exact absurd hlen (Nat.not_lt_zero _)
    · intro xs T _ depth rest hlen; exact absurd hlen (Nat.not_lt_zero _)
    · intro ms T _ depth rest hlen; exact absurd hlen (Nat.not_lt_zero _)
  | succ f ih =>
    obtain ⟨ihJ, ihE, ihM⟩ := ih
    refine ⟨?_, ?_, ?_⟩
    · intro j t h depth w rest hw hlen hdep hstop
      rw [parseJson_ws f depth w _ hw]
      cases h with
      | null => rfl
      | true => rfl
      | false => rfl
      | num lit t hn =>
        obtain ⟨c, r, e, hc⟩ := numText_head lit t hn
        have hp := parseNumber_complete lit t hn rest hstop
        rw [e] at hp ⊢
        rw [List.cons_append] at hp ⊢
        rw [parseJson_num f depth c hc, hp]
        rfl
      | str cs t hs =>
        have hl := strText_length cs t hs
        simp only [List.length_cons, List.length_append, List.length_nil] at hlen
        have e : ('"' :: (t ++ ['"'])) ++ rest = '"' :: (t ++ '"' :: rest) := by
          simp only [List.cons_append, List.append_assoc, List.nil_append]
        rw [e, parseJson_str, parseStringBody_complete cs t hs f rest (by omega)]
        rfl
      | emptyArr w1 hw1 =>
        simp only [Json.depth, depthJsons] at hdep
        have e : ('[' :: (w1 ++ [']'])) ++ rest = '[' :: (w1 ++ ']' :: rest) := by
          simp only [List.cons_append, List.append_assoc, List.nil_append]
        rw [e, parseJson_arr f depth _ ']' rest (by omega)
          (skipWs_ws_cons w1 hw1 ']' rfl rest), if_pos rfl]
      | arr xs T hE =>
        simp only [Json.depth] at hdep
        simp only [List.length_cons] at hlen
        obtain ⟨c, r, hs, hc⟩ := elemsText_skip xs T hE rest
        rw [List.cons_append, parseJson_arr f depth _ c r (by omega) hs, if_neg hc,
          ihE xs T hE (depth + 1) rest (by omega) (by omega)]
        rfl
      | emptyObj w1 hw1 =>
        simp only [Json.depth, depthMembers] at hdep
        have e : ('{' :: (w1 ++ ['}'])) ++ rest = '{' :: (w1 ++ '}' :: rest) := by
          simp only [List.cons_append, List.append_assoc, List.nil_append]
        rw [e, parseJson_obj f depth _ '}' rest (by omega)
          (skipWs_ws_cons w1 hw1 '}' rfl rest), if_pos rfl]
      | obj ms T hM =>
        simp only [Json.depth] at hdep
        simp only [List.length_cons] at hlen
        obtain ⟨r, hs⟩ := membersText_skip ms T hM rest
        rw [List.cons_append, parseJson_obj f depth _ '"' r (by omega) hs,
          if_neg (by decide), ihM ms T hM (depth + 1) rest (by omega) (by omega)]
        rfl
    · intro xs T h depth rest hlen hdep
      cases h with
      | last x w1 t w2 hw1 ht hw2 =>
        simp only [List.length_append, List.length_cons, List.length_nil] at hlen
        simp only [depthJsons] at hdep
        have e : (w1 ++ (t ++ (w2 ++ [']']))) ++ rest = w1 ++ (t ++ (w2 ++ ']' :: rest)) := by
          simp only [List.append_assoc, List.cons_append, List.nil_append]
        have hv := ihJ x t ht depth w1 (w2 ++ ']' :: rest) hw1 (by omega) (by omega)
          (stops_ws_cons w2 hw2 ']' ⟨rfl, by decide, by decide, by decide⟩ rest)
        rw [e]
        simp only [parseElems, hv, skipWs_ws_cons w2 hw2 ']' rfl rest]
        simp
      | cons x xs1 w1 t w2 rest1 hw1 ht hw2 hr =>
        simp only [List.length_append, List.length_cons] at hlen
        simp only [depthJsons] at hdep
        have e : (w1 ++ (t ++ (w2 ++ ',' :: rest1))) ++ rest =
            w1 ++ (t ++ (w2 ++ ',' :: (rest1 ++ rest))) := by
          simp only [List.append_assoc, List.cons_append]
        have hv := ihJ x t ht depth w1 (w2 ++ ',' :: (rest1 ++ rest)) hw1 (by omega) (by omega)
          (stops_ws_cons w2 hw2 ',' ⟨rfl, by decide, by decide, by decide⟩ _)
        have ht1 := ihE xs1 rest1 hr depth rest (by omega) (by omega)
        rw [e]
        simp only [parseElems, hv, skipWs_ws_cons w2 hw2 ',' rfl _, if_true, ht1]
        rfl
    · intro ms T h depth rest hlen hdep
      cases h with
      | last k x w1 kt w2 w3 t w4 hw1 hk hw2 hw3 ht hw4 =>
        have hl := strText_length k kt hk
        simp only [List.length_append, List.length_cons, List.length_nil] at hlen
        simp only [depthMembers] at hdep
        have e : (w1 ++ '"' :: (kt ++ '"' :: (w2 ++ ':' :: (w3 ++ (t ++ (w4 ++ ['}'])))))) ++ rest
            = w1 ++ '"' :: (kt ++ '"' :: (w2 ++ ':' :: (w3 ++ (t ++ (w4 ++ '}' :: rest))))) := by
          simp only [List.append_assoc, List.cons_append, List.nil_append]
        have hkey := parseStringBody_complete k kt hk f
          (w2 ++ ':' :: (w3 ++ (t ++ (w4 ++ '}' :: rest)))) (by omega)
        have hv := ihJ x t ht depth w3 (w4 ++ '}' :: rest) hw3 (by omega) (by omega)
          (stops_ws_cons w4 hw4 '}' ⟨rfl, by decide, by decide, by decide⟩ rest)
        rw [e]
        simp only [parseMembers, skipWs_ws_cons w1 hw1 '"' rfl _, if_true, hkey,
          skipWs_ws_cons w2 hw2 ':' rfl _, hv, skipWs_ws_cons w4 hw4 '}' rfl rest]
        rfl
      | cons k x ms1 w1 kt w2 w3 t w4 rest1 hw1 hk hw2 hw3 ht hw4 hr =>
        have hl := strText_length k kt hk
        simp only [List.length_append, List.length_cons] at hlen
        simp only [depthMembers] at hdep
        have e : (w1 ++ '"' :: (kt ++ '"' :: (w2 ++ ':' :: (w3 ++ (t ++ (w4 ++ ',' :: rest1))))))
              ++ rest
            = w1 ++ '"' :: (kt ++ '"' :: (w2 ++ ':' :: (w3 ++ (t ++ (w4 ++ ',' ::
                (rest1 ++ rest)))))) := by
          simp only [List.append_assoc, List.cons_append]
        have hkey := parseStringBody_complete k kt hk f
          (w2 ++ ':' :: (w3 ++ (t ++ (w4 ++ ',' :: (rest1 ++ rest))))) (by omega)
        have hv := ihJ x t ht depth w3 (w4 ++ ',' :: (rest1 ++ rest)) hw3 (by omega) (by omega)
          (stops_ws_cons w4 hw4 ',' ⟨rfl, by decide, by decide, by decide⟩ _)
        have ht1 := ihM ms1 rest1 hr depth rest (by omega) (by omega)
        rw [e]
        simp only [parseMembers, skipWs_ws_cons w1 hw1 '"' rfl _, if_true, hkey,
          skipWs_ws_cons w2 hw2 ':' rfl _, hv, skipWs_ws_cons w4 hw4 ',' rfl _, ht1]
        rfl

/-- A JSON text nested no deeper than the scanner allows is read as its value. -/
theorem parseText_complete (data : Bytes) (j : Json) (h : IsJsonText j data)
    (hd : j.depth ≤ maxNestingDepth) : parseText data = some j := by
  obtain ⟨w1, t, w2, e, hw1, ht, hw2⟩ := h
  have hlen : t.length < data.length + 1 := by
    rw [e]
    simp only [List.length_append]
    omega
  have hp := (parse_complete (data.length + 1)).1 j t ht 0 w1 w2 hw1 hlen (by omega)
    (stops_ws w2 hw2)
  unfold parseText
  rw [← e] at hp
  rw [hp]
  have hs : skipWs w2 = [] := by
    have := skipWs_ws_append w2 [] hw2
    simpa [skipWs] using this
  simp [hs]
theorem storeString_isSome (old : String) (j : Json) (s : String)
    (h : storeString old j = some s) : j = .null ∨ ∃ x, j = .str x := by
  cases j with
  | null => exact Or.inl rfl
  | str x => exact Or.inr ⟨x, rfl⟩
  | bool b => simp [storeString] at h
  | num lit => simp [storeString] at h
  | arr xs => simp [storeString] at h
  | obj ms => simp [storeString] at h

/-- A member that is stored into a `Request` fits the field it names. -/
theorem request_setField_fits (q q1 : Request) (k : String) (j : Json)
    (h : q.setField k j = some q1) : Request.fits k j = true := by
  unfold Request.setField at h
  unfold Request.fits
  by_cases h1 : keyMatches k "id" = true
  · simp only [h1, if_true, Option.map_eq_some'] at h
    obtain ⟨s, hs, -⟩ := h
    simp only [h1, Bool.true_or, if_true]
    rcases storeString_isSome _ _ _ hs with rfl | ⟨x, rfl⟩ <;> rfl
  simp only [h1, Bool.false_eq_true, if_false] at h
  by_cases h2 : keyMatches k "service" = true
  · simp only [h2, if_true, Option.map_eq_some'] at h
    obtain ⟨s, hs, -⟩ := h
    simp only [h2, Bool.true_or, Bool.or_true, if_true]
    rcases storeString_isSome _ _ _ hs with rfl | ⟨x, rfl⟩ <;> rfl
  simp only [h2, Bool.false_eq_true, if_false] at h
  by_cases h3 : keyMatches k "method" = true
  · simp only [h3, if_true, Option.map_eq_some'] at h
    obtain ⟨s, hs, -⟩ := h
    simp only [h3, Bool.or_true, if_true]
    rcases storeString_isSome _ _ _ hs with rfl | ⟨x, rfl⟩ <;> rfl
  simp only [h3, Bool.false_eq_true, if_false] at h
  simp only [h1, h2, h3, Bool.or_self, Bool.false_eq_true, if_false]
  by_cases h4 : keyMatches k "params" = true
  · simp only [h4, if_true] at h ⊢
    cases j with
    | null => rfl
    | arr xs =>
      simp only [Option.map_eq_some'] at h
      obtain ⟨vs, hvs, -⟩ := h
      simp [hvs]
    | bool b => simp at h
    | num lit => simp at h
    | str s => simp at h
    | obj ms => simp at h
  simp only [h4, Bool.false_eq_true, if_false] at h ⊢
  by_cases h5 : keyMatches k "timeout_ms" = true
  · simp only [h5, if_true] at h ⊢
    cases j with
    | null => rfl
    | num lit =>
      simp only [Option.map_eq_some'] at h
      obtain ⟨n, hn, -⟩ := h
      simp [hn]
    | bool b => simp at h
    | arr xs => simp at h
    | str s => simp at h
    | obj ms => simp at h
  simp only [h5, Bool.false_eq_true, if_false]

/-- A member that is stored into a `Response` fits the field it names. -/
theorem response_setField_fits (q q1 : Response) (k : String) (j : Json)
    (h : q.setField k j = some q1) : Response.fits k j = true := by
  unfold Response.setField at h
  unfold Response.fits
  by_cases h1 : keyMatches k "id" = true
  · simp only [h1, if_true, Option.map_eq_some'] at h
    obtain ⟨s, hs, -⟩ := h
    simp only [h1, if_true]
    rcases storeString_isSome _ _ _ hs with rfl | ⟨x, rfl⟩ <;> rfl
  simp only [h1, Bool.false_eq_true, if_false] at h ⊢
  by_cases h2 : keyMatches k "result" = true
  · simp only [h2, if_true, Option.map_eq_some'] at h ⊢
    obtain ⟨v, hv, -⟩ := h
    simp [hv]
  simp only [h2, Bool.false_eq_true, if_false] at h ⊢
  by_cases h3 : keyMatches k "error" = true
  · simp only [h3, if_true, Option.map_eq_some'] at h
    obtain ⟨s, hs, -⟩ := h
    simp only [h3, if_true]
    rcases storeString_isSome _ _ _ hs with rfl | ⟨x, rfl⟩ <;> rfl
  simp only [h3, Bool.false_eq_true, if_false]

/-- A member that fits the field it names is stored into a `Request`. -/
theorem request_setField_of_fits (q : Request) (k : String) (j : Json)
    (h : Request.fits k j = true) : ∃ q1, q.setField k j = some q1 := by
  unfold Request.fits at h
  unfold Request.setField
  by_cases h1 : keyMatches k "id" = true
  · simp only [h1, Bool.true_or, if_true] at h ⊢
    cases j <;> simp [storeString] at h ⊢
  by_cases h2 : keyMatches k "service" = true
  · simp only [h1, h2, Bool.true_or, Bool.or_true, if_true, Bool.false_eq_true, if_false] at h ⊢
    cases j <;> simp [storeString] at h ⊢
  by_cases h3 : keyMatches k "method" = true
  · simp only [h1, h2, h3, Bool.or_true, if_true, Bool.false_eq_true, if_false] at h ⊢
    cases j <;> simp [storeString] at h ⊢
  simp only [h1, h2, h3, Bool.or_self, Bool.false_eq_true, if_false] at h ⊢
  by_cases h4 : keyMatches k "params" = true
  · simp only [h4, if_true] at h ⊢
    cases j with
    | null => exact ⟨_, rfl⟩
    | arr xs =>
      simp only [Option.isSome_iff_exists] at h
      obtain ⟨vs, hvs⟩ := h
      exact ⟨_, by simp only [hvs, Option.map_some']; rfl⟩
    | bool b => simp at h
    | num lit => simp at h
    | str s => simp at h
    | obj ms => simp at h
  simp only [h4, Bool.false_eq_true, if_false] at h ⊢
  by_cases h5 : keyMatches k "timeout_ms" = true
  · simp only [h5, if_true] at h ⊢
    cases j with
    | null => exact ⟨_, rfl⟩
    | num lit =>
      simp only [Option.isSome_iff_exists] at h
      obtain ⟨n, hn⟩ := h
      exact ⟨_, by simp only [hn, Option.map_some']; rfl⟩
    | bool b => simp at h
    | arr xs => simp at h
    | str s => simp at h
    | obj ms => simp at h
  simp only [h5, Bool.false_eq_true, if_false]
  exact ⟨_, rfl⟩

/-- A member that fits the field it names is stored into a `Response`. -/
theorem response_setField_of_fits (q : Response) (k : String) (j : Json)
    (h : Response.fits k j = true) : ∃ q1, q.setField k j = some q1 := by
  unfold Response.fits at h
  unfold Response.setField
  by_cases h1 : keyMatches k "id" = true
  · simp only [h1, if_true] at h ⊢
    cases j <;> simp [storeString] at h ⊢
  simp only [h1, Bool.false_eq_true, if_false] at h ⊢
  by_cases h2 : keyMatches k "result" = true
  · simp only [h2, if_true, Option.isSome_iff_exists] at h ⊢
    obtain ⟨v, hv⟩ := h
    exact ⟨_, by simp only [hv, Option.map_some']; rfl⟩
  simp only [h2, Bool.false_eq_true, if_false] at h ⊢
  by_cases h3 : keyMatches k "error" = true
  · simp only [h3, if_true] at h ⊢
    cases j <;> simp [storeString] at h ⊢
  simp only [h3, Bool.false_eq_true, if_false]
  exact ⟨_, rfl⟩

theorem setFields_of_fits {α : Type} (set : α → String → Json → Option α)
    (fits : String → Json → Bool)
    (hfit : ∀ (a : α) (k : String) (j : Json), fits k j = true → ∃ a1, set a k j = some a1) :
    ∀ (ms : List (String × Json)) (a : α), (∀ m ∈ ms, fits m.1 m.2 = true) →
      ∃ b, setFields set a ms = some b := by
  intro ms
  induction ms with
  | nil => intro a _; exact ⟨a, rfl⟩
  | cons p rest ih =>
    obtain ⟨k, j⟩ := p
    intro a h
    obtain ⟨a1, h1⟩ := hfit a k j (h (k, j) (List.mem_cons_self _ _))
    obtain ⟨b, hb⟩ := ih a1 (fun m hm => h m (List.mem_cons_of_mem _ hm))
    exact ⟨b, by simp only [setFields, h1, hb]⟩

/-- What `json.Unmarshal` into a struct does with a JSON text nested no deeper than
the scanner allows. -/
theorem unmarshalStruct_complete {α : Type} (set : α → String → Json → Option α) (zero : α)
    (data : Bytes) :
    (IsJsonText .null data → unmarshalStruct set zero data = some zero) ∧
      (∀ ms, IsJsonText (.obj ms) data → (Json.obj ms).depth ≤ maxNestingDepth →
        unmarshalStruct set zero data = setFields set zero ms) := by
  constructor
  · intro h
    unfold unmarshalStruct
    rw [parseText_complete data .null h (by simp [Json.depth])]
  · intro ms h hd
    unfold unmarshalStruct
    rw [parseText_complete data (.obj ms) h hd]

theorem setFields_fits {α : Type} (set : α → String → Json → Option α)
    (fits : String → Json → Bool)
    (hfit : ∀ (a a1 : α) (k : String) (j : Json), set a k j = some a1 → fits k j = true) :
    ∀ (ms : List (String × Json)) (a b : α), setFields set a ms = some b →
      ∀ m ∈ ms, fits m.1 m.2 = true := by
  intro ms
  induction ms with
  | nil => intro a b _ m hm; simp at hm
  | cons p rest ih =>
    obtain ⟨k, j⟩ := p
    intro a b h m hm
    simp only [setFields] at h
    cases hs : set a k j with
    | none => simp [hs] at h
    | some a1 =>
      simp only [hs] at h
      simp only [List.mem_cons] at hm
      rcases hm with rfl | hm
      · exact hfit a a1 k j hs
      · exact ih a1 b h m hm

/-- What `json.Unmarshal` into a struct accepts: the JSON text `null`, which stores
nothing, or the JSON text of an object whose members are stored one after the other. -/
theorem unmarshalStruct_sound {α : Type} (set : α → String → Json → Option α) (zero : α)
    (data : Bytes) (a : α) (h : unmarshalStruct set zero data = some a) :
    (IsJsonText .null data ∧ a = zero) ∨
      ∃ ms, IsJsonText (.obj ms) data ∧ setFields set zero ms = some a := by
  unfold unmarshalStruct at h
  cases hp : parseText data with
  | none => simp [hp] at h
  | some j =>
    have hj := parseText_sound data j hp
    cases j with
    | null =>
      simp only [hp, Option.some.injEq] at h
      exact Or.inl ⟨hj, h.symm⟩
    | obj ms =>
      simp only [hp] at h
      exact Or.inr ⟨ms, hj, h⟩
    | bool b => simp [hp] at h
    | num lit => simp [hp] at h
    | str s => simp [hp] at h
    | arr xs => simp [hp] at h

theorem unmarshalStruct_none_of_not_json {α : Type} (set : α → String → Json → Option α)
    (zero : α) (data : Bytes) (h : ∀ j, ¬ IsJsonText j data) :
    unmarshalStruct set zero data = none := by
  cases hu : unmarshalStruct set zero data with
  | none => rfl
  | some a =>
    rcases unmarshalStruct_sound set zero data a hu with ⟨hj, -⟩ | ⟨ms, hj, -⟩
    · exact absurd hj (h _)
    · exact absurd hj (h _)

theorem encodeResponse_error (id msg : String) :
    EncodeResponse ⟨id, .null, msg⟩ =
      .ok ("\x7b\"id\":".data ++ encodeString id ++ ",\"result\":".data ++ Value.null.encode
        ++ ",\"error\":".data ++ encodeString msg ++ ['}'] ++ ['\n']) := rfl

/-- C18: `DecodeRequest` and `DecodeResponse` never panic: each returns a message, or
else the error `failed to decode ...` with the text of the error of `json.Unmarshal`,
and no message. A text for which a message is returned is a JSON text (RFC 8259) of
`null`, and the message is the zero message, or the JSON text of an object each of
whose members fits the field it names, and the message is the zero message with the
members stored into it in their order; so a text that is no JSON text gets the error.
Conversely the JSON text `null` is accepted, and so is the JSON text of an object whose
members fit, when it is nested no deeper than the 10000 levels that the scanner allows.
On a frame for which `DecodeRequest` returns an error the handler writes the response
with the empty id and the message `decode error: ...` (a failed write is only logged)
and goes on with the next frame. -/
theorem decode_rejects_malformed (errText : ErrorText) (data : Bytes) :
    ((∃ req, DecodeRequest errText data = .ok req) ∨
        DecodeRequest errText data =
          .error ("failed to decode request: " ++ errText.request data)) ∧
      (∀ req, DecodeRequest errText data = .ok req →
        (IsJsonText .null data ∧ req = Request.zero) ∨
          ∃ ms, IsJsonText (.obj ms) data ∧ (∀ m ∈ ms, Request.fits m.1 m.2 = true) ∧
            setFields Request.setField Request.zero ms = some req) ∧
      ((∃ resp, DecodeResponse errText data = .ok resp) ∨
        DecodeResponse errText data =
          .error ("failed to decode response: " ++ errText.response data)) ∧
      (∀ resp, DecodeResponse errText data = .ok resp →
        (IsJsonText .null data ∧ resp = Response.zero) ∨
          ∃ ms, IsJsonText (.obj ms) data ∧ (∀ m ∈ ms, Response.fits m.1 m.2 = true) ∧
            setFields Response.setField Response.zero ms = some resp) ∧
      ((∀ j, ¬ IsJsonText j data) →
        DecodeRequest errText data =
            .error ("failed to decode request: " ++ errText.request data) ∧
          DecodeResponse errText data =
            .error ("failed to decode response: " ++ errText.response data)) ∧
      ((IsJsonText .null data → DecodeRequest errText data = .ok Request.zero) ∧
        ∀ ms, IsJsonText (.obj ms) data → (Json.obj ms).depth ≤ maxNestingDepth →
          (∀ m ∈ ms, Request.fits m.1 m.2 = true) →
          ∃ req, setFields Request.setField Request.zero ms = some req ∧
            DecodeRequest errText data = .ok req) ∧
      ((IsJsonText .null data → DecodeResponse errText data = .ok Response.zero) ∧
        ∀ ms, IsJsonText (.obj ms) data → (Json.obj ms).depth ≤ maxNestingDepth →
          (∀ m ∈ ms, Response.fits m.1 m.2 = true) →
          ∃ resp, setFields Response.setField Response.zero ms = some resp ∧
            DecodeResponse errText data = .ok resp) ∧
      (∀ (s : Server) (writeOk : Nat → Bool) (rest : List Bytes) (k : Nat)
        (out : List Bytes) (e : String), DecodeRequest errText data = .error e →
        ∃ frame, EncodeResponse ⟨"", .null, "decode error: " ++ e⟩ = .ok frame ∧
          s.handleLoop errText writeOk (data :: rest) k out =
            s.handleLoop errText writeOk rest (k + 1)
              (if writeOk k then out ++ [frame] else out)) := by
  refine ⟨?_, ?_, ?_, ?_, ?_, ?_, ?_, ?_⟩
  · unfold DecodeRequest
    cases unmarshalStruct Request.setField Request.zero data with
    | none => exact Or.inr rfl
    | some a => exact Or.inl ⟨a, rfl⟩
  · intro req h
    unfold DecodeRequest at h
    cases hu : unmarshalStruct Request.setField Request.zero data with
    | none => simp [hu] at h
    | some a =>
      simp only [hu, Result.ok.injEq] at h
      subst h
      rcases unmarshalStruct_sound _ _ data a hu with ⟨hj, ha⟩ | ⟨ms, hj, hs⟩
      · exact Or.inl ⟨hj, ha⟩
      · exact Or.inr ⟨ms, hj,
          setFields_fits _ Request.fits request_setField_fits ms _ _ hs, hs⟩
  · unfold DecodeResponse
    cases unmarshalStruct Response.setField Response.zero data with
    | none => exact Or.inr rfl
    | some a => exact Or.inl ⟨a, rfl⟩
  · intro resp h
    unfold DecodeResponse at h
    cases hu : unmarshalStruct Response.setField Response.zero data with
    | none => simp [hu] at h
    | some a =>
      simp only [hu, Result.ok.injEq] at h
      subst h
      rcases unmarshalStruct_sound _ _ data a hu with ⟨hj, ha⟩ | ⟨ms, hj, hs⟩
      · exact Or.inl ⟨hj, ha⟩
      · exact Or.inr ⟨ms, hj,
          setFields_fits _ Response.fits response_setField_fits ms _ _ hs, hs⟩
  · intro h
    constructor
    · unfold DecodeRequest
      rw [unmarshalStruct_none_of_not_json _ _ data h]
    · unfold DecodeResponse
      rw [unmarshalStruct_none_of_not_json _ _ data h]
  · constructor
    · intro h
      unfold DecodeRequest
      rw [(unmarshalStruct_complete _ _ data).1 h]
    · intro ms h hd hfit
      obtain ⟨req, hreq⟩ := setFields_of_fits Request.setField Request.fits
        request_setField_of_fits ms Request.zero hfit
      refine ⟨req, hreq, ?_⟩
      unfold DecodeRequest
      rw [(unmarshalStruct_complete _ _ data).2 ms h hd, hreq]
  · constructor
    · intro h
      unfold DecodeResponse
      rw [(unmarshalStruct_complete _ _ data).1 h]
    · intro ms h hd hfit
      obtain ⟨resp, hresp⟩ := setFields_of_fits Response.setField Response.fits
        response_setField_of_fits ms Response.zero hfit
      refine ⟨resp, hresp, ?_⟩
      unfold DecodeResponse
      rw [(unmarshalStruct_complete _ _ data).2 ms h hd, hresp]
  · intro s writeOk rest k out e h
    refine ⟨_, encodeResponse_error "" ("decode error: " ++ e), ?_⟩
    by_cases hw : writeOk k = true
    · simp only [Server.handleLoop, h, sendError, encodeResponse_error, hw, if_true]
    · simp only [Server.handleLoop, h, sendError, encodeResponse_error, hw, if_false,
        Bool.false_eq_true]

/-- Counterexample to C18 as stated: the frames `null` and the empty object are no
encoding of a request (every encoding starts with the member `id`), and yet
`DecodeRequest` and `DecodeResponse` return the zero message for them and no error; the
handler then dispatches the zero request instead of sending a decode error. -/
theorem decode_accepts_null :
    (∀ errText : ErrorText, DecodeRequest errText "null\n".data = .ok Request.zero) ∧
      (∀ errText : ErrorText, DecodeRequest errText "\x7b\x7d\n".data = .ok Request.zero) ∧
      (∀ errText : ErrorText, DecodeResponse errText "null\n".data = .ok Response.zero) ∧
      (∀ (r : Request) (data : Bytes), EncodeRequest r = .ok data →
        ∃ rest, data = '{' :: '"' :: 'i' :: 'd' :: '"' :: ':' :: rest) ∧
      (∀ errText : ErrorText,
        calculatorServer.HandleConnection errText ⟨["null\n".data], fun _ => true⟩ =
          (["\x7b\"id\":\"\",\"result\":null,\"error\":\"service not found: \"\x7d\n".data],
            .returned)) := by
  refine ⟨fun _ => rfl, fun _ => rfl, fun _ => rfl, ?_, fun _ => rfl⟩
  intro r data h
  unfold EncodeRequest marshalRequest at h
  cases he : unsupportedTypeList (r.Params.getD []) with
  | some t => simp [he] at h
  | none =>
    simp only [he] at h
    cases h
    exact ⟨_, rfl⟩

/-- Witness of C18: a frame that breaks off inside an object and a frame whose `id`
is a number get the decode error, and the handler answers the first with an error
response before it handles the rest. -/
theorem decode_rejects_malformed_witness :
    DecodeRequest ⟨fun _ => "unexpected end of JSON input", fun _ => ""⟩
        "\x7b\"id\":\"1\",\"service\":\n".data =
      .error ("failed to decode request: " ++ "unexpected end of JSON input") ∧
    DecodeRequest ⟨fun _ => "", fun _ => ""⟩ "\x7b\"id\":1\x7d\n".data =
      .error ("failed to decode request: " ++ "") ∧
    ∃ frame, EncodeResponse ⟨"", .null,
          "decode error: " ++ "failed to decode request: unexpected end of JSON input"⟩ =
        .ok frame ∧
      calculatorServer.handleLoop ⟨fun _ => "unexpected end of JSON input", fun _ => ""⟩
          (fun _ => true) ("\x7b\"id\":\"1\",\"service\":\n".data :: [addLine]) 0 [] =
        calculatorServer.handleLoop ⟨fun _ => "unexpected end of JSON input", fun _ => ""⟩
          (fun _ => true) [addLine] (0 + 1) (if (fun _ => true) 0 then [] ++ [frame] else []) :=
  ⟨rfl, rfl,
    (decode_rejects_malformed ⟨fun _ => "unexpected end of JSON input", fun _ => ""⟩
      "\x7b\"id\":\"1\",\"service\":\n".data).2.2.2.2.2.2.2 calculatorServer (fun _ => true)
      [addLine] 0 [] "failed to decode request: unexpected end of JSON input" rfl⟩

end Rpc
namespace PubSub

open Rpc (Value Result mapGet? mapSet mapDelete)

/-! ### Topics and the state invariant -/

/-- C19, evaluated: after the only subscriber of topic `t` has been unsubscribed,
`GetSubscriberCount` is 0 and yet `GetTopics` still lists `t`, because `Unsubscribe`
stores the emptied list under the topic; `Close` in the same state of one subscriber
deletes the topic. -/
theorem unsubscribed_topic_still_listed :
    (NewBroker.run [.subscribe "t", .unsubscribe "t" 0]).GetSubscriberCount "t" = 0 ∧
      (NewBroker.run [.subscribe "t", .unsubscribe "t" 0]).GetTopics = ["t"] ∧
      (NewBroker.run [.subscribe "t", .unsubscribe "t" 0]).subscribers = [("t", [])] ∧
      (NewBroker.run [.subscribe "t", .close]).GetTopics = [] :=
  ⟨rfl, rfl, rfl, rfl⟩

theorem subs_step {b : Broker} (hI : Inv b) (op : Op) (topic : String) (ch : Nat)
    (h : ch ∈ (b.step op).subs topic) :
    ch ∈ b.subs topic ∨ (op = .subscribe topic ∧ (b.Subscribe topic).2 = .ok ch) := by
  cases op with
  | subscribe t =>
    simp only [Broker.step] at h
    cases hcl : b.closed with
    | true =>
      left
      simpa [Broker.Subscribe, hcl] using h
    | false =>
      simp only [Broker.Subscribe, hcl, Broker.subs] at h
      by_cases ht : topic = t
      · subst ht
        simp only [Bool.false_eq_true, if_false, mapGet?_mapSet_self, Option.getD_some,
          List.mem_append, List.mem_singleton] at h
        rcases h with h | h
        · exact Or.inl h
        · right
          simp [Broker.Subscribe, hcl, h]
      · left
        simp only [Bool.false_eq_true, if_false] at h
        rw [Rpc.mapGet?_mapSet_other _ _ _ _ ht] at h
        exact h
  | publish t payload now =>
    left
    simp only [Broker.step] at h
    cases hcl : b.closed with
    | true => simpa [Broker.Publish, hcl] using h
    | false =>
      obtain ⟨chans1, hp, -⟩ := publish_spec hI hcl t payload now
      rw [hp] at h
      exact h
  | unsubscribe t c =>
    left
    simp only [Broker.step] at h
    by_cases hmem : c ∈ b.subs t
    · obtain ⟨c0, -, -, hu⟩ := unsubscribe_spec hI t c hmem
      rw [hu] at h
      simp only [Broker.subs] at h
      by_cases ht : topic = t
      · subst ht
        simp only [mapGet?_mapSet_self, Option.getD_some] at h
        exact List.mem_of_mem_erase h
      · rw [Rpc.mapGet?_mapSet_other _ _ _ _ ht] at h
        exact h
    · rw [unsubscribe_absent b t c hmem] at h
      exact h
  | close =>
    left
    simp only [Broker.step] at h
    cases hcl : b.closed with
    | true => simpa [Broker.Close, hcl] using h
    | false =>
      obtain ⟨chans1, hc, -⟩ := close_spec hI hcl
      rw [hc] at h
      simp [Broker.subs, mapGet?] at h
  | receive c =>
    left
    simp only [Broker.step, Broker.Receive] at h
    cases hc : b.chans[c]? with
    | none => simpa [hc] using h
    | some c0 =>
      cases hb : c0.buf with
      | nil => simpa [hc, hb] using h
      | cons m rest => simpa [hc, hb, Broker.subs] using h

/-- C20: in every state reachable from `NewBroker` each channel listed in the topic map
is open, has capacity 100 and holds at most 100 messages; no channel is listed twice,
under one topic or under two; a channel comes to be listed under a topic only by the
`Subscribe` of that topic which returned it; once `closed` is set the topic map is
empty. Hence `Publish` returns nil or `broker is closed` and never panics on a closed
channel, and `Unsubscribe` and `Close` return without the panic of a second close. -/
theorem broker_invariant (b : Broker) (hb : Reachable b) :
    (∀ ch ∈ allSubs b.subscribers, ∃ c : Chan,
        b.chans[ch]? = some c ∧ c.closed = false ∧ c.cap = 100 ∧ c.buf.length ≤ 100) ∧
      (allSubs b.subscribers).Nodup ∧
      (∀ topic ch, ch ∈ b.subs topic → ch ∈ allSubs b.subscribers) ∧
      (∀ op topic ch, ch ∈ (b.step op).subs topic →
        ch ∈ b.subs topic ∨ (op = .subscribe topic ∧ (b.Subscribe topic).2 = .ok ch)) ∧
      (b.closed = true → b.subscribers = []) ∧
      (∀ topic payload now, (b.Publish topic payload now).2 = .ok () ∨
        (b.closed = true ∧ b.Publish topic payload now = (b, .error "broker is closed"))) ∧
      (∀ topic ch, (b.Unsubscribe topic ch).2 = .ok ()) ∧
      b.Close.2 = .ok () := by
  have hI := hb.inv
  refine ⟨?_, hI.nodup, fun topic ch h => subs_subset b topic ch h,
    fun op topic ch h => subs_step hI op topic ch h, hI.closedEmpty, ?_, ?_, (close_effect hI).1⟩
  · intro ch hch
    obtain ⟨c, hc, hopen⟩ := hI.listedOpen ch hch
    exact ⟨c, hc, hopen, (hI.bounded ch c hc).1, (hI.bounded ch c hc).2⟩
  · intro topic payload now
    cases hcl : b.closed with
    | true =>
      right
      exact ⟨rfl, by simp [Broker.Publish, hcl]⟩
    | false =>
      left
      obtain ⟨chans1, hp, -⟩ := publish_spec hI hcl topic payload now
      rw [hp]
  · intro topic ch
    by_cases hmem : ch ∈ b.subs topic
    · obtain ⟨c0, -, -, hu⟩ := unsubscribe_spec hI topic ch hmem
      rw [hu]
    · rw [unsubscribe_absent b topic ch hmem]

/-- Witness of C20: the broker after two subscriptions to one topic and one to another,
a publication and an unsubscription. -/
theorem broker_invariant_witness :
    (allSubs (NewBroker.run [.subscribe "t", .subscribe "t", .subscribe "u",
        .publish "t" (.int 1) 3, .unsubscribe "t" 0]).subscribers).Nodup ∧
      (NewBroker.run [.subscribe "t", .subscribe "t", .subscribe "u",
        .publish "t" (.int 1) 3, .unsubscribe "t" 0]).Close.2 = .ok () :=
  ⟨(broker_invariant _ (Reachable.unsubscribe "t" 0 (Reachable.publish "t" (.int 1) 3
      (Reachable.subscribe "u" (Reachable.subscribe "t"
        (Reachable.subscribe "t" Reachable.init)))))).2.1,
   (broker_invariant _ (Reachable.unsubscribe "t" 0 (Reachable.publish "t" (.int 1) 3
      (Reachable.subscribe "u" (Reachable.subscribe "t"
        (Reachable.subscribe "t" Reachable.init)))))).2.2.2.2.2.2.2⟩

end PubSub
